import Mathlib

/-!
Shallow embedding of the weighted-graph engine of `graph.go` (package
`distance`) and proofs about it.

Modelling conventions, fixed once for the whole file:

* Go `float64` edge weights are modelled as `ℚ`.  The algorithms only ever
  add weights and compare with `<`, and the only non-finite value that can
  arise is `+Inf` (from `math.Inf(1)`), so runtime float values are modelled
  as `Option ℚ` with `none` playing the role of `+Inf`.  The operations
  `dAdd`, `dAddO`, `dLt` below mirror IEEE behaviour on this subdomain:
  `+Inf + w = +Inf`, `a < +Inf` for finite `a`, `¬(+Inf < +Inf)`.
* A Go `map` is modelled as an association list together with Go's
  zero-value semantics for reads of missing keys: reading a missing key of a
  `map[int]float64` yields `0.0` (`dget`), of a `map[int]int` yields `0`
  (`iget`).  Writes (`aset`) overwrite the existing entry or append.
* A `Graph` is exactly the reachable states of the Go `Graph` type: the
  sequence of `AddEdge` calls that built it.  The node registry `g.nodes`
  and the adjacency `g.adjacency` are derived from that sequence with
  last-write-wins weights, exactly as in the Go code.
* Go map iteration order is runtime-chosen; the embedding fixes a canonical
  order (first-insertion order) for each map.  Where a claim is about
  order (in)dependence, the function is additionally parametrised by the
  iteration order.
* `container/heap` is standard-library code, not part of this repository;
  the priority queue is modelled by its documented contract: `Pop` removes
  and returns an element of minimal priority (`Less` compares priorities
  strictly, so tie order among equal priorities is unspecified; the model
  takes the earliest such element).
-/

/-! ### Association lists with Go map semantics -/

/-- Lookup in an association list (first matching key). -/
def alook {α : Type} : List (Int × α) → Int → Option α
  | [], _ => none
  | p :: rest, k => if p.1 = k then some p.2 else alook rest k

/-- Write to an association list: overwrite the first entry with this key,
or append a new entry.  Models a Go map write. -/
def aset {α : Type} : List (Int × α) → Int → α → List (Int × α)
  | [], k, v => [(k, v)]
  | p :: rest, k, v => if p.1 = k then (k, v) :: rest else p :: aset rest k v

/-- Read of a Go `map[int]float64` value: a missing key reads as `0.0`. -/
def dget (m : List (Int × Option ℚ)) (k : Int) : Option ℚ :=
  (alook m k).getD (some 0)

/-- Read of a Go `map[int]int` value: a missing key reads as `0`. -/
def iget (m : List (Int × Int)) (k : Int) : Int :=
  (alook m k).getD 0

/-- Append an element to a list if it is not already present.  Used to build
canonical first-insertion enumerations of Go map key sets. -/
def addNode (acc : List Int) (n : Int) : List Int :=
  if n ∈ acc then acc else acc ++ [n]

theorem alook_aset {α : Type} (m : List (Int × α)) (k k' : Int) (v : α) :
    alook (aset m k v) k' = if k = k' then some v else alook m k' := by
  induction m with
  | nil => simp [aset, alook]
  | cons p rest ih =>
    simp only [aset]
    by_cases h1 : p.1 = k
    · simp only [if_pos h1, alook]
      by_cases h2 : k = k'
      · simp [h2]
      · simp [alook, h1, h2]
    · simp only [if_neg h1, alook]
      by_cases h2 : p.1 = k'
      · have hkk : ¬ k = k' := fun he => h1 (by rw [he, h2])
        simp [h2, hkk]
      · simp [h2, ih]

theorem alook_aset_self {α : Type} (m : List (Int × α)) (k : Int) (v : α) :
    alook (aset m k v) k = some v := by
  simp [alook_aset]

theorem alook_aset_ne {α : Type} (m : List (Int × α)) (k k' : Int) (v : α)
    (h : k ≠ k') : alook (aset m k v) k' = alook m k' := by
  simp [alook_aset, h]

theorem mem_addNode (acc : List Int) (n x : Int) :
    x ∈ addNode acc n ↔ x ∈ acc ∨ x = n := by
  by_cases h : n ∈ acc
  · simp only [addNode, if_pos h]
    constructor
    · exact fun hx => Or.inl hx
    · rintro (hx | rfl) <;> assumption
  · simp [addNode, if_neg h]

theorem addNode_nodup (acc : List Int) (n : Int) (h : acc.Nodup) :
    (addNode acc n).Nodup := by
  by_cases hm : n ∈ acc
  · simpa [addNode, hm] using h
  · simp only [addNode, if_neg hm]
    refine List.nodup_append.mpr ⟨h, List.nodup_singleton n, ?_⟩
    intro x hx hxn
    rw [List.mem_singleton] at hxn
    exact hm (hxn ▸ hx)

theorem addNode_sub (acc : List Int) (n : Int) : acc ⊆ addNode acc n := by
  intro x hx; exact (mem_addNode acc n x).mpr (Or.inl hx)

/-! ### Float values: finite rational or `+Inf` -/

/-- Go `someFloat + w` where `w` is a finite weight. -/
def dAdd : Option ℚ → ℚ → Option ℚ
  | none, _ => none
  | some a, w => some (a + w)

/-- Go `x + y` for two possibly-infinite values (used by Floyd-Warshall). -/
def dAddO : Option ℚ → Option ℚ → Option ℚ
  | some a, some b => some (a + b)
  | _, _ => none

/-- Go `x < y` on {finite, +Inf}: `+Inf` is never `<` anything, every finite
value is `<` `+Inf`. -/
def dLt : Option ℚ → Option ℚ → Bool
  | none, _ => false
  | some _, none => true
  | some a, some b => decide (a < b)

/-- Non-strict counterpart of `dLt` (not a Go operation; used in specs). -/
def dLe (a b : Option ℚ) : Bool := !(dLt b a)

theorem dLt_none (a : Option ℚ) : dLt none a = false := by cases a <;> rfl

theorem dLe_refl (a : Option ℚ) : dLe a a = true := by
  cases a with
  | none => rfl
  | some q => simp [dLe, dLt]

theorem dLe_trans {a b c : Option ℚ} (h1 : dLe a b = true) (h2 : dLe b c = true) :
    dLe a c = true := by
  cases a <;> cases b <;> cases c <;> simp_all [dLe, dLt] <;> linarith

theorem dLe_some_none (a : ℚ) : dLe (some a) none = true := by simp [dLe, dLt]

theorem dLe_some_some {a b : ℚ} : dLe (some a) (some b) = true ↔ a ≤ b := by
  simp [dLe, dLt]

theorem dLe_none_iff (a : Option ℚ) : dLe none a = true ↔ a = none := by
  cases a <;> simp [dLe, dLt]

theorem dLt_some_some {a b : ℚ} : dLt (some a) (some b) = true ↔ a < b := by
  simp [dLt]

theorem dLt_or_dLe (a b : Option ℚ) : dLt a b = true ∨ dLe b a = true := by
  cases a with
  | none => right; cases b <;> simp [dLe, dLt]
  | some qa =>
    cases b with
    | none => left; rfl
    | some qb =>
      rcases lt_or_le qa qb with h | h
      · left; simpa [dLt]
      · right; simpa [dLe, dLt] using h

/-! ### The graph store (`Graph`, `NewGraph`, `AddEdge`, `AddUndirectedEdge`) -/

/-- A `Graph` is identified with the sequence of `AddEdge(from, to, weight)`
calls that built it; this is exactly the set of reachable states of the Go
type, whose only mutator is `AddEdge`. -/
structure Graph where
  edges : List (Int × Int × ℚ)

/-- `NewGraph()` creates an empty graph. -/
def NewGraph : Graph := ⟨[]⟩

/-- `AddEdge` registers both endpoints and stores/overwrites the directed
weight (the derived views below implement registration and overwriting). -/
def Graph.AddEdge (g : Graph) (u v : Int) (w : ℚ) : Graph :=
  ⟨g.edges ++ [(u, v, w)]⟩

/-- `AddUndirectedEdge(a, b, w)` is exactly `AddEdge(a,b,w); AddEdge(b,a,w)`. -/
def Graph.AddUndirectedEdge (g : Graph) (a b : Int) (w : ℚ) : Graph :=
  (g.AddEdge a b w).AddEdge b a w

/-- The key set of `g.nodes` in canonical (first-insertion) order: every
endpoint of every `AddEdge` call, in order of first registration. -/
def Graph.nodeList (g : Graph) : List Int :=
  g.edges.foldl (fun acc e => addNode (addNode acc e.1) e.2.1) []

/-- The key set of `g.adjacency` in canonical order: every `from` endpoint. -/
def Graph.adjKeys (g : Graph) : List Int :=
  g.edges.foldl (fun acc e => addNode acc e.1) []

/-- The entries of `g.adjacency[u]` (neighbor, weight), with last-write-wins
weights, keyed in first-insertion order. -/
def Graph.adjOf (g : Graph) (u : Int) : List (Int × ℚ) :=
  g.edges.foldl (fun acc e => if e.1 = u then aset acc e.2.1 e.2.2 else acc) []

/-- The current weight of the directed edge `u → v`, if present. -/
def Graph.wOf (g : Graph) (u v : Int) : Option ℚ :=
  alook (g.adjOf u) v

/-- All current directed edges `(from, to, weight)` in canonical order:
the iteration `for from := range g.adjacency { for to := range ... }`. -/
def Graph.effEdges (g : Graph) : List (Int × Int × ℚ) :=
  g.adjKeys.bind (fun u => (g.adjOf u).map (fun p => (u, p.1, p.2)))

theorem foldl_addNode_mem (l : List (Int × Int × ℚ))
    (f : Int × Int × ℚ → List Int → List Int)
    (hf : ∀ e acc, acc ⊆ f e acc)
    (acc : List Int) (x : Int) (hx : x ∈ acc) :
    x ∈ l.foldl (fun a e => f e a) acc := by
  induction l generalizing acc with
  | nil => exact hx
  | cons e rest ih => exact ih _ (hf e acc hx)

theorem nodeList_sub_aux (l : List (Int × Int × ℚ)) (acc : List Int) (x : Int)
    (hx : x ∈ acc) :
    x ∈ l.foldl (fun a e => addNode (addNode a e.1) e.2.1) acc :=
  foldl_addNode_mem l _ (fun e a => (addNode_sub _ _).trans (addNode_sub _ _)) acc x hx

theorem mem_nodeList_aux (l : List (Int × Int × ℚ)) (acc : List Int) (x : Int) :
    x ∈ l.foldl (fun a e => addNode (addNode a e.1) e.2.1) acc ↔
      x ∈ acc ∨ ∃ e ∈ l, x = e.1 ∨ x = e.2.1 := by
  induction l generalizing acc with
  | nil => simp
  | cons e rest ih =>
    rw [List.foldl_cons, ih]
    constructor
    · rintro (hm | ⟨e', he', hx⟩)
      · rcases (mem_addNode _ _ _).mp hm with hm2 | rfl
        · rcases (mem_addNode _ _ _).mp hm2 with hm3 | rfl
          · exact Or.inl hm3
          · exact Or.inr ⟨e, List.mem_cons_self _ _, Or.inl rfl⟩
        · exact Or.inr ⟨e, List.mem_cons_self _ _, Or.inr rfl⟩
      · exact Or.inr ⟨e', List.mem_cons_of_mem _ he', hx⟩
    · rintro (hm | ⟨e', he', hx⟩)
      · exact Or.inl ((addNode_sub _ _) ((addNode_sub _ _) hm))
      · rcases List.mem_cons.mp he' with rfl | he2
        · rcases hx with rfl | rfl
          · exact Or.inl ((addNode_sub _ _) ((mem_addNode _ _ _).mpr (Or.inr rfl)))
          · exact Or.inl ((mem_addNode _ _ _).mpr (Or.inr rfl))
        · exact Or.inr ⟨e', he2, hx⟩

/-- Membership in the node registry: exactly the endpoints ever added. -/
theorem mem_nodeList (g : Graph) (x : Int) :
    x ∈ g.nodeList ↔ ∃ e ∈ g.edges, x = e.1 ∨ x = e.2.1 := by
  simpa using mem_nodeList_aux g.edges [] x

theorem mem_adjKeys_aux (l : List (Int × Int × ℚ)) (acc : List Int) (x : Int) :
    x ∈ l.foldl (fun a e => addNode a e.1) acc ↔ x ∈ acc ∨ ∃ e ∈ l, x = e.1 := by
  induction l generalizing acc with
  | nil => simp
  | cons e rest ih =>
    rw [List.foldl_cons, ih]
    constructor
    · rintro (hm | ⟨e', he', hx⟩)
      · rcases (mem_addNode _ _ _).mp hm with hm2 | rfl
        · exact Or.inl hm2
        · exact Or.inr ⟨e, List.mem_cons_self _ _, rfl⟩
      · exact Or.inr ⟨e', List.mem_cons_of_mem _ he', hx⟩
    · rintro (hm | ⟨e', he', hx⟩)
      · exact Or.inl ((addNode_sub _ _) hm)
      · rcases List.mem_cons.mp he' with rfl | he2
        · exact Or.inl ((mem_addNode _ _ _).mpr (Or.inr hx))
        · exact Or.inr ⟨e', he2, hx⟩

theorem mem_adjKeys (g : Graph) (x : Int) :
    x ∈ g.adjKeys ↔ ∃ e ∈ g.edges, x = e.1 := by
  simpa using mem_adjKeys_aux g.edges [] x

theorem adjKeys_sub_nodeList (g : Graph) : g.adjKeys ⊆ g.nodeList := by
  intro x hx
  rcases (mem_adjKeys g x).mp hx with ⟨e, he, rfl⟩
  exact (mem_nodeList g e.1).mpr ⟨e, he, Or.inl rfl⟩

theorem mem_aset_keys {α : Type} (m : List (Int × α)) (k : Int) (v : α) (x : Int) :
    (∃ w, (x, w) ∈ aset m k v) ↔ (∃ w, (x, w) ∈ m) ∨ x = k := by
  induction m with
  | nil => simp [aset, Prod.ext_iff]
  | cons p rest ih =>
    by_cases h1 : p.1 = k
    · simp only [aset, if_pos h1]
      constructor
      · rintro ⟨w, hw⟩
        rcases List.mem_cons.mp hw with he | hm
        · exact Or.inr (congrArg Prod.fst he)
        · exact Or.inl ⟨w, List.mem_cons_of_mem p hm⟩
      · rintro (⟨w, hw⟩ | rfl)
        · rcases List.mem_cons.mp hw with he | hm
          · have hx : x = k := (congrArg Prod.fst he).trans h1
            exact ⟨v, by rw [hx]; exact List.mem_cons_self _ _⟩
          · exact ⟨w, List.mem_cons_of_mem _ hm⟩
        · exact ⟨v, List.mem_cons_self _ _⟩
    · simp only [aset, if_neg h1]
      constructor
      · rintro ⟨w, hw⟩
        rcases List.mem_cons.mp hw with he | hm
        · exact Or.inl ⟨w, List.mem_cons.mpr (Or.inl he)⟩
        · rcases ih.mp ⟨w, hm⟩ with ⟨w2, hw2⟩ | hx
          · exact Or.inl ⟨w2, List.mem_cons_of_mem _ hw2⟩
          · exact Or.inr hx
      · rintro (⟨w, hw⟩ | hx)
        · rcases List.mem_cons.mp hw with he | hm
          · exact ⟨w, List.mem_cons.mpr (Or.inl he)⟩
          · rcases ih.mpr (Or.inl ⟨w, hm⟩) with ⟨w2, hw2⟩
            exact ⟨w2, List.mem_cons_of_mem _ hw2⟩
        · rcases ih.mpr (Or.inr hx) with ⟨w2, hw2⟩
          exact ⟨w2, List.mem_cons_of_mem _ hw2⟩

theorem mem_adjOf_aux (l : List (Int × Int × ℚ)) (u : Int) (acc : List (Int × ℚ)) (x : Int) :
    (∃ w, (x, w) ∈ l.foldl (fun a e => if e.1 = u then aset a e.2.1 e.2.2 else a) acc) ↔
      (∃ w, (x, w) ∈ acc) ∨ ∃ e ∈ l, e.1 = u ∧ e.2.1 = x := by
  induction l generalizing acc with
  | nil => simp
  | cons e rest ih =>
    rw [List.foldl_cons]
    by_cases h1 : e.1 = u
    · rw [if_pos h1, ih]
      constructor
      · rintro (hm | ⟨e', he', hu, hx⟩)
        · rcases (mem_aset_keys acc e.2.1 e.2.2 x).mp hm with hm2 | rfl
          · exact Or.inl hm2
          · exact Or.inr ⟨e, List.mem_cons_self _ _, h1, rfl⟩
        · exact Or.inr ⟨e', List.mem_cons_of_mem _ he', hu, hx⟩
      · rintro (hm | ⟨e', he', hu, hx⟩)
        · exact Or.inl ((mem_aset_keys acc e.2.1 e.2.2 x).mpr (Or.inl hm))
        · rcases List.mem_cons.mp he' with rfl | he2
          · exact Or.inl ((mem_aset_keys acc e'.2.1 e'.2.2 x).mpr (Or.inr hx.symm))
          · exact Or.inr ⟨e', he2, hu, hx⟩
    · rw [if_neg h1, ih]
      constructor
      · rintro (hm | ⟨e', he', hu, hx⟩)
        · exact Or.inl hm
        · exact Or.inr ⟨e', List.mem_cons_of_mem _ he', hu, hx⟩
      · rintro (hm | ⟨e', he', hu, hx⟩)
        · exact Or.inl hm
        · rcases List.mem_cons.mp he' with rfl | he2
          · exact absurd hu h1
          · exact Or.inr ⟨e', he2, hu, hx⟩

/-- The adjacency key set of `u` consists of the `to` endpoints added from `u`. -/
theorem mem_adjOf (g : Graph) (u x : Int) :
    (∃ w, (x, w) ∈ g.adjOf u) ↔ ∃ e ∈ g.edges, e.1 = u ∧ e.2.1 = x := by
  simpa using mem_adjOf_aux g.edges u [] x

theorem adjOf_fst_mem_nodeList (g : Graph) (u : Int) (p : Int × ℚ)
    (hp : p ∈ g.adjOf u) : p.1 ∈ g.nodeList := by
  rcases (mem_adjOf g u p.1).mp ⟨p.2, hp⟩ with ⟨e, he, _, hx⟩
  exact (mem_nodeList g p.1).mpr ⟨e, he, Or.inr hx.symm⟩

theorem adjOf_nonempty_mem_nodeList (g : Graph) (u : Int)
    (h : g.adjOf u ≠ []) : u ∈ g.nodeList := by
  rcases List.exists_mem_of_ne_nil _ h with ⟨p, hp⟩
  rcases (mem_adjOf g u p.1).mp ⟨p.2, hp⟩ with ⟨e, he, he1, _⟩
  exact (mem_nodeList g u).mpr ⟨e, he, Or.inl he1.symm⟩

theorem alook_eq_some_mem {α : Type} {k : Int} {v : α} :
    ∀ {m : List (Int × α)}, alook m k = some v → (k, v) ∈ m := by
  intro m
  induction m with
  | nil => intro h; simp [alook] at h
  | cons p rest ih =>
    intro h
    by_cases hp : p.1 = k
    · simp only [alook, if_pos hp] at h
      obtain rfl : p.2 = v := Option.some.inj h
      obtain rfl : p.1 = k := hp
      exact List.mem_cons_self _ _
    · simp only [alook, if_neg hp] at h
      exact List.mem_cons_of_mem _ (ih h)

theorem mem_alook_eq_some {α : Type} {m : List (Int × α)} {k : Int} {v : α}
    (hnd : (m.map Prod.fst).Nodup) (hm : (k, v) ∈ m) : alook m k = some v := by
  induction m with
  | nil => cases hm
  | cons p rest ih =>
    rcases List.mem_cons.mp hm with rfl | hm2
    · simp [alook]
    · have hp : p.1 ≠ k := by
        intro he
        have : k ∈ rest.map Prod.fst := List.mem_map.mpr ⟨(k, v), hm2, rfl⟩
        rw [List.map_cons, List.nodup_cons, he] at hnd
        exact hnd.1 this
      simp only [alook, if_neg hp]
      exact ih (by rw [List.map_cons, List.nodup_cons] at hnd; exact hnd.2) hm2

/-- An existing directed edge registers both endpoints. -/
theorem wOf_mem_nodeList {g : Graph} {u v : Int} {w : ℚ} (h : g.wOf u v = some w) :
    u ∈ g.nodeList ∧ v ∈ g.nodeList := by
  have hmem : (v, w) ∈ g.adjOf u := alook_eq_some_mem h
  constructor
  · refine adjOf_nonempty_mem_nodeList g u ?_
    intro he
    rw [he] at hmem
    cases hmem
  · exact adjOf_fst_mem_nodeList g u (v, w) hmem

theorem wOf_none_of_adjOf_nil {g : Graph} {u : Int} (h : g.adjOf u = []) (v : Int) :
    g.wOf u v = none := by
  unfold Graph.wOf
  rw [h]
  rfl

/-! ### Priority queue (contract model of `container/heap` over `priorityQueue`) -/

/-- Pop a minimum-priority element, as `heap.Pop` does on the repository's
`priorityQueue` (whose `Less` compares `priority` with `<`).  Tie order among
equal priorities is heap-layout defined in Go and unspecified; the model
returns the earliest minimal element. -/
def popMin : List (Int × Option ℚ) → Option ((Int × Option ℚ) × List (Int × Option ℚ))
  | [] => none
  | x :: xs =>
    match popMin xs with
    | none => some (x, [])
    | some (m, r) => if dLe x.2 m.2 then some (x, xs) else some (m, x :: r)

theorem dLt_imp_dLe {a b : Option ℚ} (h : dLt a b = true) : dLe a b = true := by
  cases a <;> cases b <;> simp_all [dLt, dLe] <;> linarith

theorem popMin_eq_none {l : List (Int × Option ℚ)} : popMin l = none ↔ l = [] := by
  cases l with
  | nil => simp [popMin]
  | cons x xs =>
    simp only [popMin]
    constructor
    · intro h
      cases hm : popMin xs with
      | none => rw [hm] at h; cases h
      | some p => rw [hm] at h; cases p; dsimp at h; split at h <;> cases h
    · intro h; cases h

theorem popMin_perm {l : List (Int × Option ℚ)} {m : Int × Option ℚ}
    {r : List (Int × Option ℚ)} (h : popMin l = some (m, r)) :
    List.Perm l (m :: r) := by
  induction l generalizing m r with
  | nil => cases h
  | cons x xs ih =>
    simp only [popMin] at h
    cases hm : popMin xs with
    | none =>
      rw [hm] at h
      cases h
      have : xs = [] := popMin_eq_none.mp hm
      subst this
      exact List.Perm.refl _
    | some p =>
      rw [hm] at h
      cases p with
      | mk m0 r0 =>
        dsimp at h
        split at h
        · cases h
          exact List.Perm.refl _
        · cases h
          exact (List.Perm.cons x (ih hm)).trans (List.Perm.swap _ _ _)

theorem popMin_min {l : List (Int × Option ℚ)} {m : Int × Option ℚ}
    {r : List (Int × Option ℚ)} (h : popMin l = some (m, r)) :
    ∀ y ∈ l, dLe m.2 y.2 = true := by
  induction l generalizing m r with
  | nil => cases h
  | cons x xs ih =>
    simp only [popMin] at h
    cases hm : popMin xs with
    | none =>
      rw [hm] at h
      cases h
      have : xs = [] := popMin_eq_none.mp hm
      subst this
      intro y hy
      rcases List.mem_singleton.mp hy with rfl
      exact dLe_refl _
    | some p =>
      rw [hm] at h
      cases p with
      | mk m0 r0 =>
        dsimp at h
        split at h
        · cases h
          intro y hy
          rcases List.mem_cons.mp hy with rfl | hy2
          · exact dLe_refl _
          · exact dLe_trans (by assumption) (ih hm y hy2)
        · cases h
          intro y hy
          rcases List.mem_cons.mp hy with rfl | hy2
          · rename_i hnle
            have hlt : dLt m.2 y.2 = true := by
              rcases dLt_or_dLe m.2 y.2 with h1 | h1
              · exact h1
              · exact absurd h1 (by simpa [dLe] using hnle)
            exact dLt_imp_dLe hlt
          · exact ih hm y hy2

theorem popMin_length {l : List (Int × Option ℚ)} {m : Int × Option ℚ}
    {r : List (Int × Option ℚ)} (h : popMin l = some (m, r)) :
    r.length + 1 = l.length := by
  have := (popMin_perm h).length_eq
  simpa using this.symm

theorem popMin_mem {l : List (Int × Option ℚ)} {m : Int × Option ℚ}
    {r : List (Int × Option ℚ)} (h : popMin l = some (m, r)) : m ∈ l :=
  (popMin_perm h).mem_iff.mpr (List.mem_cons_self _ _)

theorem popMin_sub {l : List (Int × Option ℚ)} {m : Int × Option ℚ}
    {r : List (Int × Option ℚ)} (h : popMin l = some (m, r)) :
    ∀ y ∈ r, y ∈ l := by
  intro y hy
  exact (popMin_perm h).mem_iff.mpr (List.mem_cons_of_mem _ hy)

/-! ### Dijkstra (`Graph.Dijkstra`) -/

/-- Keys currently on the priority queue. -/
def pqKeys (pq : List (Int × Option ℚ)) : List Int := pq.map Prod.fst

/-- One step of the relaxation loop body of `Dijkstra` for a single adjacency
entry `nb = (neighbor, weight)` of the node `u` being processed.  The state is
`(dist, prev, pq)`. -/
def relaxOne (u : Int) (visited : List Int)
    (st : List (Int × Option ℚ) × List (Int × Int) × List (Int × Option ℚ))
    (nb : Int × ℚ) :
    List (Int × Option ℚ) × List (Int × Int) × List (Int × Option ℚ) :=
  if nb.1 ∈ visited then st
  else
    let nd := dAdd (dget st.1 u) nb.2
    if dLt nd (dget st.1 nb.1) then
      (aset st.1 nb.1 nd, aset st.2.1 nb.1 u, st.2.2 ++ [(nb.1, nd)])
    else st

/-- The full relaxation loop `for neighbor, weight := range g.adjacency[node]`. -/
def relaxList (u : Int) (visited : List Int)
    (st : List (Int × Option ℚ) × List (Int × Int) × List (Int × Option ℚ)) :
    List (Int × ℚ) →
    List (Int × Option ℚ) × List (Int × Int) × List (Int × Option ℚ)
  | [] => st
  | nb :: rest => relaxList u visited (relaxOne u visited st nb) rest

theorem relaxOne_pqKeys (u : Int) (visited : List Int) (st) (nb : Int × ℚ) :
    ∀ x ∈ pqKeys (relaxOne u visited st nb).2.2, x ∈ pqKeys st.2.2 ∨ x = nb.1 := by
  intro x hx
  unfold relaxOne at hx
  split at hx
  · exact Or.inl hx
  · dsimp at hx
    split at hx
    · simp only [pqKeys, List.map_append, List.mem_append] at hx
      rcases hx with hx | hx
      · exact Or.inl hx
      · simp at hx
        exact Or.inr hx
    · exact Or.inl hx

theorem relaxList_pqKeys (u : Int) (visited : List Int) :
    ∀ (nbrs : List (Int × ℚ)) (st),
      ∀ x ∈ pqKeys (relaxList u visited st nbrs).2.2,
        x ∈ pqKeys st.2.2 ∨ ∃ nb ∈ nbrs, nb.1 = x := by
  intro nbrs
  induction nbrs with
  | nil => intro st x hx; exact Or.inl hx
  | cons nb rest ih =>
    intro st x hx
    rcases ih (relaxOne u visited st nb) x hx with h | ⟨nb2, hnb2, rfl⟩
    · rcases relaxOne_pqKeys u visited st nb x h with h2 | rfl
      · exact Or.inl h2
      · exact Or.inr ⟨nb, List.mem_cons_self _ _, rfl⟩
    · exact Or.inr ⟨nb2, List.mem_cons_of_mem _ hnb2, rfl⟩

/-- Termination measure for the Dijkstra/A* loop: number of nodes that can
still be marked visited (drawn from the registry and the queue itself). -/
def dMeasure (g : Graph) (visited : List Int) (pq : List (Int × Option ℚ)) : Nat :=
  ((g.nodeList.toFinset ∪ (pqKeys pq).toFinset) \ visited.toFinset).card

theorem pqKeys_toFinset_pop {pq : List (Int × Option ℚ)} {cur : Int × Option ℚ}
    {rest : List (Int × Option ℚ)} (hpm : popMin pq = some (cur, rest)) :
    (pqKeys pq).toFinset = insert cur.1 (pqKeys rest).toFinset := by
  have hperm : List.Perm (pqKeys pq) (cur.1 :: pqKeys rest) := (popMin_perm hpm).map Prod.fst
  rw [List.toFinset_eq_of_perm _ _ hperm]
  simp

theorem dMeasure_skip (g : Graph) {pq : List (Int × Option ℚ)} {cur : Int × Option ℚ}
    {rest : List (Int × Option ℚ)} (hpm : popMin pq = some (cur, rest))
    (visited : List Int) (hv : cur.1 ∈ visited) :
    dMeasure g visited rest = dMeasure g visited pq := by
  unfold dMeasure
  rw [pqKeys_toFinset_pop hpm]
  congr 1
  ext x
  simp only [Finset.mem_sdiff, Finset.mem_union, Finset.mem_insert, List.mem_toFinset]
  constructor
  · rintro ⟨h1, h2⟩
    exact ⟨by tauto, h2⟩
  · rintro ⟨h1, h2⟩
    rcases h1 with h1 | h1 | h1
    · exact ⟨Or.inl h1, h2⟩
    · exact absurd (h1 ▸ hv) h2
    · exact ⟨Or.inr h1, h2⟩

theorem dMeasure_visit (g : Graph) {pq : List (Int × Option ℚ)} {cur : Int × Option ℚ}
    {rest : List (Int × Option ℚ)} (hpm : popMin pq = some (cur, rest))
    (visited : List Int) (hv : cur.1 ∉ visited) (pq2 : List (Int × Option ℚ))
    (hsub : ∀ x ∈ pqKeys pq2, x ∈ pqKeys rest ∨ x ∈ g.nodeList) :
    dMeasure g (cur.1 :: visited) pq2 < dMeasure g visited pq := by
  unfold dMeasure
  apply Finset.card_lt_card
  rw [Finset.ssubset_iff_of_subset]
  · refine ⟨cur.1, ?_, ?_⟩
    · rw [Finset.mem_sdiff]
      constructor
      · rw [Finset.mem_union]
        right
        rw [List.mem_toFinset]
        have : cur.1 ∈ pqKeys pq := List.mem_map.mpr ⟨cur, popMin_mem hpm, rfl⟩
        exact this
      · rw [List.mem_toFinset]
        exact hv
    · rw [Finset.mem_sdiff]
      rintro ⟨_, h2⟩
      exact h2 (by simp)
  · intro x hx
    rw [Finset.mem_sdiff] at hx ⊢
    rcases hx with ⟨h1, h2⟩
    rw [List.mem_toFinset, List.mem_cons] at h2
    constructor
    · rw [Finset.mem_union, List.mem_toFinset] at h1 ⊢
      rcases h1 with h1 | h1
      · exact Or.inl h1
      · rw [List.mem_toFinset] at h1
        rcases hsub x h1 with h3 | h3
        · right
          rw [List.mem_toFinset]
          have : pqKeys rest ⊆ pqKeys pq := fun y hy =>
            List.mem_map.mpr (by
              rcases List.mem_map.mp hy with ⟨p, hp, rfl⟩
              exact ⟨p, popMin_sub hpm p hp, rfl⟩)
          exact this h3
        · exact Or.inl h3
    · rw [List.mem_toFinset]
      intro hmem
      exact h2 (Or.inr hmem)

theorem aset_length_le {α : Type} (m : List (Int × α)) (k : Int) (v : α) :
    (aset m k v).length ≤ m.length + 1 := by
  induction m with
  | nil => simp [aset]
  | cons p rest ih =>
    simp only [aset]
    split
    · simp
    · simpa using ih

theorem foldl_step_length_le {α β : Type} (step : List α → β → List α)
    (hstep : ∀ acc b, (step acc b).length ≤ acc.length + 1) :
    ∀ (l : List β) (acc : List α),
      (l.foldl step acc).length ≤ acc.length + l.length := by
  intro l
  induction l with
  | nil => intro acc; simp
  | cons b rest ih =>
    intro acc
    calc (List.foldl step (step acc b) rest).length
        ≤ (step acc b).length + rest.length := ih _
      _ ≤ acc.length + 1 + rest.length := by have := hstep acc b; omega
      _ = acc.length + (b :: rest).length := by simp; omega

theorem adjOf_length_le (g : Graph) (u : Int) :
    (g.adjOf u).length ≤ g.edges.length := by
  have := foldl_step_length_le
    (fun acc (e : Int × Int × ℚ) => if e.1 = u then aset acc e.2.1 e.2.2 else acc)
    (by
      intro acc e
      dsimp only
      split
      · exact aset_length_le acc e.2.1 e.2.2
      · omega)
    g.edges []
  simpa [Graph.adjOf] using this

theorem relaxOne_pq_length (u : Int) (visited : List Int) (st) (nb : Int × ℚ) :
    (relaxOne u visited st nb).2.2.length ≤ st.2.2.length + 1 := by
  unfold relaxOne
  split
  · omega
  · dsimp
    split
    · simp
    · omega

theorem relaxList_pq_length (u : Int) (visited : List Int) :
    ∀ (nbrs : List (Int × ℚ)) (st),
      (relaxList u visited st nbrs).2.2.length ≤ st.2.2.length + nbrs.length := by
  intro nbrs
  induction nbrs with
  | nil => intro st; simp [relaxList]
  | cons nb rest ih =>
    intro st
    calc (relaxList u visited (relaxOne u visited st nb) rest).2.2.length
        ≤ (relaxOne u visited st nb).2.2.length + rest.length := ih _
      _ ≤ st.2.2.length + 1 + rest.length := by
          have := relaxOne_pq_length u visited st nb; omega
      _ = st.2.2.length + (nb :: rest).length := by simp; omega

/-- Decreasing potential of the Dijkstra/A* loop: strictly drops at every
iteration, so it bounds the number of remaining iterations. -/
def dPhi (g : Graph) (visited : List Int) (pq : List (Int × Option ℚ)) : Nat :=
  dMeasure g visited pq * (g.edges.length + 2) + pq.length

theorem dMeasure_le (g : Graph) (visited : List Int) (pq : List (Int × Option ℚ)) :
    dMeasure g visited pq ≤ g.nodeList.length + pq.length := by
  unfold dMeasure
  calc ((g.nodeList.toFinset ∪ (pqKeys pq).toFinset) \ visited.toFinset).card
      ≤ (g.nodeList.toFinset ∪ (pqKeys pq).toFinset).card :=
        Finset.card_le_card (Finset.sdiff_subset)
    _ ≤ g.nodeList.toFinset.card + (pqKeys pq).toFinset.card := Finset.card_union_le _ _
    _ ≤ g.nodeList.length + pq.length := by
        have h1 := List.toFinset_card_le g.nodeList
        have h2 := List.toFinset_card_le (pqKeys pq)
        have h3 : (pqKeys pq).length = pq.length := List.length_map _ _
        omega

/-- Fuel that provably dominates `dPhi` for every visited set. -/
def dFuel (g : Graph) (pq : List (Int × Option ℚ)) : Nat :=
  (g.nodeList.length + pq.length) * (g.edges.length + 2) + pq.length + 1

theorem dPhi_lt_dFuel (g : Graph) (visited : List Int) (pq : List (Int × Option ℚ)) :
    dPhi g visited pq < dFuel g pq := by
  unfold dPhi dFuel
  have h1 := dMeasure_le g visited pq
  have h2 := Nat.mul_le_mul_right (g.edges.length + 2) h1
  omega

theorem dPhi_skip (g : Graph) {pq : List (Int × Option ℚ)} {cur : Int × Option ℚ}
    {rest : List (Int × Option ℚ)} (hpm : popMin pq = some (cur, rest))
    (visited : List Int) (hv : cur.1 ∈ visited) :
    dPhi g visited rest < dPhi g visited pq := by
  unfold dPhi
  rw [dMeasure_skip g hpm visited hv]
  have := popMin_length hpm
  omega

theorem dPhi_visit (g : Graph) {pq : List (Int × Option ℚ)} {cur : Int × Option ℚ}
    {rest : List (Int × Option ℚ)} (hpm : popMin pq = some (cur, rest))
    (visited : List Int) (hv : cur.1 ∉ visited) (pq2 : List (Int × Option ℚ))
    (hsub : ∀ x ∈ pqKeys pq2, x ∈ pqKeys rest ∨ x ∈ g.nodeList)
    (hlen : pq2.length ≤ rest.length + g.edges.length) :
    dPhi g (cur.1 :: visited) pq2 < dPhi g visited pq := by
  unfold dPhi
  have hm := dMeasure_visit g hpm visited hv pq2 hsub
  have hrest := popMin_length hpm
  have hmul : (dMeasure g (cur.1 :: visited) pq2 + 1) * (g.edges.length + 2) ≤
      dMeasure g visited pq * (g.edges.length + 2) :=
    Nat.mul_le_mul_right _ (by omega)
  rw [Nat.succ_mul] at hmul
  omega

/-- The Dijkstra main loop: pop-min with lazy deletion, early exit when the
target is popped, relaxation of the popped node's adjacency.  The loop is
written with explicit fuel so that it computes by structural recursion;
`none` means the fuel ran out, which `dijkstraLoopF_isSome` below shows
never happens for the fuel used by `Graph.Dijkstra`. -/
def dijkstraLoopF (g : Graph) (target : Int) :
    Nat → List (Int × Option ℚ) → List (Int × Int) → List Int →
    List (Int × Option ℚ) → Option (List (Int × Option ℚ) × List (Int × Int))
  | 0, _, _, _, _ => none
  | fuel + 1, dist, prev, visited, pq =>
    match popMin pq with
    | none => some (dist, prev)
    | some (cur, rest) =>
      if cur.1 ∈ visited then
        dijkstraLoopF g target fuel dist prev visited rest
      else
        if cur.1 = target then some (dist, prev)
        else
          let st := relaxList cur.1 (cur.1 :: visited) (dist, prev, rest) (g.adjOf cur.1)
          dijkstraLoopF g target fuel st.1 st.2.1 (cur.1 :: visited) st.2.2

theorem dijkstraLoopF_isSome (g : Graph) (target : Int) :
    ∀ (fuel : Nat) (dist : List (Int × Option ℚ)) (prev : List (Int × Int))
      (visited : List Int) (pq : List (Int × Option ℚ)),
      dPhi g visited pq < fuel →
      (dijkstraLoopF g target fuel dist prev visited pq).isSome := by
  intro fuel
  induction fuel with
  | zero => intro dist prev visited pq h; omega
  | succ fuel ih =>
    intro dist prev visited pq h
    unfold dijkstraLoopF
    cases hpm : popMin pq with
    | none => rfl
    | some p =>
      cases p with
      | mk cur rest =>
        dsimp
        by_cases hv : cur.1 ∈ visited
        · rw [if_pos hv]
          exact ih dist prev visited rest (by
            have := dPhi_skip g hpm visited hv; omega)
        · rw [if_neg hv]
          by_cases ht : cur.1 = target
          · rw [if_pos ht]; rfl
          · rw [if_neg ht]
            apply ih
            have hphi := dPhi_visit g hpm visited hv
              (relaxList cur.1 (cur.1 :: visited) (dist, prev, rest) (g.adjOf cur.1)).2.2
              (by
                intro x hx
                rcases relaxList_pqKeys cur.1 (cur.1 :: visited) (g.adjOf cur.1)
                  (dist, prev, rest) x hx with h2 | ⟨nb, hnb, rfl⟩
                · exact Or.inl h2
                · exact Or.inr (adjOf_fst_mem_nodeList g cur.1 nb hnb))
              (by
                have h1 := relaxList_pq_length cur.1 (cur.1 :: visited) (g.adjOf cur.1)
                  (dist, prev, rest)
                have h2 := adjOf_length_le g cur.1
                dsimp at h1
                omega)
            omega

/-- The Dijkstra loop run to completion (the fuel is sufficient by
`dijkstraLoopF_isSome`, so the `getD` default is never taken). -/
def dijkstraLoop (g : Graph) (target : Int) (dist : List (Int × Option ℚ))
    (prev : List (Int × Int)) (visited : List Int) (pq : List (Int × Option ℚ)) :
    List (Int × Option ℚ) × List (Int × Int) :=
  (dijkstraLoopF g target (dFuel g pq) dist prev visited pq).getD (dist, prev)

/-- The path-reconstruction loop of `Dijkstra`/`AStar`/`BFS`:
`for node != source { path = prepend(node); node = prev[node] }` followed by
prepending the source.  A missing `prev` entry reads as `0` (Go zero value),
which can make the loop diverge; divergence is modelled as `none`.  The fuel
`prev.length + 3` is exact: the node sequence is deterministic and draws from
`target`, the stored predecessor values and `0`, so if the source is not
reached within that many steps the sequence has revisited a state and the Go
loop never terminates. -/
def reconGo (source : Int) (prev : List (Int × Int)) :
    Nat → Int → List Int → Option (List Int)
  | 0, _, _ => none
  | fuel + 1, node, acc =>
    if node = source then some (source :: acc)
    else reconGo source prev fuel (iget prev node) (node :: acc)

/-- Path reconstruction from the predecessor map. -/
def reconstruct (source target : Int) (prev : List (Int × Int)) : Option (List Int) :=
  reconGo source prev (prev.length + 3) target []

/-- The initial distances map: `+Inf` for every registered node, then
`dist[source] = 0`. -/
def initDist (g : Graph) (source : Int) : List (Int × Option ℚ) :=
  aset (g.nodeList.map (fun n => (n, (none : Option ℚ)))) source (some 0)

/-- The final `(dist, prev)` state of the Dijkstra loop. -/
def dijkstraRes (g : Graph) (source target : Int) :
    List (Int × Option ℚ) × List (Int × Int) :=
  dijkstraLoop g target (initDist g source) [] [] [(source, some 0)]

/-- `Dijkstra(source, target)`: distance and path.  The second component is
`some path` when the Go function returns (with `some []` for the empty slice)
and `none` when the reconstruction loop diverges. -/
def Graph.Dijkstra (g : Graph) (source target : Int) : Option ℚ × Option (List Int) :=
  match dget (dijkstraRes g source target).1 target with
  | none => (none, some [])
  | some q => (some q, reconstruct source target (dijkstraRes g source target).2)

/-! ### A* (`Graph.AStar`) -/

/-- Relaxation step of `AStar`: identical to Dijkstra's except the pushed
priority is `newDist + heuristic(neighbor, target)`. -/
def relaxOneA (h : Int → Int → ℚ) (target : Int) (u : Int) (visited : List Int)
    (st : List (Int × Option ℚ) × List (Int × Int) × List (Int × Option ℚ))
    (nb : Int × ℚ) :
    List (Int × Option ℚ) × List (Int × Int) × List (Int × Option ℚ) :=
  if nb.1 ∈ visited then st
  else
    let nd := dAdd (dget st.1 u) nb.2
    if dLt nd (dget st.1 nb.1) then
      (aset st.1 nb.1 nd, aset st.2.1 nb.1 u, st.2.2 ++ [(nb.1, dAdd nd (h nb.1 target))])
    else st

/-- The full A* relaxation loop over the popped node's adjacency. -/
def relaxListA (h : Int → Int → ℚ) (target : Int) (u : Int) (visited : List Int)
    (st : List (Int × Option ℚ) × List (Int × Int) × List (Int × Option ℚ)) :
    List (Int × ℚ) →
    List (Int × Option ℚ) × List (Int × Int) × List (Int × Option ℚ)
  | [] => st
  | nb :: rest => relaxListA h target u visited (relaxOneA h target u visited st nb) rest

theorem relaxOneA_pqKeys (h : Int → Int → ℚ) (target u : Int) (visited : List Int)
    (st) (nb : Int × ℚ) :
    ∀ x ∈ pqKeys (relaxOneA h target u visited st nb).2.2,
      x ∈ pqKeys st.2.2 ∨ x = nb.1 := by
  intro x hx
  unfold relaxOneA at hx
  split at hx
  · exact Or.inl hx
  · dsimp at hx
    split at hx
    · simp only [pqKeys, List.map_append, List.mem_append] at hx
      rcases hx with hx | hx
      · exact Or.inl hx
      · simp at hx
        exact Or.inr hx
    · exact Or.inl hx

theorem relaxListA_pqKeys (h : Int → Int → ℚ) (target u : Int) (visited : List Int) :
    ∀ (nbrs : List (Int × ℚ)) (st),
      ∀ x ∈ pqKeys (relaxListA h target u visited st nbrs).2.2,
        x ∈ pqKeys st.2.2 ∨ ∃ nb ∈ nbrs, nb.1 = x := by
  intro nbrs
  induction nbrs with
  | nil => intro st x hx; exact Or.inl hx
  | cons nb rest ih =>
    intro st x hx
    rcases ih (relaxOneA h target u visited st nb) x hx with h2 | ⟨nb2, hnb2, rfl⟩
    · rcases relaxOneA_pqKeys h target u visited st nb x h2 with h3 | rfl
      · exact Or.inl h3
      · exact Or.inr ⟨nb, List.mem_cons_self _ _, rfl⟩
    · exact Or.inr ⟨nb2, List.mem_cons_of_mem _ hnb2, rfl⟩

theorem relaxOneA_pq_length (h : Int → Int → ℚ) (target u : Int) (visited : List Int)
    (st) (nb : Int × ℚ) :
    (relaxOneA h target u visited st nb).2.2.length ≤ st.2.2.length + 1 := by
  unfold relaxOneA
  split
  · omega
  · dsimp
    split
    · simp
    · omega

theorem relaxListA_pq_length (h : Int → Int → ℚ) (target u : Int) (visited : List Int) :
    ∀ (nbrs : List (Int × ℚ)) (st),
      (relaxListA h target u visited st nbrs).2.2.length ≤ st.2.2.length + nbrs.length := by
  intro nbrs
  induction nbrs with
  | nil => intro st; simp [relaxListA]
  | cons nb rest ih =>
    intro st
    calc (relaxListA h target u visited (relaxOneA h target u visited st nb) rest).2.2.length
        ≤ (relaxOneA h target u visited st nb).2.2.length + rest.length := ih _
      _ ≤ st.2.2.length + 1 + rest.length := by
          have := relaxOneA_pq_length h target u visited st nb; omega
      _ = st.2.2.length + (nb :: rest).length := by simp; omega

/-- The A* main loop, structurally identical to `dijkstraLoopF`. -/
def astarLoopF (g : Graph) (target : Int) (h : Int → Int → ℚ) :
    Nat → List (Int × Option ℚ) → List (Int × Int) → List Int →
    List (Int × Option ℚ) → Option (List (Int × Option ℚ) × List (Int × Int))
  | 0, _, _, _, _ => none
  | fuel + 1, dist, prev, visited, pq =>
    match popMin pq with
    | none => some (dist, prev)
    | some (cur, rest) =>
      if cur.1 ∈ visited then
        astarLoopF g target h fuel dist prev visited rest
      else
        if cur.1 = target then some (dist, prev)
        else
          let st := relaxListA h target cur.1 (cur.1 :: visited) (dist, prev, rest) (g.adjOf cur.1)
          astarLoopF g target h fuel st.1 st.2.1 (cur.1 :: visited) st.2.2

theorem astarLoopF_isSome (g : Graph) (target : Int) (h : Int → Int → ℚ) :
    ∀ (fuel : Nat) (dist : List (Int × Option ℚ)) (prev : List (Int × Int))
      (visited : List Int) (pq : List (Int × Option ℚ)),
      dPhi g visited pq < fuel →
      (astarLoopF g target h fuel dist prev visited pq).isSome := by
  intro fuel
  induction fuel with
  | zero => intro dist prev visited pq hlt; omega
  | succ fuel ih =>
    intro dist prev visited pq hlt
    unfold astarLoopF
    cases hpm : popMin pq with
    | none => rfl
    | some p =>
      cases p with
      | mk cur rest =>
        dsimp
        by_cases hv : cur.1 ∈ visited
        · rw [if_pos hv]
          exact ih dist prev visited rest (by
            have := dPhi_skip g hpm visited hv; omega)
        · rw [if_neg hv]
          by_cases ht : cur.1 = target
          · rw [if_pos ht]; rfl
          · rw [if_neg ht]
            apply ih
            have hphi := dPhi_visit g hpm visited hv
              (relaxListA h target cur.1 (cur.1 :: visited) (dist, prev, rest) (g.adjOf cur.1)).2.2
              (by
                intro x hx
                rcases relaxListA_pqKeys h target cur.1 (cur.1 :: visited) (g.adjOf cur.1)
                  (dist, prev, rest) x hx with h2 | ⟨nb, hnb, rfl⟩
                · exact Or.inl h2
                · exact Or.inr (adjOf_fst_mem_nodeList g cur.1 nb hnb))
              (by
                have h1 := relaxListA_pq_length h target cur.1 (cur.1 :: visited) (g.adjOf cur.1)
                  (dist, prev, rest)
                have h2 := adjOf_length_le g cur.1
                dsimp at h1
                omega)
            omega

/-- The A* loop run to completion (fuel sufficient by `astarLoopF_isSome`). -/
def astarLoop (g : Graph) (target : Int) (h : Int → Int → ℚ)
    (dist : List (Int × Option ℚ)) (prev : List (Int × Int)) (visited : List Int)
    (pq : List (Int × Option ℚ)) :
    List (Int × Option ℚ) × List (Int × Int) :=
  (astarLoopF g target h (dFuel g pq) dist prev visited pq).getD (dist, prev)

/-- The final `(dist, prev)` state of the A* loop. -/
def astarRes (g : Graph) (source target : Int) (h : Int → Int → ℚ) :
    List (Int × Option ℚ) × List (Int × Int) :=
  astarLoop g target h (initDist g source) [] [] [(source, some (h source target))]

/-- `AStar(source, target, heuristic)`: distance and path. -/
def Graph.AStar (g : Graph) (source target : Int) (h : Int → Int → ℚ) :
    Option ℚ × Option (List Int) :=
  match dget (astarRes g source target h).1 target with
  | none => (none, some [])
  | some q => (some q, reconstruct source target (astarRes g source target h).2)

/-! ### Bellman-Ford (`Graph.BellmanFord`) -/

/-- One full relaxation pass over all current directed edges, in the order of
the nested loop `for from := range g.adjacency { for to, weight := range ... }`. -/
def relaxEdges : List (Int × Int × ℚ) → List (Int × Option ℚ) → List (Int × Option ℚ)
  | [], d => d
  | e :: rest, d =>
    relaxEdges rest
      (if dLt (dAdd (dget d e.1) e.2.2) (dget d e.2.1) then
        aset d e.2.1 (dAdd (dget d e.1) e.2.2) else d)

/-- The `|V|-1` relaxation passes. -/
def bfPasses (g : Graph) : Nat → List (Int × Option ℚ) → List (Int × Option ℚ)
  | 0, d => d
  | n + 1, d => bfPasses g n (relaxEdges g.effEdges d)

/-- `BellmanFord(source)`: the distances map after `len(g.nodes) - 1` passes,
and the negative-cycle flag from one additional check pass (`List.any` has
exactly the semantics of the Go check loop with its early `break`: true iff
some edge still improves; the check never writes to the map). -/
def Graph.BellmanFord (g : Graph) (source : Int) : List (Int × Option ℚ) × Bool :=
  let d0 := aset (g.nodeList.map (fun n => (n, (none : Option ℚ)))) source (some 0)
  let d := bfPasses g (g.nodeList.length - 1) d0
  (d, g.effEdges.any (fun e => dLt (dAdd (dget d e.1) e.2.2) (dget d e.2.1)))

/-! ### Floyd-Warshall (`Graph.FloydWarshall`) -/

/-- Read `dist[i][j]` of the nested Go map (missing keys read as zero values:
a missing row is the nil map, whose reads in turn yield `0.0`). -/
def mget (m : List (Int × List (Int × Option ℚ))) (i j : Int) : Option ℚ :=
  dget ((alook m i).getD []) j

/-- Write `dist[i][j] = v` in the nested map. -/
def mset (m : List (Int × List (Int × Option ℚ))) (i j : Int) (v : Option ℚ) :
    List (Int × List (Int × Option ℚ)) :=
  aset m i (aset ((alook m i).getD []) j v)

/-- Innermost loop of Floyd-Warshall (over `j`). -/
def fwJ (k i : Int) : List Int → List (Int × List (Int × Option ℚ)) →
    List (Int × List (Int × Option ℚ))
  | [], m => m
  | j :: js, m =>
    fwJ k i js
      (if dLt (dAddO (mget m i k) (mget m k j)) (mget m i j) then
        mset m i j (dAddO (mget m i k) (mget m k j)) else m)

/-- Middle loop of Floyd-Warshall (over `i`). -/
def fwI (k : Int) (js : List Int) : List Int → List (Int × List (Int × Option ℚ)) →
    List (Int × List (Int × Option ℚ))
  | [], m => m
  | i :: rest, m => fwI k js rest (fwJ k i js m)

/-- Outermost loop of Floyd-Warshall (over `k`). -/
def fwK (ns : List Int) : List Int → List (Int × List (Int × Option ℚ)) →
    List (Int × List (Int × Option ℚ))
  | [], m => m
  | k :: ks, m => fwK ns ks (fwI k ns ns m)

/-- `FloydWarshall()`: initialise 0 on the diagonal, `+Inf` elsewhere,
overwrite with direct edge weights, then the triple relaxation loop with `k`
outermost. -/
def Graph.FloydWarshall (g : Graph) : List (Int × List (Int × Option ℚ)) :=
  let ns := g.nodeList
  let init := ns.map (fun i =>
    (i, ns.map (fun j => (j, if i = j then (some 0 : Option ℚ) else none))))
  let withE := g.effEdges.foldl (fun m e => mset m e.1 e.2.1 (some e.2.2)) init
  fwK ns ns withE

/-! ### BFS (`Graph.BFS`) -/

/-- The neighbor loop of BFS for the dequeued node `u`: mark, set parent and
hop distance, enqueue each not-yet-visited neighbor.  State is
`(visited, parent, distm, queue)`. -/
def bfsScan (u : Int) :
    List (Int × ℚ) →
    List Int × List (Int × Int) × List (Int × Int) × List Int →
    List Int × List (Int × Int) × List (Int × Int) × List Int
  | [], st => st
  | nb :: rest, st =>
    bfsScan u rest
      (if nb.1 ∈ st.1 then st
       else (nb.1 :: st.1, aset st.2.1 nb.1 u,
             aset st.2.2.1 nb.1 (iget st.2.2.1 u + 1), st.2.2.2 ++ [nb.1]))

/-- Potential of the BFS loop (strictly decreasing, see `bfsLoopF_isSome`):
unvisited candidates count twice, queue entries once.  Enqueueing marks the
neighbor visited at the same time, so every step pays for itself. -/
def bPsi (g : Graph) (visited queue : List Int) : Nat :=
  ((g.nodeList.toFinset ∪ queue.toFinset) \ visited.toFinset).card * 2 + queue.length

/-- The BFS main loop with explicit fuel (`none` = fuel exhausted, which the
fuel used by `Graph.BFS` rules out). -/
def bfsLoopF (g : Graph) (target : Int) :
    Nat → List Int → List (Int × Int) → List (Int × Int) → List Int →
    Option (List Int × List (Int × Int) × List (Int × Int))
  | 0, _, _, _, _ => none
  | fuel + 1, visited, parent, distm, queue =>
    match queue with
    | [] => some (visited, parent, distm)
    | node :: rest =>
      if node = target then some (visited, parent, distm)
      else
        let st := bfsScan node (g.adjOf node) (visited, parent, distm, rest)
        bfsLoopF g target fuel st.1 st.2.1 st.2.2.1 st.2.2.2

theorem bfsScan_psi (g : Graph) (u : Int) :
    ∀ (nbrs : List (Int × ℚ)), (∀ nb ∈ nbrs, nb.1 ∈ g.nodeList) →
      ∀ st, bPsi g (bfsScan u nbrs st).1 (bfsScan u nbrs st).2.2.2 ≤ bPsi g st.1 st.2.2.2 := by
  intro nbrs
  induction nbrs with
  | nil => intro _ st; exact le_refl _
  | cons nb rest ih =>
    intro hn st
    have hrest : ∀ nb2 ∈ rest, nb2.1 ∈ g.nodeList :=
      fun nb2 h2 => hn nb2 (List.mem_cons_of_mem _ h2)
    simp only [bfsScan]
    by_cases hv : nb.1 ∈ st.1
    · rw [if_pos hv]
      exact ih hrest st
    · rw [if_neg hv]
      refine le_trans (ih hrest _) ?_
      have hmem : nb.1 ∈ (g.nodeList.toFinset ∪ st.2.2.2.toFinset) \ st.1.toFinset := by
        rw [Finset.mem_sdiff, Finset.mem_union, List.mem_toFinset, List.mem_toFinset]
        exact ⟨Or.inl (hn nb (List.mem_cons_self _ _)), by
          rw [List.mem_toFinset]; exact hv⟩
      have hset :
          (g.nodeList.toFinset ∪ (st.2.2.2 ++ [nb.1]).toFinset) \ (nb.1 :: st.1).toFinset =
            ((g.nodeList.toFinset ∪ st.2.2.2.toFinset) \ st.1.toFinset).erase nb.1 := by
        ext x
        simp only [Finset.mem_sdiff, Finset.mem_union, List.mem_toFinset, List.mem_append,
          List.mem_singleton, List.mem_cons, List.not_mem_nil, or_false, Finset.mem_erase]
        tauto
      unfold bPsi
      dsimp only
      rw [hset, Finset.card_erase_of_mem hmem]
      have hpos : 0 < ((g.nodeList.toFinset ∪ st.2.2.2.toFinset) \ st.1.toFinset).card :=
        Finset.card_pos.mpr ⟨nb.1, hmem⟩
      have hlen : (st.2.2.2 ++ [nb.1]).length = st.2.2.2.length + 1 := by simp
      rw [hlen]
      omega

theorem bPsi_tail (g : Graph) (visited : List Int) (node : Int) (rest : List Int) :
    bPsi g visited rest < bPsi g visited (node :: rest) := by
  unfold bPsi
  have hcard : ((g.nodeList.toFinset ∪ rest.toFinset) \ visited.toFinset).card ≤
      ((g.nodeList.toFinset ∪ (node :: rest).toFinset) \ visited.toFinset).card := by
    apply Finset.card_le_card
    intro x hx
    rw [Finset.mem_sdiff, Finset.mem_union] at hx ⊢
    refine ⟨?_, hx.2⟩
    rcases hx.1 with h | h
    · exact Or.inl h
    · simp only [List.mem_toFinset] at h ⊢
      exact Or.inr (List.mem_cons_of_mem _ h)
  simp only [List.length_cons]
  omega

theorem bfsLoopF_isSome (g : Graph) (target : Int) :
    ∀ (fuel : Nat) (visited : List Int) (parent distm : List (Int × Int))
      (queue : List Int),
      bPsi g visited queue < fuel →
      (bfsLoopF g target fuel visited parent distm queue).isSome := by
  intro fuel
  induction fuel with
  | zero => intro visited parent distm queue h; omega
  | succ fuel ih =>
    intro visited parent distm queue h
    unfold bfsLoopF
    cases queue with
    | nil => rfl
    | cons node rest =>
      dsimp only
      by_cases ht : node = target
      · rw [if_pos ht]; rfl
      · rw [if_neg ht]
        apply ih
        have h1 := bfsScan_psi g node (g.adjOf node)
          (fun nb hnb => adjOf_fst_mem_nodeList g node nb hnb)
          (visited, parent, distm, rest)
        have h2 := bPsi_tail g visited node rest
        dsimp only at h1
        omega

/-- Fuel that provably dominates `bPsi`. -/
def bFuel (g : Graph) (queue : List Int) : Nat :=
  (g.nodeList.length + queue.length) * 2 + queue.length + 1

theorem bPsi_lt_bFuel (g : Graph) (visited queue : List Int) :
    bPsi g visited queue < bFuel g queue := by
  unfold bPsi bFuel
  have hc : ((g.nodeList.toFinset ∪ queue.toFinset) \ visited.toFinset).card ≤
      g.nodeList.length + queue.length := by
    calc ((g.nodeList.toFinset ∪ queue.toFinset) \ visited.toFinset).card
        ≤ (g.nodeList.toFinset ∪ queue.toFinset).card :=
          Finset.card_le_card (Finset.sdiff_subset)
      _ ≤ g.nodeList.toFinset.card + queue.toFinset.card := Finset.card_union_le _ _
      _ ≤ g.nodeList.length + queue.length := by
          have h1 := List.toFinset_card_le g.nodeList
          have h2 := List.toFinset_card_le queue
          omega
  omega

/-- `BFS(source, target)`: hop count and path.  `source == target`
short-circuits; an unreachable target yields `(-1, nil)` (the nil slice is
modelled, like the empty slice, as `some []`). -/
def bfsRes (g : Graph) (source target : Int) :
    List Int × List (Int × Int) × List (Int × Int) :=
  (bfsLoopF g target (bFuel g [source]) [source] [] [(source, 0)] [source]).getD
    ([source], [], [(source, 0)])

def Graph.BFS (g : Graph) (source target : Int) : Int × Option (List Int) :=
  if source = target then (0, some [source])
  else
    if target ∈ (bfsRes g source target).1 then
      (iget (bfsRes g source target).2.2 target,
        reconstruct source target (bfsRes g source target).2.1)
    else (-1, some [])

/-! ### Connectivity (`Graph.ConnectedComponents`, `Graph.IsConnected`) -/

/-- The recursive `dfs` closure of `ConnectedComponents`, written with an
explicit stack of pending neighbor lists (`frames`), which simulates the Go
recursion exactly: visiting a node marks it, appends it to the component and
pushes its adjacency list; each pending neighbor is checked against `visited`
when its turn comes, as in the Go loop.  Fuel as in the other loops. -/
def dfsGoF (g : Graph) :
    Nat → List Int → List Int → List (List Int) → Option (List Int × List Int)
  | 0, _, _, _ => none
  | _ + 1, visited, acc, [] => some (visited, acc)
  | fuel + 1, visited, acc, [] :: frames => dfsGoF g fuel visited acc frames
  | fuel + 1, visited, acc, (n :: ns) :: frames =>
    if n ∈ visited then dfsGoF g fuel visited acc (ns :: frames)
    else dfsGoF g fuel (n :: visited) (acc ++ [n])
      (((g.adjOf n).map Prod.fst) :: ns :: frames)

/-- Potential of the DFS worklist. -/
def cPsi (g : Graph) (visited : List Int) (frames : List (List Int)) : Nat :=
  (g.nodeList.toFinset \ visited.toFinset).card * (2 * g.edges.length + 3) +
    2 * (frames.map List.length).sum + frames.length

theorem cPsi_visit_mem (g : Graph) (visited : List Int) (n : Int)
    (hn : n ∈ g.nodeList) (hv : n ∉ visited) :
    (g.nodeList.toFinset \ (n :: visited).toFinset).card + 1 =
      (g.nodeList.toFinset \ visited.toFinset).card := by
  have hset : g.nodeList.toFinset \ (n :: visited).toFinset =
      (g.nodeList.toFinset \ visited.toFinset).erase n := by
    ext x
    simp only [Finset.mem_sdiff, List.mem_toFinset, List.mem_cons, Finset.mem_erase]
    tauto
  have hmem : n ∈ g.nodeList.toFinset \ visited.toFinset := by
    rw [Finset.mem_sdiff, List.mem_toFinset, List.mem_toFinset]
    exact ⟨hn, hv⟩
  rw [hset, Finset.card_erase_of_mem hmem]
  have := Finset.card_pos.mpr ⟨n, hmem⟩
  omega

theorem cPsi_sub_card (g : Graph) (visited : List Int) (n : Int) :
    (g.nodeList.toFinset \ (n :: visited).toFinset).card ≤
      (g.nodeList.toFinset \ visited.toFinset).card := by
  apply Finset.card_le_card
  intro x hx
  rw [Finset.mem_sdiff, List.mem_toFinset] at hx ⊢
  refine ⟨hx.1, ?_⟩
  intro hmem
  exact hx.2 (by rw [List.mem_toFinset] at hmem ⊢; exact List.mem_cons_of_mem _ hmem)

theorem dfsGoF_isSome (g : Graph) :
    ∀ (fuel : Nat) (visited acc : List Int) (frames : List (List Int)),
      cPsi g visited frames < fuel →
      (dfsGoF g fuel visited acc frames).isSome := by
  intro fuel
  induction fuel with
  | zero => intro visited acc frames h; omega
  | succ fuel ih =>
    intro visited acc frames h
    match frames with
    | [] => rfl
    | [] :: frames =>
      apply ih
      unfold cPsi at h ⊢
      simp only [List.map_cons, List.sum_cons, List.length_cons, List.length_nil] at h ⊢
      omega
    | (n :: ns) :: frames =>
      unfold dfsGoF
      by_cases hv : n ∈ visited
      · rw [if_pos hv]
        apply ih
        unfold cPsi at h ⊢
        simp only [List.map_cons, List.sum_cons, List.length_cons] at h ⊢
        omega
      · rw [if_neg hv]
        apply ih
        unfold cPsi at h ⊢
        simp only [List.map_cons, List.sum_cons, List.length_cons, List.length_map] at h ⊢
        by_cases hn : n ∈ g.nodeList
        · have hcard := cPsi_visit_mem g visited n hn hv
          have hadj := adjOf_length_le g n
          have hmul : (g.nodeList.toFinset \ visited.toFinset).card * (2 * g.edges.length + 3) =
              (g.nodeList.toFinset \ (n :: visited).toFinset).card * (2 * g.edges.length + 3) +
                (2 * g.edges.length + 3) := by
            rw [← hcard, Nat.add_mul, Nat.one_mul]
          omega
        · have hadj : g.adjOf n = [] := by
            by_contra hne
            exact hn (adjOf_nonempty_mem_nodeList g n hne)
          have hcard := cPsi_sub_card g visited n
          have hmul := Nat.mul_le_mul_right (2 * g.edges.length + 3) hcard
          rw [hadj]
          simp only [List.length_nil]
          omega

/-- Fuel that provably dominates `cPsi`. -/
def cFuel (g : Graph) (frames : List (List Int)) : Nat :=
  g.nodeList.length * (2 * g.edges.length + 3) +
    2 * (frames.map List.length).sum + frames.length + 1

theorem cPsi_lt_cFuel (g : Graph) (visited : List Int) (frames : List (List Int)) :
    cPsi g visited frames < cFuel g frames := by
  unfold cPsi cFuel
  have hc : (g.nodeList.toFinset \ visited.toFinset).card ≤ g.nodeList.length := by
    calc (g.nodeList.toFinset \ visited.toFinset).card
        ≤ g.nodeList.toFinset.card := Finset.card_le_card (Finset.sdiff_subset)
      _ ≤ g.nodeList.length := List.toFinset_card_le g.nodeList
  have := Nat.mul_le_mul_right (2 * g.edges.length + 3) hc
  omega

/-- One `dfs(node, &component)` call run to completion: returns the updated
visited set and the component list. -/
def dfsRun (g : Graph) (visited acc : List Int) (frames : List (List Int)) :
    List Int × List Int :=
  (dfsGoF g (cFuel g frames) visited acc frames).getD (visited, acc)

/-- The outer loop of `ConnectedComponents` over an enumeration `order` of
the node registry (Go iterates `for node := range g.nodes` in runtime-chosen
order; the canonical entry point below uses first-insertion order). -/
def ccGo (g : Graph) : List Int → List Int → List (List Int)
  | _, [] => []
  | visited, n :: ns =>
    if n ∈ visited then ccGo g visited ns
    else
      let r := dfsRun g visited [] [[n]]
      r.2 :: ccGo g r.1 ns

/-- `ConnectedComponents()` with an explicit iteration order for `g.nodes`. -/
def connectedComponentsOrder (g : Graph) (order : List Int) : List (List Int) :=
  ccGo g [] order

/-- `ConnectedComponents()` under the canonical iteration order. -/
def Graph.ConnectedComponents (g : Graph) : List (List Int) :=
  connectedComponentsOrder g g.nodeList

/-- `IsConnected()`: exactly one component. -/
def Graph.IsConnected (g : Graph) : Bool :=
  g.ConnectedComponents.length == 1

/-! ### Graph edit distance (`GraphEditDistance`) -/

/-- Read `g.adjacency[u][v]` with Go zero-value semantics (`0.0` when the row
or the entry is missing). -/
def Graph.wD (g : Graph) (u v : Int) : ℚ := (g.wOf u v).getD 0

/-- `GraphEditDistance(g1, g2)`: nodes present in exactly one registry plus,
for each current directed edge of either graph, a count when the other
graph's row is nil or stores weight `0` there — the Go condition
`g2.adjacency[from] == nil || g2.adjacency[from][to] == 0` verbatim. -/
def GraphEditDistance (g1 g2 : Graph) : ℚ :=
  (((g1.nodeList.filter (fun n => decide (n ∉ g2.nodeList))).length : ℚ) +
    ((g2.nodeList.filter (fun n => decide (n ∉ g1.nodeList))).length : ℚ)) +
  (((g1.effEdges.filter (fun e => (g2.adjOf e.1).isEmpty || decide (g2.wD e.1 e.2.1 = 0))).length : ℚ) +
    ((g2.effEdges.filter (fun e => (g1.adjOf e.1).isEmpty || decide (g1.wD e.1 e.2.1 = 0))).length : ℚ))

/-! ### Walks in a graph: the specification vocabulary -/

/-- `pathOk g p`: consecutive elements of `p` are current directed edges of
`g`, and `p` is nonempty. -/
def pathOk (g : Graph) : List Int → Bool
  | [] => false
  | [_] => true
  | u :: v :: rest => ((g.wOf u v).isSome && pathOk g (v :: rest))

/-- Total weight of a walk (sum of the current weights of its edges). -/
def pwt (g : Graph) : List Int → ℚ
  | u :: v :: rest => (g.wOf u v).getD 0 + pwt g (v :: rest)
  | _ => 0

/-- A walk from `s` to `t` (repetitions allowed; `[s]` is the trivial walk
when `s = t`). -/
def Wk (g : Graph) (s t : Int) (p : List Int) : Prop :=
  pathOk g p = true ∧ p.head? = some s ∧ p.getLast? = some t

instance (g : Graph) (s t : Int) (p : List Int) : Decidable (Wk g s t p) := by
  unfold Wk
  infer_instance

/-- `t` is reachable from `s` by a directed walk. -/
def Reachable (g : Graph) (s t : Int) : Prop := ∃ p, Wk g s t p

theorem Wk_single (g : Graph) (s : Int) : Wk g s s [s] := by
  refine ⟨rfl, rfl, rfl⟩

theorem Wk_ne_nil {g : Graph} {s t : Int} {p : List Int} (h : Wk g s t p) : p ≠ [] := by
  intro he
  rw [he] at h
  cases h.2.1

theorem Wk_head {g : Graph} {s t : Int} {p : List Int} (h : Wk g s t p) :
    ∃ q, p = s :: q := by
  cases p with
  | nil => cases h.2.1
  | cons x q =>
    have : x = s := by
      have := h.2.1
      simp only [List.head?_cons, Option.some.injEq] at this
      exact this
    exact ⟨q, by rw [this]⟩

theorem pathOk_cons_of {g : Graph} {u v : Int} {rest : List Int}
    (h : pathOk g (u :: v :: rest) = true) :
    (g.wOf u v).isSome = true ∧ pathOk g (v :: rest) = true := by
  simpa [pathOk, Bool.and_eq_true] using h

theorem pathOk_snoc (g : Graph) :
    ∀ (p : List Int) (u v : Int), pathOk g p = true → p.getLast? = some u →
      (g.wOf u v).isSome = true →
      pathOk g (p ++ [v]) = true ∧ pwt g (p ++ [v]) = pwt g p + (g.wOf u v).getD 0 := by
  intro p
  induction p with
  | nil => intro u v h _ _; cases h
  | cons x q ih =>
    intro u v h hlast hw
    cases q with
    | nil =>
      have hux : x = u := by
        simp only [List.getLast?_singleton, Option.some.injEq] at hlast
        exact hlast
      subst hux
      constructor
      · simp [pathOk, hw]
      · simp [pwt]
    | cons y q2 =>
      have h2 := pathOk_cons_of h
      have hlast2 : (y :: q2).getLast? = some u := by
        rw [List.getLast?_cons_cons] at hlast
        exact hlast
      have ih2 := ih u v h2.2 hlast2 hw
      constructor
      · have : pathOk g (x :: y :: (q2 ++ [v])) =
            ((g.wOf x y).isSome && pathOk g (y :: (q2 ++ [v]))) := rfl
        simp only [List.cons_append] at ih2 ⊢
        rw [this, ih2.1, h2.1]
        rfl
      · simp only [List.cons_append] at ih2 ⊢
        have hpwt : pwt g (x :: y :: (q2 ++ [v])) =
            (g.wOf x y).getD 0 + pwt g (y :: (q2 ++ [v])) := rfl
        rw [hpwt, ih2.2]
        have : pwt g (x :: y :: q2) = (g.wOf x y).getD 0 + pwt g (y :: q2) := rfl
        rw [this]
        ring

theorem getLast_append_singleton {v : Int} (p : List Int) :
    (p ++ [v]).getLast? = some v := by
  simp

/-- Extending a walk by one current edge. -/
theorem Wk_snoc {g : Graph} {s u v : Int} {p : List Int} {w : ℚ}
    (h : Wk g s u p) (hw : g.wOf u v = some w) :
    Wk g s v (p ++ [v]) ∧ pwt g (p ++ [v]) = pwt g p + w := by
  have hs := pathOk_snoc g p u v h.1 h.2.2 (by rw [hw]; rfl)
  constructor
  · refine ⟨hs.1, ?_, getLast_append_singleton p⟩
    rcases Wk_head h with ⟨q, rfl⟩
    simp
  · rw [hs.2, hw]
    rfl

theorem mem_map_fst_iff {α : Type} (m : List (Int × α)) (x : Int) :
    x ∈ m.map Prod.fst ↔ ∃ w, (x, w) ∈ m := by
  constructor
  · intro h
    rcases List.mem_map.mp h with ⟨⟨a, b⟩, hp, rfl⟩
    exact ⟨b, hp⟩
  · rintro ⟨w, hw⟩
    exact List.mem_map.mpr ⟨(x, w), hw, rfl⟩

theorem aset_keys_nodup {α : Type} (m : List (Int × α)) (k : Int) (v : α)
    (h : (m.map Prod.fst).Nodup) : ((aset m k v).map Prod.fst).Nodup := by
  induction m with
  | nil => simp [aset]
  | cons p rest ih =>
    rw [List.map_cons, List.nodup_cons] at h
    by_cases h1 : p.1 = k
    · simp only [aset, if_pos h1, List.map_cons, List.nodup_cons]
      exact ⟨by rw [← h1]; exact h.1, h.2⟩
    · simp only [aset, if_neg h1, List.map_cons, List.nodup_cons]
      refine ⟨?_, ih h.2⟩
      intro hmem
      rw [mem_map_fst_iff] at hmem
      rcases (mem_aset_keys rest k v p.1).mp hmem with h2 | h2
      · exact h.1 ((mem_map_fst_iff rest p.1).mpr h2)
      · exact h1 h2

theorem adjOf_keys_nodup (g : Graph) (u : Int) :
    ((g.adjOf u).map Prod.fst).Nodup := by
  have haux : ∀ (l : List (Int × Int × ℚ)) (acc : List (Int × ℚ)),
      (acc.map Prod.fst).Nodup →
      ((l.foldl (fun a e => if e.1 = u then aset a e.2.1 e.2.2 else a) acc).map Prod.fst).Nodup := by
    intro l
    induction l with
    | nil => intro acc h; exact h
    | cons e rest ih =>
      intro acc h
      rw [List.foldl_cons]
      by_cases h1 : e.1 = u
      · rw [if_pos h1]
        exact ih _ (aset_keys_nodup acc e.2.1 e.2.2 h)
      · rw [if_neg h1]
        exact ih _ h
  exact haux g.edges [] (by simp)

theorem mem_effEdges_iff (g : Graph) (u v : Int) (w : ℚ) :
    (u, v, w) ∈ g.effEdges ↔ g.wOf u v = some w := by
  unfold Graph.effEdges
  rw [List.mem_bind]
  constructor
  · rintro ⟨a, _, hmem⟩
    rcases List.mem_map.mp hmem with ⟨p, hp, he⟩
    rw [Prod.mk.injEq, Prod.mk.injEq] at he
    obtain ⟨rfl, hpv, hpw⟩ := he
    have hpvw : p = (v, w) := by
      cases p
      simp only at hpv hpw
      rw [hpv, hpw]
    rw [hpvw] at hp
    exact mem_alook_eq_some (adjOf_keys_nodup g a) hp
  · intro hw
    have hmem : (v, w) ∈ g.adjOf u := alook_eq_some_mem hw
    have hu : u ∈ g.adjKeys := by
      rcases (mem_adjOf g u v).mp ⟨w, hmem⟩ with ⟨e, he, he1, _⟩
      exact (mem_adjKeys g u).mpr ⟨e, he, he1.symm⟩
    exact ⟨u, hu, List.mem_map.mpr ⟨(v, w), hmem, rfl⟩⟩

/-- All current edge weights are non-negative. -/
def NonnegW (g : Graph) : Prop := ∀ e ∈ g.effEdges, 0 ≤ e.2.2

instance (g : Graph) : Decidable (NonnegW g) := by
  unfold NonnegW
  infer_instance

theorem NonnegW_wOf {g : Graph} (h : NonnegW g) {u v : Int} {w : ℚ}
    (hw : g.wOf u v = some w) : 0 ≤ w :=
  h (u, v, w) ((mem_effEdges_iff g u v w).mpr hw)

theorem pwt_nonneg {g : Graph} (h : NonnegW g) :
    ∀ p, pathOk g p = true → 0 ≤ pwt g p := by
  intro p
  induction p with
  | nil => intro hp; cases hp
  | cons u q ih =>
    intro hp
    cases q with
    | nil => simp [pwt]
    | cons v rest =>
      have h2 := pathOk_cons_of hp
      rcases Option.isSome_iff_exists.mp h2.1 with ⟨w, hw⟩
      have hw0 := NonnegW_wOf h hw
      have hrest := ih h2.2
      have : pwt g (u :: v :: rest) = (g.wOf u v).getD 0 + pwt g (v :: rest) := rfl
      rw [this, hw]
      simp only [Option.getD_some]
      linarith

theorem pathOk_split (g : Graph) :
    ∀ (a : List Int) (x : Int) (c : List Int),
      pathOk g (a ++ x :: c) = (pathOk g (a ++ [x]) && pathOk g (x :: c)) := by
  intro a
  induction a with
  | nil =>
    intro x c
    cases c <;> simp [pathOk]
  | cons u a2 ih =>
    intro x c
    cases a2 with
    | nil =>
      show pathOk g (u :: x :: c) = (pathOk g (u :: [x]) && pathOk g (x :: c))
      show ((g.wOf u x).isSome && pathOk g (x :: c)) =
        (((g.wOf u x).isSome && pathOk g [x]) && pathOk g (x :: c))
      simp [pathOk]
    | cons v a3 =>
      show ((g.wOf u v).isSome && pathOk g (v :: (a3 ++ x :: c))) =
        (((g.wOf u v).isSome && pathOk g (v :: (a3 ++ [x]))) && pathOk g (x :: c))
      rw [show v :: (a3 ++ x :: c) = (v :: a3) ++ x :: c from rfl, ih x c]
      simp [Bool.and_assoc]

theorem pwt_split (g : Graph) :
    ∀ (a : List Int) (x : Int) (c : List Int),
      pwt g (a ++ x :: c) = pwt g (a ++ [x]) + pwt g (x :: c) := by
  intro a
  induction a with
  | nil =>
    intro x c
    cases c with
    | nil => simp [pwt]
    | cons y rest =>
      show pwt g (x :: y :: rest) = pwt g [x] + pwt g (x :: y :: rest)
      simp [pwt]
  | cons u a2 ih =>
    intro x c
    cases a2 with
    | nil =>
      show pwt g (u :: x :: c) = pwt g (u :: [x]) + pwt g (x :: c)
      show (g.wOf u x).getD 0 + pwt g (x :: c) =
        ((g.wOf u x).getD 0 + pwt g [x]) + pwt g (x :: c)
      simp [pwt]
    | cons v a3 =>
      show (g.wOf u v).getD 0 + pwt g (v :: (a3 ++ x :: c)) =
        ((g.wOf u v).getD 0 + pwt g (v :: (a3 ++ [x]))) + pwt g (x :: c)
      rw [show v :: (a3 ++ x :: c) = (v :: a3) ++ x :: c from rfl, ih x c]
      simp only [List.cons_append]
      ring

theorem not_nodup_split :
    ∀ (p : List Int), ¬ p.Nodup → ∃ a x b c, p = a ++ x :: b ++ x :: c := by
  intro p
  induction p with
  | nil => intro h; exact absurd List.nodup_nil h
  | cons u q ih =>
    intro h
    rw [List.nodup_cons] at h
    push_neg at h
    by_cases hu : u ∈ q
    · rcases List.mem_iff_append.mp hu with ⟨b, c, rfl⟩
      exact ⟨[], u, b, c, rfl⟩
    · rcases ih (h hu) with ⟨a, x, b, c, rfl⟩
      exact ⟨u :: a, x, b, c, rfl⟩

theorem head_append_cons (a : List Int) (x : Int) (b c : List Int) :
    (a ++ x :: b).head? = (a ++ x :: c).head? := by
  cases a <;> rfl

theorem getLast_append_cons (a : List Int) (x : Int) (c : List Int) :
    (a ++ x :: c).getLast? = (x :: c).getLast? := by
  induction a with
  | nil => rfl
  | cons u a2 ih =>
    have hne : a2 ++ x :: c ≠ [] := by simp
    cases ha : a2 ++ x :: c with
    | nil => exact absurd ha hne
    | cons y ys =>
      rw [List.cons_append, ha, List.getLast?_cons_cons, ← ha]
      exact ih

/-- Cutting cycles out of a walk: every walk contains a duplicate-free walk
with the same endpoints, no longer, and (for non-negative weights) no
heavier. -/
theorem Wk_dedup (g : Graph) :
    ∀ (N : Nat) (p : List Int) (s t : Int), p.length ≤ N → Wk g s t p →
      ∃ q, Wk g s t q ∧ q.Nodup ∧ q.length ≤ p.length ∧
        (NonnegW g → pwt g q ≤ pwt g p) := by
  intro N
  induction N with
  | zero =>
    intro p s t hlen hwk
    have hp : p = [] := List.length_eq_zero.mp (Nat.le_zero.mp hlen)
    exact absurd hp (Wk_ne_nil hwk)
  | succ N ih =>
    intro p s t hlen hwk
    by_cases hnd : p.Nodup
    · exact ⟨p, hwk, hnd, le_refl _, fun _ => le_refl _⟩
    · obtain ⟨a, x, b, c, rfl⟩ := not_nodup_split p hnd
      have hshape : a ++ x :: b ++ x :: c = a ++ x :: (b ++ x :: c) := by simp
      have hshape2 : x :: (b ++ x :: c) = (x :: b) ++ x :: c := by simp
      have hpath := hwk.1
      rw [hshape, pathOk_split g a x (b ++ x :: c), Bool.and_eq_true] at hpath
      obtain ⟨h1, h2⟩ := hpath
      rw [hshape2, pathOk_split g (x :: b) x c, Bool.and_eq_true] at h2
      obtain ⟨h2a, h2b⟩ := h2
      have hq0path : pathOk g (a ++ x :: c) = true := by
        rw [pathOk_split g a x c, Bool.and_eq_true]
        exact ⟨h1, h2b⟩
      have hq0head : (a ++ x :: c).head? = some s := by
        rw [head_append_cons a x c (b ++ x :: c)]
        rw [← hshape]
        exact hwk.2.1
      have hq0last : (a ++ x :: c).getLast? = some t := by
        rw [getLast_append_cons a x c]
        have hl := hwk.2.2
        rw [hshape, getLast_append_cons a x (b ++ x :: c), hshape2,
          getLast_append_cons (x :: b) x c] at hl
        exact hl
      have hq0wk : Wk g s t (a ++ x :: c) := ⟨hq0path, hq0head, hq0last⟩
      have hq0len : (a ++ x :: c).length < (a ++ x :: b ++ x :: c).length := by
        simp only [List.length_append, List.length_cons]
        omega
      have hq0wt : NonnegW g → pwt g (a ++ x :: c) ≤ pwt g (a ++ x :: b ++ x :: c) := by
        intro hnn
        rw [hshape, pwt_split g a x (b ++ x :: c), hshape2, pwt_split g (x :: b) x c,
          pwt_split g a x c]
        have hmid := pwt_nonneg hnn _ h2a
        linarith
      obtain ⟨q, hq, hqnd, hqlen, hqwt⟩ := ih (a ++ x :: c) s t (by
        simp only [List.length_append, List.length_cons] at hlen ⊢
        omega) hq0wk
      refine ⟨q, hq, hqnd, ?_, fun hnn => le_trans (hqwt hnn) (hq0wt hnn)⟩
      have h3 := hq0len
      omega

/-- Every node on a walk other than the head is a registered node. -/
theorem pathOk_mem_nodeList (g : Graph) :
    ∀ (q : List Int) (u : Int), pathOk g (u :: q) = true →
      ∀ x ∈ u :: q, x = u ∨ x ∈ g.nodeList := by
  intro q
  induction q with
  | nil =>
    intro u _ x hx
    rcases List.mem_singleton.mp hx with rfl
    exact Or.inl rfl
  | cons v rest ih =>
    intro u hp x hx
    have h2 := pathOk_cons_of hp
    rcases List.mem_cons.mp hx with rfl | hx2
    · exact Or.inl rfl
    · right
      rcases Option.isSome_iff_exists.mp h2.1 with ⟨w, hw⟩
      rcases ih v h2.2 x hx2 with rfl | hh
      · exact (wOf_mem_nodeList hw).2
      · exact hh

/-! ### Decidable reachability via an iterated closure -/

/-- One expansion step of the reachability closure. -/
def reachStep (g : Graph) (l : List Int) : List Int :=
  (l.bind (fun n => (g.adjOf n).map Prod.fst)).foldl addNode l

/-- `k` expansion steps. -/
def reachN (g : Graph) : Nat → List Int → List Int
  | 0, l => l
  | k + 1, l => reachN g k (reachStep g l)

theorem mem_foldl_addNode (l2 : List Int) :
    ∀ (l : List Int) (x : Int), x ∈ l2.foldl addNode l ↔ x ∈ l ∨ x ∈ l2 := by
  induction l2 with
  | nil => intro l x; simp
  | cons y rest ih =>
    intro l x
    rw [List.foldl_cons, ih, mem_addNode]
    constructor
    · rintro ((h | rfl) | h)
      · exact Or.inl h
      · exact Or.inr (List.mem_cons_self _ _)
      · exact Or.inr (List.mem_cons_of_mem _ h)
    · rintro (h | h)
      · exact Or.inl (Or.inl h)
      · rcases List.mem_cons.mp h with rfl | h2
        · exact Or.inl (Or.inr rfl)
        · exact Or.inr h2

theorem wOf_iff_mem_adjOf_map (g : Graph) (n x : Int) :
    x ∈ (g.adjOf n).map Prod.fst ↔ ∃ w, g.wOf n x = some w := by
  rw [mem_map_fst_iff]
  constructor
  · rintro ⟨w, hw⟩
    exact ⟨w, mem_alook_eq_some (adjOf_keys_nodup g n) hw⟩
  · rintro ⟨w, hw⟩
    exact ⟨w, alook_eq_some_mem hw⟩

theorem mem_reachStep (g : Graph) (l : List Int) (x : Int) :
    x ∈ reachStep g l ↔ x ∈ l ∨ ∃ n ∈ l, ∃ w, g.wOf n x = some w := by
  unfold reachStep
  rw [mem_foldl_addNode]
  constructor
  · rintro (h | h)
    · exact Or.inl h
    · rcases List.mem_bind.mp h with ⟨n, hn, hx⟩
      exact Or.inr ⟨n, hn, (wOf_iff_mem_adjOf_map g n x).mp hx⟩
  · rintro (h | ⟨n, hn, hw⟩)
    · exact Or.inl h
    · exact Or.inr (List.mem_bind.mpr ⟨n, hn, (wOf_iff_mem_adjOf_map g n x).mpr hw⟩)

theorem reachN_sound (g : Graph) (s : Int) :
    ∀ (k : Nat) (l : List Int), (∀ x ∈ l, Reachable g s x) →
      ∀ x ∈ reachN g k l, Reachable g s x := by
  intro k
  induction k with
  | zero => intro l h x hx; exact h x hx
  | succ k ih =>
    intro l h x hx
    apply ih (reachStep g l) _ x hx
    intro y hy
    rcases (mem_reachStep g l y).mp hy with h2 | ⟨n, hn, w, hw⟩
    · exact h y h2
    · rcases h n hn with ⟨p, hp⟩
      exact ⟨p ++ [y], (Wk_snoc hp hw).1⟩

theorem reachN_mono_mem (g : Graph) :
    ∀ (k : Nat) (l : List Int) (x : Int), x ∈ l → x ∈ reachN g k l := by
  intro k
  induction k with
  | zero => intro l x hx; exact hx
  | succ k ih =>
    intro l x hx
    exact ih (reachStep g l) x ((mem_reachStep g l x).mpr (Or.inl hx))

theorem reachN_complete (g : Graph) :
    ∀ (p : List Int) (k : Nat) (l : List Int) (u t : Int),
      Wk g u t p → p.length ≤ k + 1 → u ∈ l → t ∈ reachN g k l := by
  intro p
  induction p with
  | nil => intro k l u t hwk; exact absurd rfl (Wk_ne_nil hwk)
  | cons a q ih =>
    intro k l u t hwk hlen hu
    have hau : a = u := by
      have := hwk.2.1
      simp only [List.head?_cons, Option.some.injEq] at this
      exact this
    cases q with
    | nil =>
      have ht : a = t := by
        have := hwk.2.2
        simp only [List.getLast?_singleton, Option.some.injEq] at this
        exact this
      rw [← ht, hau]
      exact reachN_mono_mem g k l u hu
    | cons v rest =>
      have h2 := pathOk_cons_of hwk.1
      rcases Option.isSome_iff_exists.mp h2.1 with ⟨w, hw⟩
      have hw2 : g.wOf u v = some w := hau ▸ hw
      have hwk2 : Wk g v t (v :: rest) := by
        refine ⟨h2.2, rfl, ?_⟩
        have := hwk.2.2
        rw [List.getLast?_cons_cons] at this
        exact this
      cases k with
      | zero =>
        exfalso
        simp only [List.length_cons] at hlen
        omega
      | succ k2 =>
        show t ∈ reachN g k2 (reachStep g l)
        apply ih k2 (reachStep g l) v t hwk2
        · simp only [List.length_cons] at hlen ⊢
          omega
        · exact (mem_reachStep g l v).mpr (Or.inr ⟨u, hu, w, hw2⟩)

/-- The reachability closure saturates after `|nodes|` steps. -/
def reachClosure (g : Graph) (s : Int) : List Int :=
  reachN g g.nodeList.length [s]

theorem reachable_iff_mem_closure (g : Graph) (s t : Int) :
    Reachable g s t ↔ t ∈ reachClosure g s := by
  constructor
  · rintro ⟨p, hp⟩
    obtain ⟨q, hq, hqnd, _, _⟩ :=
      Wk_dedup g p.length p s t (le_refl _) hp
    have hlen : q.length ≤ g.nodeList.length + 1 := by
      obtain ⟨q2, rfl⟩ := Wk_head hq
      have hsub : q2.toFinset ⊆ g.nodeList.toFinset := by
        intro x hx
        rw [List.mem_toFinset] at hx ⊢
        rcases pathOk_mem_nodeList g q2 s hq.1 x (List.mem_cons_of_mem _ hx) with rfl | h
        · rw [List.nodup_cons] at hqnd
          exact absurd hx hqnd.1
        · exact h
      have hcard : q2.toFinset.card ≤ g.nodeList.toFinset.card := Finset.card_le_card hsub
      have hq2 : q2.toFinset.card = q2.length := by
        rw [List.nodup_cons] at hqnd
        exact List.toFinset_card_of_nodup hqnd.2
      have hnl := List.toFinset_card_le g.nodeList
      simp only [List.length_cons]
      omega
    exact reachN_complete g q g.nodeList.length [s] s t hq hlen (List.mem_singleton.mpr rfl)
  · intro h
    exact reachN_sound g s g.nodeList.length [s]
      (fun x hx => by
        rcases List.mem_singleton.mp hx with rfl
        exact ⟨[x], Wk_single g x⟩) t h

instance (g : Graph) (s t : Int) : Decidable (Reachable g s t) :=
  decidable_of_iff (t ∈ reachClosure g s) (reachable_iff_mem_closure g s t).symm

/-- `d` is the minimum walk weight from `s` to `t`. -/
def IsMinWk (g : Graph) (s t : Int) (d : ℚ) : Prop :=
  (∃ p, Wk g s t p ∧ pwt g p = d) ∧ ∀ p, Wk g s t p → d ≤ pwt g p

theorem IsMinWk_unique {g : Graph} {s t : Int} {d1 d2 : ℚ}
    (h1 : IsMinWk g s t d1) (h2 : IsMinWk g s t d2) : d1 = d2 := by
  rcases h1.1 with ⟨p1, hp1, he1⟩
  rcases h2.1 with ⟨p2, hp2, he2⟩
  have ha := h1.2 p2 hp2
  have hb := h2.2 p1 hp1
  linarith [ha, hb, he1 ▸ hb, he2 ▸ ha]

/-! ### Claim C2: Bellman-Ford check pass -/

/-- C2.  `BellmanFord(source)` runs `len(g.nodes) - 1` full relaxation passes
and then one read-only check pass: the returned distances are exactly the
passes' result (the check pass does not modify them), the flag is true iff
some current edge still yields an improvement against those distances, and on
the graph with edges `0→1 (weight 1)` and `1→0 (weight -3)`,
`BellmanFord(0)` reports a negative cycle. -/
theorem bellmanFord_check_pass (g : Graph) (source : Int) :
    (g.BellmanFord source).1 =
      bfPasses g (g.nodeList.length - 1)
        (aset (g.nodeList.map (fun n => (n, (none : Option ℚ)))) source (some 0)) ∧
    ((g.BellmanFord source).2 = true ↔
      ∃ u v w, g.wOf u v = some w ∧
        dLt (dAdd (dget (g.BellmanFord source).1 u) w)
          (dget (g.BellmanFord source).1 v) = true) ∧
    (((NewGraph.AddEdge 0 1 1).AddEdge 1 0 (-3)).BellmanFord 0).2 = true := by
  refine ⟨rfl, ?_, ?_⟩
  · show (g.effEdges.any _ = true) ↔ _
    rw [List.any_eq_true]
    constructor
    · rintro ⟨e, he, hlt⟩
      exact ⟨e.1, e.2.1, e.2.2, (mem_effEdges_iff g e.1 e.2.1 e.2.2).mp he, hlt⟩
    · rintro ⟨u, v, w, hw, hlt⟩
      exact ⟨(u, v, w), (mem_effEdges_iff g u v w).mpr hw, hlt⟩
  · show ((Graph.mk ([] ++ [(0, 1, 1)] ++ [(1, 0, -3)])).BellmanFord 0).2 = true
    norm_num [Graph.BellmanFord, bfPasses, relaxEdges, Graph.effEdges, Graph.adjKeys,
      Graph.adjOf, Graph.nodeList, addNode, aset, alook, dget, dAdd, dLt, List.any,
      Graph.edges]

/-! ### Claim C6: graph edit distance -/

/-- The count the claim describes: nodes present in exactly one registry plus
directed `(from, to)` edges present in exactly one adjacency, where presence
of an edge is judged ignoring the weight value. -/
def gedSpecIgnoreWeight (g1 g2 : Graph) : ℚ :=
  (((g1.nodeList.filter (fun n => decide (n ∉ g2.nodeList))).length : ℚ) +
    ((g2.nodeList.filter (fun n => decide (n ∉ g1.nodeList))).length : ℚ)) +
  (((g1.effEdges.filter (fun e => decide (g2.wOf e.1 e.2.1 = none))).length : ℚ) +
    ((g2.effEdges.filter (fun e => decide (g1.wOf e.1 e.2.1 = none))).length : ℚ))

/-- The count the code actually computes: an edge of one graph is counted
when the other graph's adjacency row is nil or stores weight exactly `0` for
that pair (Go's missing-key read of a `map[int]float64` yields `0`). -/
def gedSpecZeroRule (g1 g2 : Graph) : ℚ :=
  (((g1.nodeList.filter (fun n => decide (n ∉ g2.nodeList))).length : ℚ) +
    ((g2.nodeList.filter (fun n => decide (n ∉ g1.nodeList))).length : ℚ)) +
  (((g1.effEdges.filter (fun e => decide ((g2.wOf e.1 e.2.1).getD 0 = 0))).length : ℚ) +
    ((g2.effEdges.filter (fun e => decide ((g1.wOf e.1 e.2.1).getD 0 = 0))).length : ℚ))

set_option maxRecDepth 100000 in
/-- C6 counterexample.  With `g1` holding edge `0→1` of weight `5` and `g2`
holding edge `0→1` of weight `0`, the edge is present in both adjacency maps,
so the claimed weight-ignoring count is `0`; the code counts `1` because it
tests the stored weight against `0`. -/
theorem graphEditDistance_ne_ignore_weight :
    GraphEditDistance ⟨[(0, 1, 5)]⟩ ⟨[(0, 1, 0)]⟩ = 1 ∧
    gedSpecIgnoreWeight ⟨[(0, 1, 5)]⟩ ⟨[(0, 1, 0)]⟩ = 0 ∧
    GraphEditDistance ⟨[(0, 1, 5)]⟩ ⟨[(0, 1, 0)]⟩ ≠
      gedSpecIgnoreWeight ⟨[(0, 1, 5)]⟩ ⟨[(0, 1, 0)]⟩ := by
  refine ⟨?_, ?_, ?_⟩
  · norm_num [GraphEditDistance, Graph.effEdges, Graph.adjKeys, Graph.adjOf, Graph.nodeList,
      addNode, aset, alook, Graph.wD, Graph.wOf, Graph.edges, List.filter]
  · norm_num [gedSpecIgnoreWeight, Graph.effEdges, Graph.adjKeys, Graph.adjOf, Graph.nodeList,
      addNode, aset, alook, Graph.wOf, Graph.edges, List.filter]
    simp
  · norm_num [GraphEditDistance, gedSpecIgnoreWeight, Graph.effEdges, Graph.adjKeys,
      Graph.adjOf, Graph.nodeList, addNode, aset, alook, Graph.wD, Graph.wOf, Graph.edges,
      List.filter]
    simp

/-- C6 (amended).  `GraphEditDistance(g1, g2)` equals the number of node
identifiers present in exactly one registry plus the number of directed
edges `(from, to)` of either graph for which the other graph's adjacency has
no row for `from` or stores weight exactly `0` — i.e. edge presence is judged
by a nonzero stored weight, not ignoring the weight. -/
theorem graphEditDistance_eq_zero_rule (g1 g2 : Graph) :
    GraphEditDistance g1 g2 = gedSpecZeroRule g1 g2 := by
  unfold GraphEditDistance gedSpecZeroRule
  have hfilter : ∀ (ga gb : Graph),
      ga.effEdges.filter (fun e => (gb.adjOf e.1).isEmpty || decide (gb.wD e.1 e.2.1 = 0)) =
        ga.effEdges.filter (fun e => decide ((gb.wOf e.1 e.2.1).getD 0 = 0)) := by
    intro ga gb
    apply List.filter_congr
    intro e _
    unfold Graph.wD
    by_cases hnil : (gb.adjOf e.1).isEmpty
    · have hw : gb.wOf e.1 e.2.1 = none :=
        wOf_none_of_adjOf_nil (List.isEmpty_iff.mp hnil) e.2.1
      simp [hnil, hw]
    · simp [hnil]
  rw [hfilter g1 g2, hfilter g2 g1]

/-! ### Claim C3: querying a node never inserted -/

set_option maxRecDepth 100000 in
/-- C3 evaluated at the failing input.  On the graph with single edge
`0→1 (weight 1)`, the target `3` was never inserted, yet `Dijkstra(0, 3)`
returns distance `0` with path `[0, 3]` instead of the infinite sentinel and
an empty path: the final `dist[target]` read hits Go's zero value `0.0`,
which is `!= math.Inf(1)`, so the reconstruction loop runs and follows
missing `prev` entries to node `0`. -/
theorem dijkstra_absent_target_zero :
    ((3 : Int) ∉ (Graph.mk [(0, 1, 1)]).nodeList) ∧
    (Graph.mk [(0, 1, 1)]).Dijkstra 0 3 = (some 0, some [0, 3]) := by
  constructor
  · decide
  · norm_num [Graph.Dijkstra, dijkstraRes, initDist, dijkstraLoop, dijkstraLoopF, dFuel, popMin, relaxList, relaxOne,
      dget, alook, aset, dAdd, dLt, dLe, Graph.nodeList, Graph.adjOf, addNode, reconstruct,
      reconGo, iget, pqKeys, Graph.edges]

/-! ### DFS specification, for claims C7 and C9 -/

theorem dfsGoF_spec (g : Graph) :
    ∀ (fuel : Nat) (visited acc : List Int) (frames : List (List Int))
      (res : List Int × List Int),
      dfsGoF g fuel visited acc frames = some res →
      ∃ δ, res.2 = acc ++ δ ∧
        (∀ x, x ∈ res.1 ↔ x ∈ visited ∨ x ∈ δ) ∧
        δ.Nodup ∧ (∀ x ∈ δ, x ∉ visited) ∧
        (∀ x ∈ δ, x ∈ frames.join ∨ x ∈ g.nodeList) ∧
        (∀ x ∈ frames.join, x ∈ res.1) := by
  intro fuel
  induction fuel with
  | zero => intro _ _ _ _ h; cases h
  | succ fuel ih =>
    intro visited acc frames res h
    match frames with
    | [] =>
      obtain rfl : (visited, acc) = res := Option.some.inj h
      exact ⟨[], by simp, by simp, List.nodup_nil, by simp, by simp, by simp⟩
    | [] :: fr =>
      obtain ⟨δ, h1, h2, h3, h4, h5, h6⟩ := ih visited acc fr res h
      refine ⟨δ, h1, h2, h3, h4, ?_, ?_⟩
      · intro x hx
        rcases h5 x hx with h7 | h7
        · exact Or.inl (by simpa using h7)
        · exact Or.inr h7
      · intro x hx
        exact h6 x (by simpa using hx)
    | (n :: ns) :: fr =>
      by_cases hv : n ∈ visited
      · simp only [dfsGoF, if_pos hv] at h
        obtain ⟨δ, h1, h2, h3, h4, h5, h6⟩ := ih visited acc (ns :: fr) res h
        refine ⟨δ, h1, h2, h3, h4, ?_, ?_⟩
        · intro x hx
          rcases h5 x hx with h7 | h7
          · left
            simp only [List.join_cons, List.mem_append] at h7 ⊢
            rcases h7 with h7 | h7
            · exact Or.inl (List.mem_cons_of_mem _ h7)
            · exact Or.inr h7
          · exact Or.inr h7
        · intro x hx
          simp only [List.join_cons, List.mem_append, List.mem_cons] at hx
          rcases hx with (rfl | hx) | hx
          · exact (h2 x).mpr (Or.inl hv)
          · exact h6 x (by simp only [List.join_cons, List.mem_append]; exact Or.inl hx)
          · exact h6 x (by simp only [List.join_cons, List.mem_append]; exact Or.inr hx)
      · simp only [dfsGoF, if_neg hv] at h
        obtain ⟨δ2, h1, h2, h3, h4, h5, h6⟩ := ih (n :: visited) (acc ++ [n])
          (((g.adjOf n).map Prod.fst) :: ns :: fr) res h
        refine ⟨n :: δ2, by simpa using h1, ?_, ?_, ?_, ?_, ?_⟩
        · intro x
          rw [h2 x]
          simp only [List.mem_cons]
          tauto
        · rw [List.nodup_cons]
          exact ⟨fun hmem => (h4 n hmem) (List.mem_cons_self _ _), h3⟩
        · intro x hx
          rcases List.mem_cons.mp hx with rfl | hx2
          · exact hv
          · exact fun hmem => (h4 x hx2) (List.mem_cons_of_mem _ hmem)
        · intro x hx
          rcases List.mem_cons.mp hx with rfl | hx2
          · left
            simp [List.join_cons]
          · rcases h5 x hx2 with h7 | h7
            · simp only [List.join_cons, List.mem_append] at h7
              rcases h7 with h7 | h7 | h7
              · right
                rcases List.mem_map.mp h7 with ⟨p, hp, rfl⟩
                exact adjOf_fst_mem_nodeList g n p hp
              · left
                simp only [List.join_cons, List.mem_append, List.mem_cons]
                exact Or.inl (Or.inr h7)
              · left
                simp only [List.join_cons, List.mem_append]
                exact Or.inr h7
            · exact Or.inr h7
        · intro x hx
          simp only [List.join_cons, List.mem_append, List.mem_cons] at hx
          rcases hx with (rfl | hx) | hx
          · exact (h2 x).mpr (Or.inl (List.mem_cons_self _ _))
          · exact h6 x (by
              simp only [List.join_cons, List.mem_append]
              exact Or.inr (Or.inl hx))
          · exact h6 x (by
              simp only [List.join_cons, List.mem_append]
              exact Or.inr (Or.inr hx))

theorem dfsRun_spec (g : Graph) (visited acc : List Int) (frames : List (List Int)) :
    ∃ δ, (dfsRun g visited acc frames).2 = acc ++ δ ∧
      (∀ x, x ∈ (dfsRun g visited acc frames).1 ↔ x ∈ visited ∨ x ∈ δ) ∧
      δ.Nodup ∧ (∀ x ∈ δ, x ∉ visited) ∧
      (∀ x ∈ δ, x ∈ frames.join ∨ x ∈ g.nodeList) ∧
      (∀ x ∈ frames.join, x ∈ (dfsRun g visited acc frames).1) := by
  have hs := dfsGoF_isSome g (cFuel g frames) visited acc frames (cPsi_lt_cFuel g visited frames)
  rcases Option.isSome_iff_exists.mp hs with ⟨res, hres⟩
  have heq : dfsRun g visited acc frames = res := by
    unfold dfsRun
    rw [hres]
    rfl
  rw [heq]
  exact dfsGoF_spec g _ visited acc frames res hres

theorem ccGo_spec (g : Graph) :
    ∀ (order visited : List Int),
      ((ccGo g visited order).join.Nodup) ∧
      (∀ x ∈ (ccGo g visited order).join, x ∉ visited ∧ (x ∈ order ∨ x ∈ g.nodeList)) ∧
      (∀ x ∈ order, x ∉ visited → x ∈ (ccGo g visited order).join) := by
  intro order
  induction order with
  | nil =>
    intro visited
    refine ⟨by simp [ccGo], by simp [ccGo], by simp⟩
  | cons n ns ih =>
    intro visited
    by_cases hv : n ∈ visited
    · simp only [ccGo, if_pos hv]
      obtain ⟨ih1, ih2, ih3⟩ := ih visited
      refine ⟨ih1, ?_, ?_⟩
      · intro x hx
        obtain ⟨ha, hb⟩ := ih2 x hx
        refine ⟨ha, ?_⟩
        rcases hb with h | h
        · exact Or.inl (List.mem_cons_of_mem _ h)
        · exact Or.inr h
      · intro x hx hxv
        rcases List.mem_cons.mp hx with rfl | hx2
        · exact absurd hv hxv
        · exact ih3 x hx2 hxv
    · have hunfold : ccGo g visited (n :: ns) =
          (dfsRun g visited [] [[n]]).2 :: ccGo g (dfsRun g visited [] [[n]]).1 ns := by
        simp only [ccGo, if_neg hv]
      rw [hunfold]
      obtain ⟨δ, hδ2, hmem, hnd, hdisj, horig, hcomp⟩ := dfsRun_spec g visited [] [[n]]
      have hδ2e : (dfsRun g visited [] [[n]]).2 = δ := by simpa using hδ2
      have hjoin_n : n ∈ δ := by
        have hn := hcomp n (by simp)
        rcases (hmem n).mp hn with h | h
        · exact absurd h hv
        · exact h
      obtain ⟨ih1, ih2, ih3⟩ := ih (dfsRun g visited [] [[n]]).1
      refine ⟨?_, ?_, ?_⟩
      · simp only [List.join_cons]
        rw [hδ2e]
        apply List.nodup_append.mpr
        refine ⟨hnd, ih1, ?_⟩
        intro x hx hx2
        exact (ih2 x hx2).1 ((hmem x).mpr (Or.inr hx))
      · intro x hx
        simp only [List.join_cons] at hx
        rw [hδ2e] at hx
        rcases List.mem_append.mp hx with hx | hx
        · refine ⟨hdisj x hx, ?_⟩
          rcases horig x hx with h | h
          · left
            simp only [List.join_cons, List.join_nil, List.append_nil] at h
            rcases List.mem_singleton.mp h with rfl
            exact List.mem_cons_self _ _
          · exact Or.inr h
        · have h2 := ih2 x hx
          refine ⟨fun hxv => h2.1 ((hmem x).mpr (Or.inl hxv)), ?_⟩
          rcases h2.2 with h | h
          · exact Or.inl (List.mem_cons_of_mem _ h)
          · exact Or.inr h
      · intro x hx hxv
        simp only [List.join_cons]
        rw [hδ2e]
        rcases List.mem_cons.mp hx with rfl | hx2
        · exact List.mem_append.mpr (Or.inl hjoin_n)
        · by_cases hxr : x ∈ (dfsRun g visited [] [[n]]).1
          · rcases (hmem x).mp hxr with h | h
            · exact absurd h hxv
            · exact List.mem_append.mpr (Or.inl h)
          · exact List.mem_append.mpr (Or.inr (ih3 x hx2 hxr))

/-! ### Claim C7: components partition the registry -/

/-- C7.  `IsConnected()` is true exactly when `ConnectedComponents()` returns
one component, and the components partition the node registry: their
concatenation has no duplicates and contains exactly the registered nodes. -/
theorem connectedComponents_partition (g : Graph) :
    (g.IsConnected = true ↔ g.ConnectedComponents.length = 1) ∧
    g.ConnectedComponents.join.Nodup ∧
    (∀ x, x ∈ g.ConnectedComponents.join ↔ x ∈ g.nodeList) := by
  obtain ⟨h1, h2, h3⟩ := ccGo_spec g g.nodeList []
  refine ⟨?_, h1, ?_⟩
  · unfold Graph.IsConnected
    simp
  · intro x
    constructor
    · intro hx
      rcases (h2 x hx).2 with h | h
      · exact h
      · exact h
    · intro hx
      exact h3 x hx (by simp)

/-! ### Claim C9: run-to-run determinism -/

set_option maxRecDepth 100000 in
/-- C9 counterexample.  `[2, 3, 0, 1]` is a permutation of the node
registry of the graph with edges `0→1` and `2→3` — i.e. a legal iteration
order of the `g.nodes` map, which Go chooses anew at every `range` loop —
and iterating in that order makes `ConnectedComponents()` return the same
components in a different order than the first-insertion order does, so two
successive calls need not be bit-identical. -/
theorem connectedComponents_order_dependent :
    List.Perm ((Graph.mk [(0, 1, 1), (2, 3, 1)]).nodeList) [2, 3, 0, 1] ∧
    connectedComponentsOrder (Graph.mk [(0, 1, 1), (2, 3, 1)]) [2, 3, 0, 1] ≠
      Graph.ConnectedComponents (Graph.mk [(0, 1, 1), (2, 3, 1)]) := by
  constructor
  · decide
  · norm_num [Graph.ConnectedComponents, connectedComponentsOrder, ccGo, dfsRun, dfsGoF,
      cFuel, Graph.adjOf, Graph.nodeList, addNode, aset, alook, Graph.edges]

/-- C9 (amended).  The query algorithms are deterministic only up to Go's
runtime-chosen map iteration order: with the iteration order fixed the
result is a function of the graph, but different orders can permute the
output (see `connectedComponents_order_dependent`), so two successive calls
are not guaranteed bit-identical.  What holds across every legal iteration
order of the node map is the set-level result: the components returned by
`ConnectedComponents()` always partition the node registry. -/
theorem connectedComponentsOrder_partition (g : Graph) (order : List Int)
    (horder : List.Perm order g.nodeList) :
    (connectedComponentsOrder g order).join.Nodup ∧
    (∀ x, x ∈ (connectedComponentsOrder g order).join ↔ x ∈ g.nodeList) := by
  obtain ⟨h1, h2, h3⟩ := ccGo_spec g order []
  refine ⟨h1, ?_⟩
  intro x
  constructor
  · intro hx
    rcases (h2 x hx).2 with h | h
    · exact horder.mem_iff.mp h
    · exact h
  · intro hx
    exact h3 x (horder.mem_iff.mpr hx) (by simp)

set_option maxRecDepth 100000 in
/-- Witness for `connectedComponentsOrder_partition` at a concrete graph and
iteration order. -/
theorem connectedComponentsOrder_partition_witness :
    List.Perm [2, 3, 0, 1] ((Graph.mk [(0, 1, 1), (2, 3, 1)]).nodeList) ∧
    ((connectedComponentsOrder (Graph.mk [(0, 1, 1), (2, 3, 1)]) [2, 3, 0, 1]).join.Nodup ∧
      (∀ x, x ∈ (connectedComponentsOrder (Graph.mk [(0, 1, 1), (2, 3, 1)]) [2, 3, 0, 1]).join ↔
        x ∈ (Graph.mk [(0, 1, 1), (2, 3, 1)]).nodeList)) :=
  ⟨by decide, connectedComponentsOrder_partition (Graph.mk [(0, 1, 1), (2, 3, 1)])
    [2, 3, 0, 1] (by decide)⟩

/-! ### Claim C4: A* with the zero heuristic is Dijkstra -/

theorem dAdd_zero (a : Option ℚ) : dAdd a 0 = a := by
  cases a with
  | none => rfl
  | some q => simp [dAdd]

theorem relaxOneA_zero (target u : Int) (visited : List Int) (st) (nb : Int × ℚ) :
    relaxOneA (fun _ _ => 0) target u visited st nb = relaxOne u visited st nb := by
  unfold relaxOneA relaxOne
  simp only [dAdd_zero]

theorem relaxListA_zero (target u : Int) (visited : List Int) :
    ∀ (nbrs : List (Int × ℚ)) (st),
      relaxListA (fun _ _ => 0) target u visited st nbrs = relaxList u visited st nbrs := by
  intro nbrs
  induction nbrs with
  | nil => intro st; rfl
  | cons nb rest ih =>
    intro st
    show relaxListA (fun _ _ => 0) target u visited
      (relaxOneA (fun _ _ => 0) target u visited st nb) rest = _
    rw [relaxOneA_zero, ih]
    rfl

theorem astarLoopF_zero (g : Graph) (target : Int) :
    ∀ (fuel : Nat) (dist : List (Int × Option ℚ)) (prev : List (Int × Int))
      (visited : List Int) (pq : List (Int × Option ℚ)),
      astarLoopF g target (fun _ _ => 0) fuel dist prev visited pq =
        dijkstraLoopF g target fuel dist prev visited pq := by
  intro fuel
  induction fuel with
  | zero => intro dist prev visited pq; rfl
  | succ fuel ih =>
    intro dist prev visited pq
    unfold astarLoopF dijkstraLoopF
    cases popMin pq with
    | none => rfl
    | some p =>
      cases p with
      | mk cur rest =>
        dsimp only
        by_cases hv : cur.1 ∈ visited
        · rw [if_pos hv, if_pos hv, ih]
        · rw [if_neg hv, if_neg hv]
          by_cases ht : cur.1 = target
          · rw [if_pos ht, if_pos ht]
          · rw [if_neg ht, if_neg ht, relaxListA_zero, ih]

/-- C4.  For every graph, source and target, `AStar(source, target, h)` with
the everywhere-zero heuristic returns exactly the same distance and the same
path as `Dijkstra(source, target)`: with `h ≡ 0` the initial priority and
every pushed priority coincide with Dijkstra's, so the runs are identical
step for step. -/
theorem astar_zero_heuristic_eq_dijkstra (g : Graph) (source target : Int) :
    g.AStar source target (fun _ _ => 0) = g.Dijkstra source target := by
  unfold Graph.AStar Graph.Dijkstra astarRes dijkstraRes astarLoop dijkstraLoop
  simp only [astarLoopF_zero]

/-! ### Dijkstra invariants, part 1: keyed and sound distance maps -/

theorem alook_map_const (c : Option ℚ) :
    ∀ (l : List Int) (v : Int),
      alook (l.map (fun n => (n, c))) v = if v ∈ l then some c else none := by
  intro l
  induction l with
  | nil => intro v; simp [alook]
  | cons n rest ih =>
    intro v
    by_cases h : n = v
    · subst h
      simp [alook]
    · rw [List.map_cons]
      show (if n = v then some c else alook (rest.map (fun n => (n, c))) v) = _
      rw [if_neg h, ih v]
      by_cases hv : v ∈ rest
      · simp [hv, List.mem_cons]
      · have hnv : v ∉ n :: rest := by
          rw [List.mem_cons]
          push_neg
          exact ⟨fun he => h he.symm, hv⟩
        simp [hv, hnv]

theorem alook_initDist_source (g : Graph) (s : Int) :
    alook (initDist g s) s = some (some 0) := by
  unfold initDist
  exact alook_aset_self _ _ _

theorem alook_initDist_ne (g : Graph) (s v : Int) (h : s ≠ v) :
    alook (initDist g s) v = if v ∈ g.nodeList then some none else none := by
  unfold initDist
  rw [alook_aset_ne _ _ _ _ h, alook_map_const]

/-- Every registered node (and the source) has an entry in the map. -/
def distKeyed (g : Graph) (source : Int) (dist : List (Int × Option ℚ)) : Prop :=
  ∀ v, v ∈ g.nodeList ∨ v = source → ∃ dv, alook dist v = some dv

/-- Every finite entry of the map is the weight of an actual walk from the
source. -/
def distSound (g : Graph) (source : Int) (dist : List (Int × Option ℚ)) : Prop :=
  ∀ v q, alook dist v = some (some q) → ∃ p, Wk g source v p ∧ pwt g p = q

theorem initDist_keyed (g : Graph) (s : Int) : distKeyed g s (initDist g s) := by
  intro v hv
  by_cases h : s = v
  · subst h
    exact ⟨some 0, alook_initDist_source g s⟩
  · rw [alook_initDist_ne g s v h]
    rcases hv with hv | rfl
    · exact ⟨none, by rw [if_pos hv]⟩
    · exact absurd rfl h

theorem initDist_sound (g : Graph) (s : Int) : distSound g s (initDist g s) := by
  intro v q hq
  by_cases h : s = v
  · subst h
    rw [alook_initDist_source g s] at hq
    obtain rfl : (0 : ℚ) = q := by
      have := Option.some.inj hq
      exact Option.some.inj this
    exact ⟨[s], Wk_single g s, rfl⟩
  · rw [alook_initDist_ne g s v h] at hq
    split at hq
    · cases Option.some.inj hq
    · cases hq

theorem distKeyed_aset (g : Graph) (source : Int) (dist : List (Int × Option ℚ))
    (hk : distKeyed g source dist) (k : Int) (v : Option ℚ) :
    distKeyed g source (aset dist k v) := by
  intro x hx
  rw [alook_aset]
  by_cases h : k = x
  · exact ⟨v, by rw [if_pos h]⟩
  · rw [if_neg h]
    exact hk x hx

theorem distKeyed_relaxOne (g : Graph) (source u : Int) (visited : List Int)
    (st : List (Int × Option ℚ) × List (Int × Int) × List (Int × Option ℚ))
    (nb : Int × ℚ) (hk : distKeyed g source st.1) :
    distKeyed g source (relaxOne u visited st nb).1 := by
  unfold relaxOne
  split
  · exact hk
  · dsimp only
    split
    · exact distKeyed_aset g source st.1 hk _ _
    · exact hk

theorem distKeyed_relaxList (g : Graph) (source u : Int) (visited : List Int) :
    ∀ (nbrs : List (Int × ℚ)) (st), distKeyed g source st.1 →
      distKeyed g source (relaxList u visited st nbrs).1 := by
  intro nbrs
  induction nbrs with
  | nil => intro st hk; exact hk
  | cons nb rest ih =>
    intro st hk
    exact ih _ (distKeyed_relaxOne g source u visited st nb hk)

theorem distSound_relaxOne (g : Graph) (source u : Int) (visited : List Int)
    (st : List (Int × Option ℚ) × List (Int × Int) × List (Int × Option ℚ))
    (nb : Int × ℚ) (hnb : nb ∈ g.adjOf u)
    (hk : distKeyed g source st.1) (hu : u ∈ g.nodeList ∨ u = source)
    (hs : distSound g source st.1) :
    distSound g source (relaxOne u visited st nb).1 := by
  unfold relaxOne
  split
  · exact hs
  · dsimp only
    split
    · intro v q hq
      rw [alook_aset] at hq
      by_cases he : nb.1 = v
      · rw [if_pos he] at hq
        have hval : dAdd (dget st.1 u) nb.2 = some q := Option.some.inj hq
        obtain ⟨dv, hdv⟩ := hk u hu
        have hget : dget st.1 u = dv := by
          unfold dget
          rw [hdv]
          rfl
        cases dv with
        | none => rw [hget] at hval; cases hval
        | some q0 =>
          rw [hget] at hval
          have hq0 : q0 + nb.2 = q := Option.some.inj hval
          obtain ⟨p, hp, hpw⟩ := hs u q0 hdv
          have hw : g.wOf u nb.1 = some nb.2 := by
            have hmm : (nb.1, nb.2) ∈ g.adjOf u := by
              cases nb
              exact hnb
            exact mem_alook_eq_some (adjOf_keys_nodup g u) hmm
          have hsnoc := Wk_snoc hp hw
          refine ⟨p ++ [nb.1], he ▸ hsnoc.1, ?_⟩
          rw [hsnoc.2, hpw, hq0]
      · rw [if_neg he] at hq
        exact hs v q hq
    · exact hs

theorem distSound_relaxList (g : Graph) (source u : Int) (visited : List Int) :
    ∀ (nbrs : List (Int × ℚ)), (∀ nb ∈ nbrs, nb ∈ g.adjOf u) →
      (u ∈ g.nodeList ∨ u = source) →
      ∀ st, distKeyed g source st.1 → distSound g source st.1 →
        distSound g source (relaxList u visited st nbrs).1 := by
  intro nbrs
  induction nbrs with
  | nil => intro _ _ st _ hs; exact hs
  | cons nb rest ih =>
    intro hn hu st hk hs
    exact ih (fun x hx => hn x (List.mem_cons_of_mem _ hx)) hu _
      (distKeyed_relaxOne g source u visited st nb hk)
      (distSound_relaxOne g source u visited st nb (hn nb (List.mem_cons_self _ _)) hk hu hs)

theorem dijkstraLoopF_light (g : Graph) (source target : Int) :
    ∀ (fuel : Nat) (dist : List (Int × Option ℚ)) (prev : List (Int × Int))
      (visited : List Int) (pq : List (Int × Option ℚ))
      (res : List (Int × Option ℚ) × List (Int × Int)),
      dijkstraLoopF g target fuel dist prev visited pq = some res →
      distKeyed g source dist → distSound g source dist →
      (∀ it ∈ pq, it.1 ∈ g.nodeList ∨ it.1 = source) →
      distKeyed g source res.1 ∧ distSound g source res.1 := by
  intro fuel
  induction fuel with
  | zero => intro _ _ _ _ _ h; cases h
  | succ fuel ih =>
    intro dist prev visited pq res h hk hs hpq
    unfold dijkstraLoopF at h
    cases hpm : popMin pq with
    | none =>
      rw [hpm] at h
      obtain rfl : (dist, prev) = res := Option.some.inj h
      exact ⟨hk, hs⟩
    | some p =>
      rw [hpm] at h
      cases p with
      | mk cur rest =>
        dsimp only at h
        by_cases hv : cur.1 ∈ visited
        · rw [if_pos hv] at h
          exact ih dist prev visited rest res h hk hs
            (fun it hit => hpq it (popMin_sub hpm it hit))
        · rw [if_neg hv] at h
          by_cases ht : cur.1 = target
          · rw [if_pos ht] at h
            obtain rfl : (dist, prev) = res := Option.some.inj h
            exact ⟨hk, hs⟩
          · rw [if_neg ht] at h
            have hcur : cur.1 ∈ g.nodeList ∨ cur.1 = source :=
              hpq cur (popMin_mem hpm)
            apply ih _ _ _ _ _ h
            · exact distKeyed_relaxList g source cur.1 (cur.1 :: visited) (g.adjOf cur.1)
                (dist, prev, rest) hk
            · exact distSound_relaxList g source cur.1 (cur.1 :: visited) (g.adjOf cur.1)
                (fun nb hnb => hnb) hcur (dist, prev, rest) hk hs
            · intro it hit
              have hkey : it.1 ∈ pqKeys (relaxList cur.1 (cur.1 :: visited)
                  (dist, prev, rest) (g.adjOf cur.1)).2.2 :=
                List.mem_map.mpr ⟨it, hit, rfl⟩
              rcases relaxList_pqKeys cur.1 (cur.1 :: visited) (g.adjOf cur.1)
                (dist, prev, rest) it.1 hkey with h2 | ⟨nb, hnb, heq2⟩
              · rcases List.mem_map.mp h2 with ⟨it2, hit2, heq⟩
                have := hpq it2 (popMin_sub hpm it2 hit2)
                rw [heq] at this
                exact this
              · rw [← heq2]
                exact Or.inl (adjOf_fst_mem_nodeList g cur.1 nb hnb)

theorem dijkstraRes_eq (g : Graph) (s t : Int) :
    dijkstraLoopF g t (dFuel g [(s, some 0)]) (initDist g s) [] [] [(s, some 0)] =
      some (dijkstraRes g s t) := by
  have hsome := dijkstraLoopF_isSome g t (dFuel g [(s, some 0)]) (initDist g s) [] []
    [(s, some 0)] (dPhi_lt_dFuel g [] [(s, some 0)])
  rcases Option.isSome_iff_exists.mp hsome with ⟨res, hres⟩
  rw [hres]
  unfold dijkstraRes dijkstraLoop
  rw [hres]
  rfl

theorem dijkstraLoopF_start_target (g : Graph) (t : Int) (fuel : Nat)
    (dist : List (Int × Option ℚ)) (prev : List (Int × Int)) :
    dijkstraLoopF g t (fuel + 1) dist prev [] [(t, some 0)] = some (dist, prev) := by
  unfold dijkstraLoopF
  simp [popMin]

theorem dijkstraRes_self (g : Graph) (s : Int) :
    dijkstraRes g s s = (initDist g s, []) := by
  have h := dijkstraRes_eq g s s
  have h3 : ∃ k, dFuel g [((s : Int), (some 0 : Option ℚ))] = k + 1 := ⟨_, rfl⟩
  obtain ⟨k, hk⟩ := h3
  rw [hk] at h
  rw [dijkstraLoopF_start_target g s k (initDist g s) []] at h
  exact (Option.some.inj h).symm

theorem dget_initDist_source (g : Graph) (s : Int) :
    dget (initDist g s) s = some 0 := by
  unfold dget
  rw [alook_initDist_source]
  rfl

theorem reconstruct_self (s : Int) (prev : List (Int × Int)) :
    reconstruct s s prev = some [s] := by
  unfold reconstruct
  have h3 : ∃ k, prev.length + 3 = k + 1 := ⟨prev.length + 2, rfl⟩
  obtain ⟨k, hk⟩ := h3
  rw [hk]
  unfold reconGo
  rw [if_pos rfl]

/-- C5.  `Dijkstra(s, s)` for a registered `s` runs the full algorithm and
returns distance `0` with the single-node path `[s]`; and `Dijkstra(s, t)`
for a registered but unreachable `t` returns the infinite sentinel and an
empty path. -/
theorem dijkstra_self_and_unreachable (g : Graph) (s t : Int) :
    (s ∈ g.nodeList → g.Dijkstra s s = (some 0, some [s])) ∧
    (t ∈ g.nodeList → ¬ Reachable g s t → g.Dijkstra s t = (none, some [])) := by
  constructor
  · intro _
    unfold Graph.Dijkstra
    rw [dijkstraRes_self]
    show (match dget (initDist g s) s with
      | none => ((none : Option ℚ), some ([] : List Int))
      | some q => (some q, reconstruct s s [])) = _
    rw [dget_initDist_source]
    show (some (0 : ℚ), reconstruct s s []) = _
    rw [reconstruct_self]
  · intro ht hur
    obtain ⟨hk, hs⟩ := dijkstraLoopF_light g s t (dFuel g [(s, some 0)]) (initDist g s)
      [] [] [(s, some 0)] (dijkstraRes g s t) (dijkstraRes_eq g s t)
      (initDist_keyed g s) (initDist_sound g s)
      (by
        intro it hit
        rcases List.mem_singleton.mp hit with rfl
        exact Or.inr rfl)
    obtain ⟨dv, hdv⟩ := hk t (Or.inl ht)
    cases dv with
    | some q =>
      exfalso
      obtain ⟨p, hp, _⟩ := hs t q hdv
      exact hur ⟨p, hp⟩
    | none =>
      unfold Graph.Dijkstra
      rw [show dget (dijkstraRes g s t).1 t = none from by
        unfold dget
        rw [hdv]
        rfl]

set_option maxRecDepth 100000 in
/-- Witness for `dijkstra_self_and_unreachable` on the graph with edge
`0→1`: node `1` is registered, `Dijkstra(1,1) = (0, [1])`, node `0` is
registered but unreachable from `1`, and `Dijkstra(1,0) = (+Inf, [])`. -/
theorem dijkstra_self_and_unreachable_witness :
    ((1 : Int) ∈ (Graph.mk [(0, 1, 1)]).nodeList ∧
      (0 : Int) ∈ (Graph.mk [(0, 1, 1)]).nodeList ∧
      ¬ Reachable (Graph.mk [(0, 1, 1)]) 1 0) ∧
    (Graph.mk [(0, 1, 1)]).Dijkstra 1 1 = (some 0, some [1]) ∧
    (Graph.mk [(0, 1, 1)]).Dijkstra 1 0 = (none, some []) :=
  ⟨⟨by decide, by decide, by decide⟩,
    (dijkstra_self_and_unreachable (Graph.mk [(0, 1, 1)]) 1 1).1 (by decide),
    (dijkstra_self_and_unreachable (Graph.mk [(0, 1, 1)]) 1 0).2 (by decide) (by decide)⟩

/-! ### Dijkstra full correctness: auxiliary order and map lemmas -/

theorem dLe_none_right (a : Option ℚ) : dLe a none = true := by
  cases a <;> rfl

theorem dLe_of_not_dLt {a b : Option ℚ} (h : ¬ dLt a b = true) : dLe b a = true := by
  rcases dLt_or_dLe a b with h1 | h1
  · exact absurd h1 h
  · exact h1

theorem dLe_finite_left {a : Option ℚ} {q : ℚ} (h : dLe a (some q) = true) :
    ∃ q', a = some q' ∧ q' ≤ q := by
  cases a with
  | none => simp [dLe, dLt] at h
  | some q' => exact ⟨q', rfl, dLe_some_some.mp h⟩

theorem dget_eq_of_alook {m : List (Int × Option ℚ)} {k : Int} {v : Option ℚ}
    (h : alook m k = some v) : dget m k = v := by
  unfold dget
  rw [h]
  rfl

theorem iget_eq_of_alook {m : List (Int × Int)} {k u : Int}
    (h : alook m k = some u) : iget m k = u := by
  unfold iget
  rw [h]
  rfl

theorem dget_aset (m : List (Int × Option ℚ)) (k : Int) (v : Option ℚ) (x : Int) :
    dget (aset m k v) x = if k = x then v else dget m x := by
  unfold dget
  rw [alook_aset]
  by_cases h : k = x
  · rw [if_pos h, if_pos h]
    rfl
  · rw [if_neg h, if_neg h]

theorem dAdd_finite {a : Option ℚ} {w : ℚ} {b : Option ℚ}
    (h : dLt (dAdd a w) b = true) : ∃ qa, a = some qa ∧ dAdd a w = some (qa + w) := by
  cases a with
  | none => simp [dAdd, dLt] at h
  | some qa => exact ⟨qa, rfl, rfl⟩

/-- Dropping the first node of a walk of length at least two. -/
theorem Wk_tail {g : Graph} {s v x y : Int} {rest : List Int}
    (h : Wk g s v (x :: y :: rest)) : Wk g y v (y :: rest) := by
  refine ⟨(pathOk_cons_of h.1).2, rfl, ?_⟩
  have := h.2.2
  rwa [List.getLast?_cons_cons] at this

/-- A walk that starts inside a set and ends outside it crosses the boundary
along one of its edges. -/
theorem walk_crossing (g : Graph) (S : List Int) :
    ∀ (p : List Int) (s v : Int), Wk g s v p → s ∈ S → v ∉ S →
      ∃ a u z b, p = a ++ u :: z :: b ∧ u ∈ S ∧ z ∉ S := by
  intro p
  induction p with
  | nil => intro s v h _ _; cases h.2.1
  | cons x q ih =>
    intro s v h hs hv
    have hx : x = s := by
      have := h.2.1
      simpa using this
    have hxS : x ∈ S := by rw [hx]; exact hs
    cases q with
    | nil =>
      have hxv : x = v := by
        have := h.2.2
        simpa using this
      exact absurd (hxv ▸ hxS) hv
    | cons y q2 =>
      by_cases hy : y ∈ S
      · rcases ih y v (Wk_tail h) hy hv with ⟨a, u, z, b, heq, hu, hz⟩
        exact ⟨x :: a, u, z, b, by rw [heq]; rfl, hu, hz⟩
      · exact ⟨[], x, y, q2, rfl, hxS, hy⟩

/-- Splitting a walk right after a crossing edge: the prefix is a walk, the
crossing edge is current, and (for non-negative weights) prefix weight plus
edge weight bounds the whole walk's weight. -/
theorem Wk_split_prefix {g : Graph} {s v : Int} {a : List Int} {u z : Int}
    {b : List Int} (h : Wk g s v (a ++ u :: z :: b)) :
    Wk g s u (a ++ [u]) ∧ ∃ w, g.wOf u z = some w ∧
      (NonnegW g → pwt g (a ++ [u]) + w ≤ pwt g (a ++ u :: z :: b)) := by
  have h1 := h.1
  rw [pathOk_split g a u (z :: b)] at h1
  simp only [Bool.and_eq_true] at h1
  obtain ⟨hpre, hsuf⟩ := h1
  obtain ⟨w, hw⟩ := Option.isSome_iff_exists.mp (pathOk_cons_of hsuf).1
  refine ⟨⟨hpre, ?_, getLast_append_singleton a⟩, w, hw, ?_⟩
  · rw [show a ++ [u] = a ++ u :: [] from rfl, head_append_cons a u [] (z :: b)]
    exact h.2.1
  · intro hnn
    have hpw := pwt_split g a u (z :: b)
    have hsufw : pwt g (u :: z :: b) = (g.wOf u z).getD 0 + pwt g (z :: b) := rfl
    have hzb : 0 ≤ pwt g (z :: b) := pwt_nonneg hnn (z :: b) (pathOk_cons_of hsuf).2
    rw [hpw, hsufw, hw]
    simp only [Option.getD_some]
    linarith

/-! ### Structural properties of the relaxation fold -/

theorem relaxOne_dist_dLe (u : Int) (vis : List Int) (st) (nb : Int × ℚ) (x : Int) :
    dLe (dget (relaxOne u vis st nb).1 x) (dget st.1 x) = true := by
  unfold relaxOne
  split
  · exact dLe_refl _
  · dsimp only
    split
    · rename_i hlt
      rw [dget_aset]
      by_cases he : nb.1 = x
      · rw [if_pos he]
        rw [he] at hlt
        exact dLt_imp_dLe hlt
      · rw [if_neg he]
        exact dLe_refl _
    · exact dLe_refl _

theorem relaxList_dist_dLe (u : Int) (vis : List Int) :
    ∀ (nbrs : List (Int × ℚ)) (st) (x : Int),
      dLe (dget (relaxList u vis st nbrs).1 x) (dget st.1 x) = true := by
  intro nbrs
  induction nbrs with
  | nil => intro st x; exact dLe_refl _
  | cons nb rest ih =>
    intro st x
    exact dLe_trans (ih (relaxOne u vis st nb) x) (relaxOne_dist_dLe u vis st nb x)

theorem relaxOne_dist_stable (u : Int) (vis : List Int) (st) (nb : Int × ℚ)
    (x : Int) (hx : x ∈ vis) :
    dget (relaxOne u vis st nb).1 x = dget st.1 x := by
  unfold relaxOne
  split
  · rfl
  · rename_i hnv
    dsimp only
    split
    · have hne : ¬ nb.1 = x := by
        intro he
        rw [he] at hnv
        exact hnv hx
      rw [dget_aset, if_neg hne]
    · rfl

theorem relaxList_dist_stable (u : Int) (vis : List Int) :
    ∀ (nbrs : List (Int × ℚ)) (st) (x : Int), x ∈ vis →
      dget (relaxList u vis st nbrs).1 x = dget st.1 x := by
  intro nbrs
  induction nbrs with
  | nil => intro st x _; rfl
  | cons nb rest ih =>
    intro st x hx
    exact (ih (relaxOne u vis st nb) x hx).trans (relaxOne_dist_stable u vis st nb x hx)

theorem relaxOne_pq_sub (u : Int) (vis : List Int) (st) (nb : Int × ℚ) :
    ∀ it ∈ st.2.2, it ∈ (relaxOne u vis st nb).2.2 := by
  intro it hit
  unfold relaxOne
  split
  · exact hit
  · dsimp only
    split
    · exact List.mem_append_left _ hit
    · exact hit

theorem relaxList_pq_sub (u : Int) (vis : List Int) :
    ∀ (nbrs : List (Int × ℚ)) (st), ∀ it ∈ st.2.2, it ∈ (relaxList u vis st nbrs).2.2 := by
  intro nbrs
  induction nbrs with
  | nil => intro st it hit; exact hit
  | cons nb rest ih =>
    intro st it hit
    exact ih (relaxOne u vis st nb) it (relaxOne_pq_sub u vis st nb it hit)

theorem relaxOne_prev_some (u : Int) (vis : List Int) (st) (nb : Int × ℚ)
    (x : Int) (hx : ∃ y, alook st.2.1 x = some y) :
    ∃ y, alook (relaxOne u vis st nb).2.1 x = some y := by
  unfold relaxOne
  split
  · exact hx
  · dsimp only
    split
    · rw [alook_aset]
      by_cases he : nb.1 = x
      · exact ⟨u, by rw [if_pos he]⟩
      · rw [if_neg he]
        exact hx
    · exact hx

theorem relaxList_prev_some (u : Int) (vis : List Int) :
    ∀ (nbrs : List (Int × ℚ)) (st) (x : Int), (∃ y, alook st.2.1 x = some y) →
      ∃ y, alook (relaxList u vis st nbrs).2.1 x = some y := by
  intro nbrs
  induction nbrs with
  | nil => intro st x hx; exact hx
  | cons nb rest ih =>
    intro st x hx
    exact ih (relaxOne u vis st nb) x (relaxOne_prev_some u vis st nb x hx)

theorem relaxOne_pnodup (u : Int) (vis : List Int) (st) (nb : Int × ℚ)
    (h : ((st.2.1 : List (Int × Int)).map Prod.fst).Nodup) :
    (((relaxOne u vis st nb).2.1).map Prod.fst).Nodup := by
  unfold relaxOne
  split
  · exact h
  · dsimp only
    split
    · exact aset_keys_nodup st.2.1 nb.1 u h
    · exact h

theorem relaxList_pnodup (u : Int) (vis : List Int) :
    ∀ (nbrs : List (Int × ℚ)) (st), ((st.2.1 : List (Int × Int)).map Prod.fst).Nodup →
      (((relaxList u vis st nbrs).2.1).map Prod.fst).Nodup := by
  intro nbrs
  induction nbrs with
  | nil => intro st h; exact h
  | cons nb rest ih =>
    intro st h
    exact ih (relaxOne u vis st nb) (relaxOne_pnodup u vis st nb h)

theorem relaxOne_pqn (g : Graph) (source u : Int) (vis : List Int) (st)
    (nb : Int × ℚ) (hnb : nb ∈ g.adjOf u)
    (h : ∀ it ∈ st.2.2, it.1 ∈ g.nodeList ∨ it.1 = source) :
    ∀ it ∈ (relaxOne u vis st nb).2.2, it.1 ∈ g.nodeList ∨ it.1 = source := by
  intro it hit
  unfold relaxOne at hit
  split at hit
  · exact h it hit
  · dsimp only at hit
    split at hit
    · rcases List.mem_append.mp hit with h2 | h2
      · exact h it h2
      · rcases List.mem_singleton.mp h2 with rfl
        exact Or.inl (adjOf_fst_mem_nodeList g u nb hnb)
    · exact h it hit

theorem relaxList_pqn (g : Graph) (source u : Int) (vis : List Int) :
    ∀ (nbrs : List (Int × ℚ)) (st), (∀ nb ∈ nbrs, nb ∈ g.adjOf u) →
      (∀ it ∈ st.2.2, it.1 ∈ g.nodeList ∨ it.1 = source) →
      ∀ it ∈ (relaxList u vis st nbrs).2.2, it.1 ∈ g.nodeList ∨ it.1 = source := by
  intro nbrs
  induction nbrs with
  | nil => intro st _ h; exact h
  | cons nb rest ih =>
    intro st hn h
    exact ih (relaxOne u vis st nb) (fun x hx => hn x (List.mem_cons_of_mem _ hx))
      (relaxOne_pqn g source u vis st nb (hn nb (List.mem_cons_self _ _)) h)

theorem relaxOne_pqf (u : Int) (vis : List Int) (st) (nb : Int × ℚ)
    (h : ∀ it ∈ st.2.2, ∃ q, it.2 = some q) :
    ∀ it ∈ (relaxOne u vis st nb).2.2, ∃ q, it.2 = some q := by
  intro it hit
  unfold relaxOne at hit
  split at hit
  · exact h it hit
  · dsimp only at hit
    split at hit
    · rename_i hlt
      rcases List.mem_append.mp hit with h2 | h2
      · exact h it h2
      · rcases List.mem_singleton.mp h2 with rfl
        obtain ⟨qa, _, he⟩ := dAdd_finite hlt
        exact ⟨qa + nb.2, he⟩
    · exact h it hit

theorem relaxList_pqf (u : Int) (vis : List Int) :
    ∀ (nbrs : List (Int × ℚ)) (st), (∀ it ∈ st.2.2, ∃ q, it.2 = some q) →
      ∀ it ∈ (relaxList u vis st nbrs).2.2, ∃ q, it.2 = some q := by
  intro nbrs
  induction nbrs with
  | nil => intro st h; exact h
  | cons nb rest ih =>
    intro st h
    exact ih (relaxOne u vis st nb) (relaxOne_pqf u vis st nb h)

theorem relaxOne_dq (u : Int) (vis : List Int) (st) (nb : Int × ℚ)
    (h : ∀ it ∈ st.2.2, dLe (dget st.1 it.1) it.2 = true) :
    ∀ it ∈ (relaxOne u vis st nb).2.2,
      dLe (dget (relaxOne u vis st nb).1 it.1) it.2 = true := by
  unfold relaxOne
  split
  · exact h
  · dsimp only
    split
    · rename_i hlt
      intro it hit
      rcases List.mem_append.mp hit with h2 | h2
      · rw [dget_aset]
        by_cases he : nb.1 = it.1
        · rw [if_pos he]
          refine dLe_trans (dLt_imp_dLe ?_) (h it h2)
          rw [he] at hlt
          exact hlt
        · rw [if_neg he]
          exact h it h2
      · rcases List.mem_singleton.mp h2 with rfl
        rw [dget_aset, if_pos rfl]
        exact dLe_refl _
    · exact h

theorem relaxList_dq (u : Int) (vis : List Int) :
    ∀ (nbrs : List (Int × ℚ)) (st),
      (∀ it ∈ st.2.2, dLe (dget st.1 it.1) it.2 = true) →
      ∀ it ∈ (relaxList u vis st nbrs).2.2,
        dLe (dget (relaxList u vis st nbrs).1 it.1) it.2 = true := by
  intro nbrs
  induction nbrs with
  | nil => intro st h; exact h
  | cons nb rest ih =>
    intro st h
    exact ih (relaxOne u vis st nb) (relaxOne_dq u vis st nb h)

theorem relaxOne_ent (C : Int → Prop) (u : Int) (vis : List Int) (st) (nb : Int × ℚ)
    (h : ∀ z, C z → z ∉ vis → ∀ q, dget st.1 z = some q → (z, some q) ∈ st.2.2) :
    ∀ z, C z → z ∉ vis → ∀ q, dget (relaxOne u vis st nb).1 z = some q →
      (z, some q) ∈ (relaxOne u vis st nb).2.2 := by
  unfold relaxOne
  split
  · exact h
  · dsimp only
    split
    · intro z hc hz q hq
      rw [dget_aset] at hq
      by_cases he : nb.1 = z
      · rw [if_pos he] at hq
        refine List.mem_append_right _ ?_
        rw [← he, hq]
        exact List.mem_singleton.mpr rfl
      · rw [if_neg he] at hq
        exact List.mem_append_left _ (h z hc hz q hq)
    · exact h

theorem relaxList_ent (C : Int → Prop) (u : Int) (vis : List Int) :
    ∀ (nbrs : List (Int × ℚ)) (st),
      (∀ z, C z → z ∉ vis → ∀ q, dget st.1 z = some q → (z, some q) ∈ st.2.2) →
      ∀ z, C z → z ∉ vis → ∀ q, dget (relaxList u vis st nbrs).1 z = some q →
        (z, some q) ∈ (relaxList u vis st nbrs).2.2 := by
  intro nbrs
  induction nbrs with
  | nil => intro st h; exact h
  | cons nb rest ih =>
    intro st h
    exact ih (relaxOne u vis st nb) (relaxOne_ent C u vis st nb h)

theorem relaxList_rel (u : Int) (vis : List Int) (hu : u ∈ vis) :
    ∀ (nbrs : List (Int × ℚ)) (st), ∀ nb ∈ nbrs, nb.1 ∉ vis →
      dLe (dget (relaxList u vis st nbrs).1 nb.1) (dAdd (dget st.1 u) nb.2) = true := by
  intro nbrs
  induction nbrs with
  | nil => intro st nb hmem; cases hmem
  | cons nb0 rest ih =>
    intro st nb hmem hnb
    rcases List.mem_cons.mp hmem with rfl | hmem2
    · have hone : dLe (dget (relaxOne u vis st nb).1 nb.1) (dAdd (dget st.1 u) nb.2)
          = true := by
        unfold relaxOne
        rw [if_neg hnb]
        dsimp only
        split
        · rw [dget_aset, if_pos rfl]
          exact dLe_refl _
        · rename_i hnlt
          exact dLe_of_not_dLt hnlt
      exact dLe_trans (relaxList_dist_dLe u vis rest (relaxOne u vis st nb) nb.1) hone
    · have hstep := ih (relaxOne u vis st nb0) nb hmem2 hnb
      rw [relaxOne_dist_stable u vis st nb0 u hu] at hstep
      exact hstep

theorem relaxOne_pe (g : Graph) (u : Int) (vis : List Int) (st) (nb : Int × ℚ)
    (hu : u ∈ vis) (hw : g.wOf u nb.1 = some nb.2)
    (h : ∀ v y, alook st.2.1 v = some y → y ∈ vis ∧ ∃ w qu, g.wOf y v = some w ∧
      dget st.1 y = some qu ∧ dget st.1 v = some (qu + w)) :
    ∀ v y, alook (relaxOne u vis st nb).2.1 v = some y → y ∈ vis ∧ ∃ w qu,
      g.wOf y v = some w ∧ dget (relaxOne u vis st nb).1 y = some qu ∧
      dget (relaxOne u vis st nb).1 v = some (qu + w) := by
  unfold relaxOne
  split
  · exact h
  · rename_i hnv
    dsimp only
    split
    · rename_i hlt
      intro v y hv
      rw [alook_aset] at hv
      by_cases he : nb.1 = v
      · rw [if_pos he] at hv
        obtain rfl : u = y := Option.some.inj hv
        obtain ⟨qc, hqc, hnd⟩ := dAdd_finite hlt
        have hne : ¬ nb.1 = u := by
          intro h2
          rw [h2] at hnv
          exact hnv hu
        refine ⟨hu, nb.2, qc, by rw [← he]; exact hw, ?_, ?_⟩
        · rw [dget_aset, if_neg hne]
          exact hqc
        · rw [dget_aset, if_pos he]
          exact hnd
      · rw [if_neg he] at hv
        obtain ⟨hyv, w, qu, hwy, hqu, hqv⟩ := h v y hv
        have hney : ¬ nb.1 = y := by
          intro h2
          rw [h2] at hnv
          exact hnv hyv
        refine ⟨hyv, w, qu, hwy, ?_, ?_⟩
        · rw [dget_aset, if_neg hney]
          exact hqu
        · rw [dget_aset, if_neg he]
          exact hqv
    · exact h

theorem relaxList_pe (g : Graph) (u : Int) (vis : List Int) (hu : u ∈ vis) :
    ∀ (nbrs : List (Int × ℚ)) (st), (∀ nb ∈ nbrs, g.wOf u nb.1 = some nb.2) →
      (∀ v y, alook st.2.1 v = some y → y ∈ vis ∧ ∃ w qu, g.wOf y v = some w ∧
        dget st.1 y = some qu ∧ dget st.1 v = some (qu + w)) →
      ∀ v y, alook (relaxList u vis st nbrs).2.1 v = some y → y ∈ vis ∧ ∃ w qu,
        g.wOf y v = some w ∧ dget (relaxList u vis st nbrs).1 y = some qu ∧
        dget (relaxList u vis st nbrs).1 v = some (qu + w) := by
  intro nbrs
  induction nbrs with
  | nil => intro st _ h; exact h
  | cons nb rest ih =>
    intro st hwall h
    exact ih (relaxOne u vis st nb) (fun x hx => hwall x (List.mem_cons_of_mem _ hx))
      (relaxOne_pe g u vis st nb hu (hwall nb (List.mem_cons_self _ _)) h)

theorem relaxOne_suff (u : Int) (vis : List Int) (st) (nb : Int × ℚ) (hu : u ∈ vis)
    (h : ∀ v y, alook st.2.1 v = some y → ∃ l2, l2 <:+ vis ∧ y ∈ l2 ∧ v ∉ l2) :
    ∀ v y, alook (relaxOne u vis st nb).2.1 v = some y →
      ∃ l2, l2 <:+ vis ∧ y ∈ l2 ∧ v ∉ l2 := by
  unfold relaxOne
  split
  · exact h
  · rename_i hnv
    dsimp only
    split
    · intro v y hv
      rw [alook_aset] at hv
      by_cases he : nb.1 = v
      · rw [if_pos he] at hv
        obtain rfl : u = y := Option.some.inj hv
        refine ⟨vis, List.suffix_refl vis, hu, ?_⟩
        rw [← he]
        exact hnv
      · rw [if_neg he] at hv
        exact h v y hv
    · exact h

theorem relaxList_suff (u : Int) (vis : List Int) (hu : u ∈ vis) :
    ∀ (nbrs : List (Int × ℚ)) (st),
      (∀ v y, alook st.2.1 v = some y → ∃ l2, l2 <:+ vis ∧ y ∈ l2 ∧ v ∉ l2) →
      ∀ v y, alook (relaxList u vis st nbrs).2.1 v = some y →
        ∃ l2, l2 <:+ vis ∧ y ∈ l2 ∧ v ∉ l2 := by
  intro nbrs
  induction nbrs with
  | nil => intro st h; exact h
  | cons nb rest ih =>
    intro st h
    exact ih (relaxOne u vis st nb) (relaxOne_suff u vis st nb hu h)

theorem relaxOne_pqprev (source u : Int) (vis : List Int) (st) (nb : Int × ℚ)
    (h : ∀ it ∈ st.2.2, it.1 ≠ source → ∃ y, alook st.2.1 it.1 = some y) :
    ∀ it ∈ (relaxOne u vis st nb).2.2, it.1 ≠ source →
      ∃ y, alook (relaxOne u vis st nb).2.1 it.1 = some y := by
  unfold relaxOne
  split
  · exact h
  · dsimp only
    split
    · intro it hit hns
      rcases List.mem_append.mp hit with h2 | h2
      · obtain ⟨y, hy⟩ := h it h2 hns
        rw [alook_aset]
        by_cases he : nb.1 = it.1
        · exact ⟨u, by rw [if_pos he]⟩
        · rw [if_neg he]
          exact ⟨y, hy⟩
      · rcases List.mem_singleton.mp h2 with rfl
        exact ⟨u, alook_aset_self st.2.1 nb.1 u⟩
    · exact h

theorem relaxList_pqprev (source u : Int) (vis : List Int) :
    ∀ (nbrs : List (Int × ℚ)) (st),
      (∀ it ∈ st.2.2, it.1 ≠ source → ∃ y, alook st.2.1 it.1 = some y) →
      ∀ it ∈ (relaxList u vis st nbrs).2.2, it.1 ≠ source →
        ∃ y, alook (relaxList u vis st nbrs).2.1 it.1 = some y := by
  intro nbrs
  induction nbrs with
  | nil => intro st h; exact h
  | cons nb rest ih =>
    intro st h
    exact ih (relaxOne u vis st nb) (relaxOne_pqprev source u vis st nb h)

/-- The full loop invariant of Dijkstra's algorithm (lazy-deletion variant) at
state `(visited, dist, prev, pq)`, relative to the fixed `source`.  It covers
the distance map (keyed, sound, monotone bookkeeping against the queue), the
visited set (its entries are minimal), the frontier (every visited node's
relaxations have been applied), and the predecessor map (each entry records a
current edge whose weights telescope, pointing strictly down the visit
order). -/
structure DInv (g : Graph) (source : Int) (visited : List Int)
    (dist : List (Int × Option ℚ)) (prev : List (Int × Int))
    (pq : List (Int × Option ℚ)) : Prop where
  keyed : distKeyed g source dist
  sound : distSound g source dist
  pqn : ∀ it ∈ pq, it.1 ∈ g.nodeList ∨ it.1 = source
  pqf : ∀ it ∈ pq, ∃ q, it.2 = some q
  dq : ∀ it ∈ pq, dLe (dget dist it.1) it.2 = true
  ent : ∀ z, (z ∈ g.nodeList ∨ z = source) → z ∉ visited → ∀ q,
    dget dist z = some q → (z, some q) ∈ pq
  vmin : ∀ u ∈ visited, ∀ p, Wk g source u p → dLe (dget dist u) (some (pwt g p)) = true
  rel : ∀ u ∈ visited, ∀ nb ∈ g.adjOf u, nb.1 ∉ visited →
    dLe (dget dist nb.1) (dAdd (dget dist u) nb.2) = true
  src0 : dLe (dget dist source) (some 0) = true
  vfin : ∀ u ∈ visited, ∃ q, dget dist u = some q
  vnodup : visited.Nodup
  pe : ∀ v y, alook prev v = some y → y ∈ visited ∧ ∃ w qu, g.wOf y v = some w ∧
    dget dist y = some qu ∧ dget dist v = some (qu + w)
  suff : ∀ v y, alook prev v = some y → ∃ l2, l2 <:+ visited ∧ y ∈ l2 ∧ v ∉ l2
  pqprev : ∀ it ∈ pq, it.1 ≠ source → ∃ y, alook prev it.1 = some y
  vprev : ∀ v ∈ visited, v ≠ source → ∃ y, alook prev v = some y
  pnodup : (prev.map Prod.fst).Nodup

/-- Frontier lemma: while a node `v` is unvisited, every walk from the source
to `v` is witnessed by a queue entry whose priority is at most the walk's
weight. -/
theorem DInv_front {g : Graph} {source : Int} {visited : List Int}
    {dist : List (Int × Option ℚ)} {prev : List (Int × Int)}
    {pq : List (Int × Option ℚ)} (inv : DInv g source visited dist prev pq)
    (hnn : NonnegW g) {v : Int} (hv : v ∉ visited) {p : List Int}
    (hp : Wk g source v p) :
    ∃ it ∈ pq, dLe it.2 (some (pwt g p)) = true := by
  by_cases hs : source ∈ visited
  · obtain ⟨a, u, z, b, heq, hu, hz⟩ := walk_crossing g visited p source v hp hs hv
    subst heq
    obtain ⟨hpre, w, hw, hbnd⟩ := Wk_split_prefix hp
    have hzadj : (z, w) ∈ g.adjOf u := alook_eq_some_mem hw
    have hrel := inv.rel u hu (z, w) hzadj hz
    have hvm := inv.vmin u hu (a ++ [u]) hpre
    obtain ⟨qu, hqu, hqule⟩ := dLe_finite_left hvm
    rw [hqu] at hrel
    have hrel2 : dLe (dget dist z) (some (qu + w)) = true := hrel
    obtain ⟨qz, hqz, hqzle⟩ := dLe_finite_left hrel2
    have hentz := inv.ent z (Or.inl (wOf_mem_nodeList hw).2) hz qz hqz
    refine ⟨(z, some qz), hentz, ?_⟩
    rw [show ((z : Int), some qz).2 = some qz from rfl, dLe_some_some]
    have := hbnd hnn
    linarith
  · obtain ⟨q0, hq0, hq0le⟩ := dLe_finite_left inv.src0
    have hents := inv.ent source (Or.inr rfl) hs q0 hq0
    refine ⟨(source, some q0), hents, ?_⟩
    rw [show ((source : Int), some q0).2 = some q0 from rfl, dLe_some_some]
    have hge := pwt_nonneg hnn p hp.1
    linarith

/-- The invariant holds in `Dijkstra`'s initial state. -/
theorem DInv_init (g : Graph) (source : Int) :
    DInv g source [] (initDist g source) [] [(source, some 0)] := by
  refine ⟨initDist_keyed g source, initDist_sound g source, ?_, ?_, ?_, ?_, ?_, ?_,
    ?_, ?_, List.nodup_nil, ?_, ?_, ?_, ?_, List.nodup_nil⟩
  · intro it hit
    rcases List.mem_singleton.mp hit with rfl
    exact Or.inr rfl
  · intro it hit
    rcases List.mem_singleton.mp hit with rfl
    exact ⟨0, rfl⟩
  · intro it hit
    rcases List.mem_singleton.mp hit with rfl
    show dLe (dget (initDist g source) source) (some 0) = true
    rw [dget_eq_of_alook (alook_initDist_source g source)]
    exact dLe_refl _
  · intro z hz _ q hq
    by_cases he : source = z
    · rw [← he] at hq
      rw [dget_eq_of_alook (alook_initDist_source g source)] at hq
      obtain rfl : (0 : ℚ) = q := Option.some.inj hq
      rw [← he]
      exact List.mem_singleton.mpr rfl
    · unfold dget at hq
      rw [alook_initDist_ne g source z he] at hq
      rcases hz with hz2 | hz2
      · rw [if_pos hz2] at hq
        simp at hq
      · exact absurd hz2.symm he
  · intro u hu
    cases hu
  · intro u hu
    cases hu
  · rw [dget_eq_of_alook (alook_initDist_source g source)]
    exact dLe_refl _
  · intro u hu
    cases hu
  · intro v y hv
    cases hv
  · intro v y hv
    cases hv
  · intro it hit hns
    rcases List.mem_singleton.mp hit with rfl
    exact absurd rfl hns
  · intro v hv
    cases hv

theorem nodup_subset_length {l l' : List Int} (hn : l.Nodup) (h : l ⊆ l') :
    l.length ≤ l'.length := by
  have h1 : l.toFinset.card = l.length := List.toFinset_card_of_nodup hn
  have h2 : l.toFinset ⊆ l'.toFinset := by
    intro x hx
    rw [List.mem_toFinset] at hx ⊢
    exact h hx
  have h3 : l'.toFinset.card ≤ l'.length := l'.toFinset_card_le
  have h4 := Finset.card_le_card h2
  omega

/-- A visited list whose non-source members all carry predecessor entries is
at most one longer than the predecessor map. -/
theorem visited_le_prev (source : Int) (visited : List Int) (prev : List (Int × Int))
    (hnd : visited.Nodup)
    (hvprev : ∀ v ∈ visited, v ≠ source → ∃ y, alook prev v = some y) :
    visited.length ≤ prev.length + 1 := by
  by_cases hs : source ∈ visited
  · have hsub : visited.erase source ⊆ prev.map Prod.fst := by
      intro x hx
      rw [List.Nodup.mem_erase_iff hnd] at hx
      obtain ⟨y, hy⟩ := hvprev x hx.2 hx.1
      exact List.mem_map.mpr ⟨(x, y), alook_eq_some_mem hy, rfl⟩
    have hlen := nodup_subset_length (hnd.erase source) hsub
    rw [List.length_map] at hlen
    have h1 := List.length_erase_of_mem hs
    have h2 := List.length_pos_of_mem hs
    omega
  · have hsub : visited ⊆ prev.map Prod.fst := by
      intro x hx
      obtain ⟨y, hy⟩ := hvprev x hx (fun he => hs (he ▸ hx))
      exact List.mem_map.mpr ⟨(x, y), alook_eq_some_mem hy, rfl⟩
    have hlen := nodup_subset_length hnd hsub
    rw [List.length_map] at hlen
    omega

theorem reconGo_mono (source : Int) (prev : List (Int × Int)) :
    ∀ (f f' : Nat), f ≤ f' → ∀ (v : Int) (acc r : List Int),
      reconGo source prev f v acc = some r → reconGo source prev f' v acc = some r := by
  intro f
  induction f with
  | zero =>
    intro f' _ v acc r h
    simp [reconGo] at h
  | succ f ih =>
    intro f' hle v acc r h
    cases f' with
    | zero => omega
    | succ f2 =>
      simp only [reconGo] at h ⊢
      by_cases hv : v = source
      · rw [if_pos hv] at h ⊢
        exact h
      · rw [if_neg hv] at h ⊢
        exact ih f2 (by omega) _ _ _ h

/-- Following the predecessor chain from a node with a finite distance yields,
within fuel bounded by the visit order, a walk from the source whose weight is
exactly the recorded distance. -/
theorem recon_chain (g : Graph) (source : Int) (dist : List (Int × Option ℚ))
    (prev : List (Int × Int)) (visited : List Int)
    (hpe : ∀ v y, alook prev v = some y → y ∈ visited ∧ ∃ w qu, g.wOf y v = some w ∧
      dget dist y = some qu ∧ dget dist v = some (qu + w))
    (hsuff : ∀ v y, alook prev v = some y → ∃ l2, l2 <:+ visited ∧ y ∈ l2 ∧ v ∉ l2)
    (hvprev : ∀ v ∈ visited, v ≠ source → ∃ y, alook prev v = some y)
    (hsrc : dget dist source = some 0) :
    ∀ (n : Nat) (v : Int) (q : ℚ) (acc : List Int), dget dist v = some q →
      (v = source ∨ ∃ y l2, alook prev v = some y ∧ l2 <:+ visited ∧ y ∈ l2 ∧
        v ∉ l2 ∧ l2.length ≤ n) →
      ∃ p, reconGo source prev (n + 1) v acc = some (p ++ acc) ∧
        Wk g source v p ∧ pwt g p = q := by
  have hbase : ∀ (n : Nat) (q : ℚ) (acc : List Int), dget dist source = some q →
      ∃ p, reconGo source prev (n + 1) source acc = some (p ++ acc) ∧
        Wk g source source p ∧ pwt g p = q := by
    intro n q acc hq
    obtain rfl : (0 : ℚ) = q := by
      rw [hsrc] at hq
      exact Option.some.inj hq
    refine ⟨[source], ?_, Wk_single g source, rfl⟩
    simp [reconGo]
  intro n
  induction n with
  | zero =>
    intro v q acc hq hcb
    rcases hcb with rfl | ⟨y, l2, _, _, hy, _, hlen⟩
    · exact hbase 0 q acc hq
    · cases l2 with
      | nil => cases hy
      | cons a l2t => simp at hlen
  | succ n ih =>
    intro v q acc hq hcb
    by_cases hvs : v = source
    · subst hvs
      exact hbase (n + 1) q acc hq
    · rcases hcb with rfl | ⟨y, l2, hy, hl2, hyl2, hvl2, hlen⟩
      · exact absurd rfl hvs
      · obtain ⟨hyvis, w, qu, hwy, hqy, hqv⟩ := hpe v y hy
        have hqeq : q = qu + w := by
          rw [hq] at hqv
          exact Option.some.inj hqv
        have hcby : y = source ∨ ∃ y2 l2t, alook prev y = some y2 ∧ l2t <:+ visited ∧
            y2 ∈ l2t ∧ y ∉ l2t ∧ l2t.length ≤ n := by
          by_cases hys : y = source
          · exact Or.inl hys
          · obtain ⟨y2, hy2⟩ := hvprev y hyvis hys
            obtain ⟨l2t, hl2t, hy2l2t, hyl2t⟩ := hsuff y y2 hy2
            refine Or.inr ⟨y2, l2t, hy2, hl2t, hy2l2t, hyl2t, ?_⟩
            by_contra hgt
            push_neg at hgt
            have hle : l2.length ≤ l2t.length := by omega
            have hsub := List.suffix_of_suffix_length_le hl2 hl2t hle
            exact hyl2t (hsub.subset hyl2)
        obtain ⟨p', hrec, hwk', hpwt'⟩ := ih y qu (v :: acc) hqy hcby
        refine ⟨p' ++ [v], ?_, (Wk_snoc hwk' hwy).1, ?_⟩
        · have hunf : reconGo source prev (n + 1 + 1) v acc =
              if v = source then some (source :: acc)
              else reconGo source prev (n + 1) (iget prev v) (v :: acc) := rfl
          rw [hunf, if_neg hvs, iget_eq_of_alook hy, hrec]
          simp
        · rw [(Wk_snoc hwk' hwy).2, hpwt', hqeq]

/-- Running the Dijkstra loop from a state satisfying the invariant, with the
target unvisited and reachable, ends with the minimal walk weight recorded for
the target and a predecessor map from which reconstruction returns a walk of
exactly that weight. -/
theorem dijkstraLoopF_full (g : Graph) (source target : Int) (hnn : NonnegW g) :
    ∀ (fuel : Nat) (dist : List (Int × Option ℚ)) (prev : List (Int × Int))
      (visited : List Int) (pq : List (Int × Option ℚ))
      (res : List (Int × Option ℚ) × List (Int × Int)),
      dijkstraLoopF g target fuel dist prev visited pq = some res →
      DInv g source visited dist prev pq →
      target ∉ visited →
      Reachable g source target →
      ∃ q p, dget res.1 target = some q ∧ IsMinWk g source target q ∧
        reconstruct source target res.2 = some p ∧ Wk g source target p ∧
        pwt g p = q := by
  intro fuel
  induction fuel with
  | zero => intro _ _ _ _ _ h; cases h
  | succ fuel ih =>
    intro dist prev visited pq res h inv htv hr
    unfold dijkstraLoopF at h
    cases hpm : popMin pq with
    | none =>
      exfalso
      obtain ⟨p0, hp0⟩ := hr
      obtain ⟨it, hit, _⟩ := DInv_front inv hnn htv hp0
      rw [popMin_eq_none.mp hpm] at hit
      cases hit
    | some pr =>
      rw [hpm] at h
      cases pr with
      | mk cur rest =>
        dsimp only at h
        by_cases hv : cur.1 ∈ visited
        · rw [if_pos hv] at h
          refine ih dist prev visited rest res h ⟨inv.keyed, inv.sound,
            fun it hit => inv.pqn it (popMin_sub hpm it hit),
            fun it hit => inv.pqf it (popMin_sub hpm it hit),
            fun it hit => inv.dq it (popMin_sub hpm it hit),
            ?_, inv.vmin, inv.rel, inv.src0, inv.vfin, inv.vnodup, inv.pe,
            inv.suff, fun it hit => inv.pqprev it (popMin_sub hpm it hit),
            inv.vprev, inv.pnodup⟩ htv hr
          intro z hc hz q hq
          have hin := inv.ent z hc hz q hq
          rcases List.mem_cons.mp ((popMin_perm hpm).mem_iff.mp hin) with he | he
          · exfalso
            rw [← he] at hv
            exact hz hv
          · exact he
        · rw [if_neg hv] at h
          have hpop : ∀ p, Wk g source cur.1 p →
              dLe (dget dist cur.1) (some (pwt g p)) = true := by
            intro p hp
            obtain ⟨it, hit, hitle⟩ := DInv_front inv hnn hv hp
            have hmin := popMin_min hpm it hit
            have hdq := inv.dq cur (popMin_mem hpm)
            exact dLe_trans (dLe_trans hdq hmin) hitle
          obtain ⟨qd, hqd⟩ := inv.pqf cur (popMin_mem hpm)
          have hdqcur := inv.dq cur (popMin_mem hpm)
          rw [hqd] at hdqcur
          obtain ⟨qc, hqc, hqcle⟩ := dLe_finite_left hdqcur
          have hcur_nl : cur.1 ∈ g.nodeList ∨ cur.1 = source :=
            inv.pqn cur (popMin_mem hpm)
          by_cases ht : cur.1 = target
          · rw [if_pos ht] at h
            obtain rfl : (dist, prev) = res := Option.some.inj h
            rw [ht] at hqc hpop hcur_nl
            have hlow : ∀ p, Wk g source target p → qc ≤ pwt g p := by
              intro p hp
              have := hpop p hp
              rw [hqc] at this
              exact dLe_some_some.mp this
            obtain ⟨dv, hdv⟩ := inv.keyed target hcur_nl
            have hdvq : dv = some qc := by
              rw [← dget_eq_of_alook hdv]
              exact hqc
            rw [hdvq] at hdv
            obtain ⟨pw, hpw, hpwq⟩ := inv.sound target qc hdv
            have hsrc0 : dget dist source = some 0 := by
              obtain ⟨q0, hq0, hq0le⟩ := dLe_finite_left inv.src0
              obtain ⟨dvs, hdvs⟩ := inv.keyed source (Or.inr rfl)
              have hdvs' : dvs = some q0 := by
                rw [← dget_eq_of_alook hdvs]
                exact hq0
              rw [hdvs'] at hdvs
              obtain ⟨ps, hps, hpsq⟩ := inv.sound source q0 hdvs
              have hge : 0 ≤ q0 := hpsq ▸ pwt_nonneg hnn ps hps.1
              rw [hq0]
              congr 1
              linarith
            have hcb : target = source ∨ ∃ y l2, alook prev target = some y ∧
                l2 <:+ visited ∧ y ∈ l2 ∧ target ∉ l2 ∧
                l2.length ≤ visited.length := by
              by_cases hts : target = source
              · exact Or.inl hts
              · obtain ⟨y, hy⟩ := inv.pqprev cur (popMin_mem hpm) (by rw [ht]; exact hts)
                rw [ht] at hy
                obtain ⟨l2, hl2, hyl2, htl2⟩ := inv.suff target y hy
                exact Or.inr ⟨y, l2, hy, hl2, hyl2, htl2, hl2.length_le⟩
            obtain ⟨p, hrg, hwk, hpwt⟩ := recon_chain g source dist prev visited
              inv.pe inv.suff inv.vprev hsrc0 visited.length target qc [] hqc hcb
            rw [List.append_nil] at hrg
            have hlenb := visited_le_prev source visited prev inv.vnodup inv.vprev
            have hrg2 := reconGo_mono source prev (visited.length + 1)
              (prev.length + 3) (by omega) target [] p hrg
            refine ⟨qc, p, hqc, ⟨⟨pw, hpw, hpwq⟩, hlow⟩, ?_, hwk, hpwt⟩
            unfold reconstruct
            exact hrg2
          · rw [if_neg ht] at h
            have hcv : cur.1 ∈ cur.1 :: visited := List.mem_cons_self _ _
            have hadj : ∀ nb ∈ g.adjOf cur.1, nb ∈ g.adjOf cur.1 := fun nb hnb => hnb
            have hw_all : ∀ nb ∈ g.adjOf cur.1, g.wOf cur.1 nb.1 = some nb.2 := by
              intro nb hnb
              exact mem_alook_eq_some (adjOf_keys_nodup g cur.1) (by cases nb; exact hnb)
            have hstab := relaxList_dist_stable cur.1 (cur.1 :: visited)
              (g.adjOf cur.1) (dist, prev, rest)
            have hmono := relaxList_dist_dLe cur.1 (cur.1 :: visited)
              (g.adjOf cur.1) (dist, prev, rest)
            refine ih _ _ _ _ _ h ⟨?_, ?_, ?_, ?_, ?_, ?_, ?_, ?_, ?_, ?_, ?_, ?_,
              ?_, ?_, ?_, ?_⟩ ?_ hr
            · exact distKeyed_relaxList g source cur.1 (cur.1 :: visited)
                (g.adjOf cur.1) (dist, prev, rest) inv.keyed
            · exact distSound_relaxList g source cur.1 (cur.1 :: visited)
                (g.adjOf cur.1) hadj hcur_nl (dist, prev, rest) inv.keyed inv.sound
            · exact relaxList_pqn g source cur.1 (cur.1 :: visited) (g.adjOf cur.1)
                (dist, prev, rest) hadj
                (fun it hit => inv.pqn it (popMin_sub hpm it hit))
            · exact relaxList_pqf cur.1 (cur.1 :: visited) (g.adjOf cur.1)
                (dist, prev, rest) (fun it hit => inv.pqf it (popMin_sub hpm it hit))
            · exact relaxList_dq cur.1 (cur.1 :: visited) (g.adjOf cur.1)
                (dist, prev, rest) (fun it hit => inv.dq it (popMin_sub hpm it hit))
            · refine relaxList_ent (fun z => z ∈ g.nodeList ∨ z = source) cur.1
                (cur.1 :: visited) (g.adjOf cur.1) (dist, prev, rest) ?_
              intro z hc hz q hq
              have hzv : z ∉ visited := fun h2 => hz (List.mem_cons_of_mem _ h2)
              have hzc : z ≠ cur.1 := fun h2 => hz (h2 ▸ hcv)
              have hin := inv.ent z hc hzv q hq
              rcases List.mem_cons.mp ((popMin_perm hpm).mem_iff.mp hin) with he | he
              · exfalso
                apply hzc
                rw [← he]
              · exact he
            · intro u hu p hp
              rw [hstab u hu]
              rcases List.mem_cons.mp hu with rfl | hu2
              · exact hpop p hp
              · exact inv.vmin u hu2 p hp
            · intro u hu nb hnb hnb'
              rcases List.mem_cons.mp hu with rfl | hu2
              · have := relaxList_rel cur.1 (cur.1 :: visited) hcv (g.adjOf cur.1)
                  (dist, prev, rest) nb hnb hnb'
                rw [hstab cur.1 hcv]
                exact this
              · have hnbv : nb.1 ∉ visited := fun h2 => hnb' (List.mem_cons_of_mem _ h2)
                have hold := inv.rel u hu2 nb hnb hnbv
                rw [hstab u hu]
                refine dLe_trans (hmono nb.1) hold
            · exact dLe_trans (hmono source) inv.src0
            · intro u hu
              rw [hstab u hu]
              rcases List.mem_cons.mp hu with rfl | hu2
              · exact ⟨qc, hqc⟩
              · exact inv.vfin u hu2
            · exact List.nodup_cons.mpr ⟨hv, inv.vnodup⟩
            · refine relaxList_pe g cur.1 (cur.1 :: visited) hcv (g.adjOf cur.1)
                (dist, prev, rest) hw_all ?_
              intro v y hvy
              obtain ⟨hyv, hrest⟩ := inv.pe v y hvy
              exact ⟨List.mem_cons_of_mem _ hyv, hrest⟩
            · refine relaxList_suff cur.1 (cur.1 :: visited) hcv (g.adjOf cur.1)
                (dist, prev, rest) ?_
              intro v y hvy
              obtain ⟨l2, hl2, hyl2, hvl2⟩ := inv.suff v y hvy
              exact ⟨l2, hl2.trans (List.suffix_cons cur.1 visited), hyl2, hvl2⟩
            · exact relaxList_pqprev source cur.1 (cur.1 :: visited) (g.adjOf cur.1)
                (dist, prev, rest)
                (fun it hit => inv.pqprev it (popMin_sub hpm it hit))
            · intro v hv' hns
              refine relaxList_prev_some cur.1 (cur.1 :: visited) (g.adjOf cur.1)
                (dist, prev, rest) v ?_
              rcases List.mem_cons.mp hv' with rfl | hv2
              · exact inv.pqprev cur (popMin_mem hpm) hns
              · exact inv.vprev v hv2 hns
            · exact relaxList_pnodup cur.1 (cur.1 :: visited) (g.adjOf cur.1)
                (dist, prev, rest) inv.pnodup
            · intro hmem
              rcases List.mem_cons.mp hmem with he | he
              · exact ht he.symm
              · exact htv he

/-- Full correctness of `Dijkstra` on graphs with non-negative weights: for a
reachable target it returns the minimum walk weight together with a walk from
source to target realising exactly that weight. -/
theorem dijkstra_correct (g : Graph) (source target : Int)
    (hnn : NonnegW g) (hr : Reachable g source target) :
    ∃ q p, g.Dijkstra source target = (some q, some p) ∧
      IsMinWk g source target q ∧ Wk g source target p ∧ pwt g p = q := by
  obtain ⟨q, p, hdget, hmin, hrec, hwk, hpwt⟩ := dijkstraLoopF_full g source target hnn
    (dFuel g [(source, some 0)]) (initDist g source) [] [] [(source, some 0)]
    (dijkstraRes g source target) (dijkstraRes_eq g source target)
    (DInv_init g source) (List.not_mem_nil target) hr
  refine ⟨q, p, ?_, hmin, hwk, hpwt⟩
  unfold Graph.Dijkstra
  rw [hdget]
  show (some q, reconstruct source target (dijkstraRes g source target).2) =
    (some q, some p)
  rw [hrec]

/-- C10.  For every graph with only non-negative weights and every pair of
registered nodes `(source, target)` with the target reachable from the source,
the path returned by `Dijkstra(source, target)` is a valid path: it starts at
the source, ends at the target, every consecutive pair is a current directed
edge, and the sum of those edges' weights equals the returned distance. -/
theorem dijkstra_path_valid (g : Graph) (source target : Int)
    (hnn : NonnegW g) (hs : source ∈ g.nodeList) (ht : target ∈ g.nodeList)
    (hr : Reachable g source target) :
    ∃ q p, g.Dijkstra source target = (some q, some p) ∧
      Wk g source target p ∧ pwt g p = q := by
  obtain ⟨q, p, heq, _, hwk, hpwt⟩ := dijkstra_correct g source target hnn hr
  exact ⟨q, p, heq, hwk, hpwt⟩

/-- Witness for `dijkstra_path_valid` on the two-edge graph `0→1→2`. -/
theorem dijkstra_path_valid_witness :
    (NonnegW (Graph.mk [(0, 1, 1), (1, 2, 2)]) ∧
      (0 : Int) ∈ (Graph.mk [(0, 1, 1), (1, 2, 2)]).nodeList ∧
      (2 : Int) ∈ (Graph.mk [(0, 1, 1), (1, 2, 2)]).nodeList ∧
      Reachable (Graph.mk [(0, 1, 1), (1, 2, 2)]) 0 2) ∧
    (∃ q p, (Graph.mk [(0, 1, 1), (1, 2, 2)]).Dijkstra 0 2 = (some q, some p) ∧
      Wk (Graph.mk [(0, 1, 1), (1, 2, 2)]) 0 2 p ∧
      pwt (Graph.mk [(0, 1, 1), (1, 2, 2)]) p = q) :=
  ⟨⟨by decide, by decide, by decide, by decide⟩,
    dijkstra_path_valid (Graph.mk [(0, 1, 1), (1, 2, 2)]) 0 2 (by decide) (by decide)
      (by decide) (by decide)⟩

/-! ### Bellman-Ford correctness on non-negative weights -/

theorem dAdd_mono {a b : Option ℚ} (w : ℚ) (h : dLe a b = true) :
    dLe (dAdd a w) (dAdd b w) = true := by
  cases a with
  | none =>
    rw [dLe_none_iff] at h
    rw [h]
    exact dLe_refl _
  | some qa =>
    cases b with
    | none => exact dLe_none_right _
    | some qb =>
      rw [dLe_some_some] at h
      show dLe (some (qa + w)) (some (qb + w)) = true
      rw [dLe_some_some]
      linarith

theorem exists_snoc2 : ∀ (p : List Int), 2 ≤ p.length → ∃ a u z, p = a ++ [u, z] := by
  intro p
  induction p with
  | nil => intro h; simp at h
  | cons x q ih =>
    intro h
    cases q with
    | nil => simp at h
    | cons y q2 =>
      cases q2 with
      | nil => exact ⟨[], x, y, rfl⟩
      | cons z q3 =>
        obtain ⟨a, u, z2, heq⟩ := ih (by simp)
        exact ⟨x :: a, u, z2, by rw [List.cons_append, ← heq]⟩

theorem relaxEdges_keyed (g : Graph) (source : Int) :
    ∀ (es : List (Int × Int × ℚ)) (d), distKeyed g source d →
      distKeyed g source (relaxEdges es d) := by
  intro es
  induction es with
  | nil => intro d h; exact h
  | cons e rest ih =>
    intro d h
    refine ih _ ?_
    split
    · exact distKeyed_aset g source d h _ _
    · exact h

theorem relaxEdges_sound (g : Graph) (source : Int) :
    ∀ (es : List (Int × Int × ℚ)) (d), (∀ e ∈ es, e ∈ g.effEdges) →
      distKeyed g source d → distSound g source d →
      distSound g source (relaxEdges es d) := by
  intro es
  induction es with
  | nil => intro d _ _ h; exact h
  | cons e rest ih =>
    intro d hes hk hs
    have he := hes e (List.mem_cons_self _ _)
    have hw : g.wOf e.1 e.2.1 = some e.2.2 := by
      have := (mem_effEdges_iff g e.1 e.2.1 e.2.2).mp (by
        have : (e.1, e.2.1, e.2.2) = e := rfl
        rw [this]
        exact he)
      exact this
    refine ih _ (fun x hx => hes x (List.mem_cons_of_mem _ hx)) ?_ ?_
    · split
      · exact distKeyed_aset g source d hk _ _
      · exact hk
    · split
      · rename_i hlt
        intro v q hq
        rw [alook_aset] at hq
        by_cases hev : e.2.1 = v
        · rw [if_pos hev] at hq
          have hval := Option.some.inj hq
          obtain ⟨qu, hqu, hnd⟩ := dAdd_finite hlt
          have hu1 : e.1 ∈ g.nodeList := (wOf_mem_nodeList hw).1
          obtain ⟨dv, hdv⟩ := hk e.1 (Or.inl hu1)
          have hdvq : dv = some qu := by
            rw [← dget_eq_of_alook hdv]
            exact hqu
          rw [hdvq] at hdv
          obtain ⟨p, hp, hpw⟩ := hs e.1 qu hdv
          have hsnoc := Wk_snoc hp hw
          refine ⟨p ++ [e.2.1], hev ▸ hsnoc.1, ?_⟩
          rw [hsnoc.2, hpw]
          rw [hnd] at hval
          rw [← Option.some.inj hval]
        · rw [if_neg hev] at hq
          exact hs v q hq
      · exact hs

theorem relaxEdges_mono :
    ∀ (es : List (Int × Int × ℚ)) (d) (x : Int),
      dLe (dget (relaxEdges es d) x) (dget d x) = true := by
  intro es
  induction es with
  | nil => intro d x; exact dLe_refl _
  | cons e rest ih =>
    intro d x
    refine dLe_trans (ih _ x) ?_
    split
    · rename_i hlt
      rw [dget_aset]
      by_cases he : e.2.1 = x
      · rw [if_pos he]
        rw [he] at hlt
        exact dLt_imp_dLe hlt
      · rw [if_neg he]
        exact dLe_refl _
    · exact dLe_refl _

theorem relaxEdges_edge_bound :
    ∀ (es : List (Int × Int × ℚ)) (d) (e : Int × Int × ℚ), e ∈ es →
      dLe (dget (relaxEdges es d) e.2.1) (dAdd (dget d e.1) e.2.2) = true := by
  intro es
  induction es with
  | nil => intro d e he; cases he
  | cons e0 rest ih =>
    intro d e he
    rcases List.mem_cons.mp he with rfl | he2
    · refine dLe_trans (relaxEdges_mono rest _ e.2.1) ?_
      split
      · rw [dget_aset, if_pos rfl]
        exact dLe_refl _
      · rename_i hnlt
        exact dLe_of_not_dLt hnlt
    · refine dLe_trans (ih _ e he2) ?_
      refine dAdd_mono e.2.2 ?_
      split
      · rename_i hlt
        rw [dget_aset]
        by_cases hx : e0.2.1 = e.1
        · rw [if_pos hx]
          rw [hx] at hlt
          exact dLt_imp_dLe hlt
        · rw [if_neg hx]
          exact dLe_refl _
      · exact dLe_refl _

theorem relaxEdges_ub (g : Graph) (source : Int) (hnn : NonnegW g) (k : Nat) (d)
    (h : ∀ v p, Wk g source v p → p.length ≤ k + 1 →
      dLe (dget d v) (some (pwt g p)) = true) :
    ∀ v p, Wk g source v p → p.length ≤ k + 2 →
      dLe (dget (relaxEdges g.effEdges d) v) (some (pwt g p)) = true := by
  intro v p hp hlen
  by_cases hsh : p.length ≤ k + 1
  · exact dLe_trans (relaxEdges_mono g.effEdges d v) (h v p hp hsh)
  · have h2 : 2 ≤ p.length := by omega
    obtain ⟨a, u, z, heq⟩ := exists_snoc2 p h2
    subst heq
    have hz : z = v := by
      have hl := hp.2.2
      rw [show a ++ [u, z] = a ++ u :: z :: [] from rfl,
        getLast_append_cons a u [z]] at hl
      simpa using hl
    subst hz
    obtain ⟨hpre, w, hw, hbnd⟩ := Wk_split_prefix hp
    have hlenpre : (a ++ [u]).length ≤ k + 1 := by
      have : (a ++ [u, z]).length = a.length + 2 := by simp
      have : (a ++ [u]).length = a.length + 1 := by simp
      simp at hlen ⊢
      omega
    have hub := h u (a ++ [u]) hpre hlenpre
    have hedge := relaxEdges_edge_bound g.effEdges d (u, z, w)
      ((mem_effEdges_iff g u z w).mpr hw)
    refine dLe_trans hedge ?_
    refine dLe_trans (dAdd_mono w hub) ?_
    show dLe (some (pwt g (a ++ [u]) + w)) (some (pwt g (a ++ [u, z]))) = true
    rw [dLe_some_some]
    exact hbnd hnn

theorem bfPasses_ub (g : Graph) (source : Int) (hnn : NonnegW g) :
    ∀ (n m : Nat) (d),
      (∀ v p, Wk g source v p → p.length ≤ m + 1 →
        dLe (dget d v) (some (pwt g p)) = true) →
      ∀ v p, Wk g source v p → p.length ≤ m + n + 1 →
        dLe (dget (bfPasses g n d) v) (some (pwt g p)) = true := by
  intro n
  induction n with
  | zero => intro m d h; exact h
  | succ n ih =>
    intro m d h v p hp hlen
    exact ih (m + 1) (relaxEdges g.effEdges d)
      (fun v2 p2 hp2 hl2 => relaxEdges_ub g source hnn m d h v2 p2 hp2 hl2)
      v p hp (by omega)

theorem bfPasses_keyed (g : Graph) (source : Int) :
    ∀ (n : Nat) (d), distKeyed g source d → distKeyed g source (bfPasses g n d) := by
  intro n
  induction n with
  | zero => intro d h; exact h
  | succ n ih =>
    intro d h
    exact ih _ (relaxEdges_keyed g source g.effEdges d h)

theorem bfPasses_sound (g : Graph) (source : Int) :
    ∀ (n : Nat) (d), distKeyed g source d → distSound g source d →
      distSound g source (bfPasses g n d) := by
  intro n
  induction n with
  | zero => intro d _ h; exact h
  | succ n ih =>
    intro d hk hs
    exact ih _ (relaxEdges_keyed g source g.effEdges d hk)
      (relaxEdges_sound g source g.effEdges d (fun e he => he) hk hs)

theorem initDist_ub (g : Graph) (source : Int) :
    ∀ v p, Wk g source v p → p.length ≤ 0 + 1 →
      dLe (dget (initDist g source) v) (some (pwt g p)) = true := by
  intro v p hp hlen
  cases p with
  | nil => cases hp.2.1
  | cons x q =>
    cases q with
    | nil =>
      have hx : x = source := by simpa using hp.2.1
      have hv : x = v := by simpa using hp.2.2
      rw [← hv, hx, dget_eq_of_alook (alook_initDist_source g source)]
      show dLe (some 0) (some (pwt g [x])) = true
      rw [dLe_some_some]
      show (0 : ℚ) ≤ 0
      linarith
    | cons y q2 => simp at hlen

/-- A reachable endpoint is the source itself or a registered node. -/
theorem reach_endpoint {g : Graph} {source target : Int} (hr : Reachable g source target) :
    target ∈ g.nodeList ∨ target = source := by
  obtain ⟨p0, hp0⟩ := hr
  obtain ⟨q0, rfl⟩ := Wk_head hp0
  have hmem : target ∈ source :: q0 := List.mem_of_mem_getLast? hp0.2.2
  rcases pathOk_mem_nodeList g q0 source hp0.1 target hmem with rfl | hh
  · exact Or.inr rfl
  · exact Or.inl hh

/-- Bellman-Ford distance characterisation: for a registered source and a
reachable target on non-negative weights, the returned entry is exactly the
minimum walk weight. -/
theorem bellmanFord_minwk (g : Graph) (source target : Int) (hnn : NonnegW g)
    (hs : source ∈ g.nodeList) (hr : Reachable g source target) :
    ∃ q, dget (g.BellmanFord source).1 target = some q ∧ IsMinWk g source target q := by
  have hres : (g.BellmanFord source).1 =
      bfPasses g (g.nodeList.length - 1) (initDist g source) := rfl
  have hub := bfPasses_ub g source hnn (g.nodeList.length - 1) 0 (initDist g source)
    (initDist_ub g source)
  have hlow : ∀ p, Wk g source target p →
      dLe (dget (bfPasses g (g.nodeList.length - 1) (initDist g source)) target)
        (some (pwt g p)) = true := by
    intro p hp
    obtain ⟨p', hp', hnd, hlen', hwle⟩ := Wk_dedup g p.length p source target le_rfl hp
    have hsub : ∀ x ∈ p', x ∈ g.nodeList := by
      intro x hx
      obtain ⟨q0, heq⟩ := Wk_head hp'
      rw [heq] at hx
      rcases pathOk_mem_nodeList g q0 source (heq ▸ hp'.1) x hx with rfl | hh
      · exact hs
      · exact hh
    have hplen : p'.length ≤ g.nodeList.length := nodup_subset_length hnd hsub
    have hpos : 0 < g.nodeList.length := List.length_pos_of_mem hs
    refine dLe_trans (hub target p' hp' (by omega)) ?_
    rw [dLe_some_some]
    exact hwle hnn
  obtain ⟨p0, hp0⟩ := hr
  obtain ⟨q, hq, hqle⟩ := dLe_finite_left (hlow p0 hp0)
  have htn : target ∈ g.nodeList ∨ target = source := reach_endpoint ⟨p0, hp0⟩
  have hkey := bfPasses_keyed g source (g.nodeList.length - 1) (initDist g source)
    (initDist_keyed g source)
  obtain ⟨dv, hdv⟩ := hkey target htn
  have hdvq : dv = some q := by
    rw [← dget_eq_of_alook hdv]
    exact hq
  rw [hdvq] at hdv
  have hsound := bfPasses_sound g source (g.nodeList.length - 1) (initDist g source)
    (initDist_keyed g source) (initDist_sound g source)
  obtain ⟨pw, hpw, hpwq⟩ := hsound target q hdv
  refine ⟨q, by rw [hres]; exact hq, ⟨pw, hpw, hpwq⟩, ?_⟩
  intro p hp
  have hle := hlow p hp
  rw [hq] at hle
  exact dLe_some_some.mp hle

/-! ### Floyd-Warshall correctness on non-negative weights -/

theorem alook_map_fn {α : Type} (f : Int → α) :
    ∀ (l : List Int) (x : Int),
      alook (l.map (fun n => (n, f n))) x = if x ∈ l then some (f x) else none := by
  intro l
  induction l with
  | nil => intro x; simp [alook]
  | cons a rest ih =>
    intro x
    by_cases ha : a = x
    · subst ha
      simp [alook]
    · rw [List.map_cons, show alook ((a, f a) :: rest.map (fun n => (n, f n))) x =
        if a = x then some (f a) else alook (rest.map (fun n => (n, f n))) x from rfl,
        if_neg ha, ih x]
      have hne : x ∈ a :: rest ↔ x ∈ rest := by
        constructor
        · intro h
          rcases List.mem_cons.mp h with rfl | h2
          · exact absurd rfl ha
          · exact h2
        · exact List.mem_cons_of_mem a
      by_cases hx : x ∈ rest
      · rw [if_pos hx, if_pos (hne.mpr hx)]
      · rw [if_neg hx, if_neg (fun h => hx (hne.mp h))]

theorem mget_mset (m : List (Int × List (Int × Option ℚ))) (i j : Int)
    (v : Option ℚ) (x y : Int) :
    mget (mset m i j v) x y =
      if i = x then (if j = y then v else mget m x y) else mget m x y := by
  unfold mget mset
  rw [alook_aset]
  by_cases hix : i = x
  · rw [if_pos hix, if_pos hix]
    show dget (aset ((alook m i).getD []) j v) y = _
    rw [dget_aset, hix]
  · rw [if_neg hix, if_neg hix]

theorem dAddO_mono {a b a' b' : Option ℚ} (ha : dLe a a' = true) (hb : dLe b b' = true) :
    dLe (dAddO a b) (dAddO a' b') = true := by
  cases a' with
  | none =>
    cases b' <;> exact dLe_none_right _
  | some qa =>
    cases b' with
    | none =>
      cases a <;> exact dLe_none_right _
    | some qb =>
      obtain ⟨qa0, rfl, hqa⟩ := dLe_finite_left ha
      obtain ⟨qb0, rfl, hqb⟩ := dLe_finite_left hb
      show dLe (some (qa0 + qb0)) (some (qa + qb)) = true
      rw [dLe_some_some]
      linarith

theorem exists_append_getLast :
    ∀ (l : List Int) (a : Int), l.getLast? = some a → ∃ q, l = q ++ [a] := by
  intro l
  induction l with
  | nil => intro a h; cases h
  | cons x xs ih =>
    intro a h
    cases xs with
    | nil =>
      obtain rfl : x = a := by simpa using h
      exact ⟨[], rfl⟩
    | cons y ys =>
      rw [List.getLast?_cons_cons] at h
      obtain ⟨q, heq⟩ := ih a h
      exact ⟨x :: q, by rw [List.cons_append, ← heq]⟩

/-- Concatenating two walks that share an endpoint. -/
theorem Wk_append {g : Graph} {s mid t : Int} {p1 p2 : List Int}
    (h1 : Wk g s mid p1) (h2 : Wk g mid t p2) :
    Wk g s t (p1 ++ p2.tail) ∧ pwt g (p1 ++ p2.tail) = pwt g p1 + pwt g p2 := by
  obtain ⟨t2, rfl⟩ := Wk_head h2
  cases t2 with
  | nil =>
    obtain rfl : mid = t := by simpa using h2.2.2
    constructor
    · simpa using h1
    · show pwt g (p1 ++ []) = pwt g p1 + pwt g [mid]
      simp [pwt]
  | cons z rest =>
    obtain ⟨a, rfl⟩ := exists_append_getLast p1 mid h1.2.2
    have hform : (a ++ [mid]) ++ (mid :: z :: rest).tail = a ++ mid :: z :: rest := by
      simp
    rw [hform]
    have hpOk : pathOk g (a ++ mid :: z :: rest) = true := by
      rw [pathOk_split g a mid (z :: rest)]
      rw [h1.1, h2.1]
      rfl
    refine ⟨⟨hpOk, ?_, ?_⟩, ?_⟩
    · rw [show a ++ mid :: z :: rest = a ++ mid :: (z :: rest) from rfl,
        ← head_append_cons a mid [] (z :: rest)]
      exact h1.2.1
    · rw [getLast_append_cons a mid (z :: rest)]
      exact h2.2.2
    · rw [pwt_split g a mid (z :: rest)]

/-- Splitting a walk at an interior occurrence of a node. -/
theorem Wk_split_at {g : Graph} {s t : Int} {a : List Int} {x : Int} {c : List Int}
    (h : Wk g s t (a ++ x :: c)) :
    Wk g s x (a ++ [x]) ∧ Wk g x t (x :: c) ∧
      pwt g (a ++ x :: c) = pwt g (a ++ [x]) + pwt g (x :: c) := by
  have h1 := h.1
  rw [pathOk_split g a x c] at h1
  simp only [Bool.and_eq_true] at h1
  refine ⟨⟨h1.1, ?_, getLast_append_singleton a⟩, ⟨h1.2, rfl, ?_⟩, pwt_split g a x c⟩
  · rw [show a ++ [x] = a ++ x :: [] from rfl, head_append_cons a x [] c]
    exact h.2.1
  · rw [← getLast_append_cons a x c]
    exact h.2.2

theorem fw_step_mono (k i j : Int) (m : List (Int × List (Int × Option ℚ)))
    (x y : Int) :
    dLe (mget (if dLt (dAddO (mget m i k) (mget m k j)) (mget m i j) = true then
      mset m i j (dAddO (mget m i k) (mget m k j)) else m) x y) (mget m x y) = true := by
  split
  · rename_i hlt
    rw [mget_mset]
    by_cases hix : i = x
    · rw [if_pos hix]
      by_cases hjy : j = y
      · rw [if_pos hjy]
        rw [← hix, ← hjy]
        exact dLt_imp_dLe hlt
      · rw [if_neg hjy]
        exact dLe_refl _
    · rw [if_neg hix]
      exact dLe_refl _
  · exact dLe_refl _

theorem fwJ_mono (k i : Int) :
    ∀ (js : List Int) (m) (x y : Int),
      dLe (mget (fwJ k i js m) x y) (mget m x y) = true := by
  intro js
  induction js with
  | nil => intro m x y; exact dLe_refl _
  | cons j js ih =>
    intro m x y
    exact dLe_trans (ih _ x y) (fw_step_mono k i j m x y)

theorem fwI_mono (k : Int) (js : List Int) :
    ∀ (is0 : List Int) (m) (x y : Int),
      dLe (mget (fwI k js is0 m) x y) (mget m x y) = true := by
  intro is0
  induction is0 with
  | nil => intro m x y; exact dLe_refl _
  | cons i is0 ih =>
    intro m x y
    exact dLe_trans (ih _ x y) (fwJ_mono k i js m x y)

theorem fwK_mono (ns : List Int) :
    ∀ (ks : List Int) (m) (x y : Int),
      dLe (mget (fwK ns ks m) x y) (mget m x y) = true := by
  intro ks
  induction ks with
  | nil => intro m x y; exact dLe_refl _
  | cons k ks ih =>
    intro m x y
    exact dLe_trans (ih _ x y) (fwI_mono k ns ns m x y)

theorem fwJ_bound (k i : Int) :
    ∀ (js : List Int) (m) (j : Int), j ∈ js →
      dLe (mget (fwJ k i js m) i j) (dAddO (mget m i k) (mget m k j)) = true := by
  intro js
  induction js with
  | nil => intro m j hj; cases hj
  | cons j0 js ih =>
    intro m j hj
    rcases List.mem_cons.mp hj with rfl | hj2
    · have h1 : dLe (mget (if dLt (dAddO (mget m i k) (mget m k j)) (mget m i j) = true
          then mset m i j (dAddO (mget m i k) (mget m k j)) else m) i j)
          (dAddO (mget m i k) (mget m k j)) = true := by
        split
        · rw [mget_mset, if_pos rfl, if_pos rfl]
          exact dLe_refl _
        · rename_i hnlt
          exact dLe_of_not_dLt hnlt
      exact dLe_trans (fwJ_mono k i js _ i j) h1
    · refine dLe_trans (ih _ j hj2) ?_
      exact dAddO_mono (fw_step_mono k i j0 m i k) (fw_step_mono k i j0 m k j)

theorem fwI_bound (k : Int) (js : List Int) :
    ∀ (is0 : List Int) (m) (i j : Int), i ∈ is0 → j ∈ js →
      dLe (mget (fwI k js is0 m) i j) (dAddO (mget m i k) (mget m k j)) = true := by
  intro is0
  induction is0 with
  | nil => intro m i j hi; cases hi
  | cons i0 is0 ih =>
    intro m i j hi hj
    rcases List.mem_cons.mp hi with rfl | hi2
    · exact dLe_trans (fwI_mono k js is0 _ i j) (fwJ_bound k i js m j hj)
    · refine dLe_trans (ih _ i j hi2 hj) ?_
      exact dAddO_mono (fwJ_mono k i0 js m i k) (fwJ_mono k i0 js m k j)

/-- Soundness of a Floyd-Warshall matrix: every finite entry over registered
nodes is the weight of an actual walk. -/
def msound (g : Graph) (m : List (Int × List (Int × Option ℚ))) : Prop :=
  ∀ i ∈ g.nodeList, ∀ j ∈ g.nodeList, ∀ q, mget m i j = some q →
    ∃ p, Wk g i j p ∧ pwt g p = q

theorem dAddO_eq_some {a b : Option ℚ} {q : ℚ} (h : dAddO a b = some q) :
    ∃ q1 q2, a = some q1 ∧ b = some q2 ∧ q = q1 + q2 := by
  cases a with
  | none => cases b <;> cases h
  | some q1 =>
    cases b with
    | none => cases h
    | some q2 => exact ⟨q1, q2, rfl, rfl, (Option.some.inj h).symm⟩

theorem fw_step_sound (g : Graph) (k i j : Int) (hk : k ∈ g.nodeList)
    (hi : i ∈ g.nodeList) (hj : j ∈ g.nodeList)
    (m : List (Int × List (Int × Option ℚ))) (hs : msound g m) :
    msound g (if dLt (dAddO (mget m i k) (mget m k j)) (mget m i j) = true then
      mset m i j (dAddO (mget m i k) (mget m k j)) else m) := by
  split
  · intro x hx y hy q hq
    rw [mget_mset] at hq
    by_cases hix : i = x
    · rw [if_pos hix] at hq
      by_cases hjy : j = y
      · rw [if_pos hjy] at hq
        obtain ⟨q1, q2, ha, hb, rfl⟩ := dAddO_eq_some hq
        obtain ⟨p1, hp1, hw1⟩ := hs i hi k hk q1 ha
        obtain ⟨p2, hp2, hw2⟩ := hs k hk j hj q2 hb
        have happ := Wk_append hp1 hp2
        refine ⟨p1 ++ p2.tail, ?_, ?_⟩
        · rw [← hix, ← hjy]
          exact happ.1
        · rw [happ.2, hw1, hw2]
      · rw [if_neg hjy] at hq
        exact hs x hx y hy q hq
    · rw [if_neg hix] at hq
      exact hs x hx y hy q hq
  · exact hs

theorem fwJ_sound (g : Graph) (k i : Int) (hk : k ∈ g.nodeList) (hi : i ∈ g.nodeList) :
    ∀ (js : List Int), (∀ j ∈ js, j ∈ g.nodeList) → ∀ m, msound g m →
      msound g (fwJ k i js m) := by
  intro js
  induction js with
  | nil => intro _ m hs; exact hs
  | cons j js ih =>
    intro hjs m hs
    exact ih (fun x hx => hjs x (List.mem_cons_of_mem _ hx)) _
      (fw_step_sound g k i j hk hi (hjs j (List.mem_cons_self _ _)) m hs)

theorem fwI_sound (g : Graph) (k : Int) (js : List Int) (hk : k ∈ g.nodeList)
    (hjs : ∀ j ∈ js, j ∈ g.nodeList) :
    ∀ (is0 : List Int), (∀ i ∈ is0, i ∈ g.nodeList) → ∀ m, msound g m →
      msound g (fwI k js is0 m) := by
  intro is0
  induction is0 with
  | nil => intro _ m hs; exact hs
  | cons i is0 ih =>
    intro his m hs
    exact ih (fun x hx => his x (List.mem_cons_of_mem _ hx)) _
      (fwJ_sound g k i hk (his i (List.mem_cons_self _ _)) js hjs m hs)

theorem fwK_sound (g : Graph) (ns : List Int) (hns : ∀ x ∈ ns, x ∈ g.nodeList) :
    ∀ (ks : List Int), (∀ x ∈ ks, x ∈ g.nodeList) → ∀ m, msound g m →
      msound g (fwK ns ks m) := by
  intro ks
  induction ks with
  | nil => intro _ m hs; exact hs
  | cons k ks ih =>
    intro hks m hs
    exact ih (fun x hx => hks x (List.mem_cons_of_mem _ hx)) _
      (fwI_sound g k ns (hks k (List.mem_cons_self _ _)) hns ns hns m hs)

/-- The initial Floyd-Warshall matrix (0 on the diagonal, `+Inf` elsewhere). -/
def fwInit (g : Graph) : List (Int × List (Int × Option ℚ)) :=
  g.nodeList.map (fun i =>
    (i, g.nodeList.map (fun j => (j, if i = j then (some 0 : Option ℚ) else none))))

/-- The matrix after overwriting with the direct edge weights. -/
def fwWithE (g : Graph) : List (Int × List (Int × Option ℚ)) :=
  g.effEdges.foldl (fun m e => mset m e.1 e.2.1 (some e.2.2)) (fwInit g)

theorem floydWarshall_eq (g : Graph) :
    g.FloydWarshall = fwK g.nodeList g.nodeList (fwWithE g) := rfl

theorem mget_fwInit (g : Graph) {i j : Int} (hi : i ∈ g.nodeList)
    (hj : j ∈ g.nodeList) :
    mget (fwInit g) i j = if i = j then some 0 else none := by
  unfold mget fwInit
  rw [alook_map_fn, if_pos hi]
  show dget (g.nodeList.map (fun j => (j, if i = j then (some 0 : Option ℚ) else none))) j
    = _
  unfold dget
  rw [alook_map_fn, if_pos hj]
  rfl

theorem msound_fwInit (g : Graph) : msound g (fwInit g) := by
  intro i hi j hj q hq
  rw [mget_fwInit g hi hj] at hq
  by_cases hij : i = j
  · rw [if_pos hij] at hq
    obtain rfl : (0 : ℚ) = q := Option.some.inj hq
    exact ⟨[i], hij ▸ Wk_single g i, rfl⟩
  · rw [if_neg hij] at hq
    cases hq

theorem msound_mset_edge (g : Graph) (e : Int × Int × ℚ) (he : e ∈ g.effEdges)
    (m : List (Int × List (Int × Option ℚ))) (hs : msound g m) :
    msound g (mset m e.1 e.2.1 (some e.2.2)) := by
  have hw : g.wOf e.1 e.2.1 = some e.2.2 :=
    (mem_effEdges_iff g e.1 e.2.1 e.2.2).mp (by
      have : (e.1, e.2.1, e.2.2) = e := rfl
      rw [this]
      exact he)
  intro x hx y hy q hq
  rw [mget_mset] at hq
  by_cases hix : e.1 = x
  · rw [if_pos hix] at hq
    by_cases hjy : e.2.1 = y
    · rw [if_pos hjy] at hq
      obtain rfl : e.2.2 = q := Option.some.inj hq
      subst hix
      subst hjy
      refine ⟨[e.1, e.2.1], ⟨?_, rfl, rfl⟩, ?_⟩
      · show ((g.wOf e.1 e.2.1).isSome && pathOk g [e.2.1]) = true
        rw [hw]
        rfl
      · show (g.wOf e.1 e.2.1).getD 0 + pwt g [e.2.1] = e.2.2
        rw [hw]
        show e.2.2 + 0 = e.2.2
        ring
    · rw [if_neg hjy] at hq
      exact hs x hx y hy q hq
  · rw [if_neg hix] at hq
    exact hs x hx y hy q hq

theorem msound_withE_fold (g : Graph) :
    ∀ (es : List (Int × Int × ℚ)) (m), (∀ e ∈ es, e ∈ g.effEdges) → msound g m →
      msound g (es.foldl (fun m e => mset m e.1 e.2.1 (some e.2.2)) m) := by
  intro es
  induction es with
  | nil => intro m _ hs; exact hs
  | cons e es ih =>
    intro m hes hs
    exact ih _ (fun x hx => hes x (List.mem_cons_of_mem _ hx))
      (msound_mset_edge g e (hes e (List.mem_cons_self _ _)) m hs)

theorem msound_fwWithE (g : Graph) : msound g (fwWithE g) :=
  msound_withE_fold g g.effEdges (fwInit g) (fun e he => he) (msound_fwInit g)

theorem mget_withE_edge (g : Graph) {i j : Int} {w : ℚ} (hw : g.wOf i j = some w) :
    ∀ (es : List (Int × Int × ℚ)) (m), (∀ e ∈ es, e ∈ g.effEdges) →
      ((i, j, w) ∈ es ∨ mget m i j = some w) →
      mget (es.foldl (fun m e => mset m e.1 e.2.1 (some e.2.2)) m) i j = some w := by
  intro es
  induction es with
  | nil =>
    intro m _ h
    rcases h with h | h
    · cases h
    · exact h
  | cons e es ih =>
    intro m hes h
    refine ih _ (fun x hx => hes x (List.mem_cons_of_mem _ hx)) ?_
    rcases h with hmem | hval
    · rcases List.mem_cons.mp hmem with he | he2
      · right
        rw [← he]
        show mget (mset m i j (some w)) i j = some w
        rw [mget_mset, if_pos rfl, if_pos rfl]
      · left
        exact he2
    · right
      rw [mget_mset]
      by_cases hix : e.1 = i
      · rw [if_pos hix]
        by_cases hjy : e.2.1 = j
        · rw [if_pos hjy]
          have hwe : g.wOf e.1 e.2.1 = some e.2.2 :=
            (mem_effEdges_iff g e.1 e.2.1 e.2.2).mp (by
              have : (e.1, e.2.1, e.2.2) = e := rfl
              rw [this]
              exact hes e (List.mem_cons_self _ _))
          rw [hix, hjy] at hwe
          rw [hw] at hwe
          rw [Option.some.inj hwe]
        · rw [if_neg hjy]
          exact hval
      · rw [if_neg hix]
        exact hval

/-- Upper-bound invariant for the Floyd-Warshall loop: the entry `(i, j)` is
at most the weight of every duplicate-free walk all of whose nodes are the
endpoints or lie in the already-processed set described by `C`. -/
def mUB (g : Graph) (C : Int → Prop) (m : List (Int × List (Int × Option ℚ))) : Prop :=
  ∀ i j p, i ∈ g.nodeList → j ∈ g.nodeList → Wk g i j p → p.Nodup →
    2 ≤ p.length → (∀ x ∈ p, x = i ∨ x = j ∨ C x) →
    dLe (mget m i j) (some (pwt g p)) = true

theorem mUB_fwWithE (g : Graph) : mUB g (fun _ => False) (fwWithE g) := by
  intro i j p hi hj hp hnd hlen hcond
  have hsub : p ⊆ [i, j] := by
    intro x hx
    rcases hcond x hx with rfl | rfl | hf
    · exact List.mem_cons_self _ _
    · exact List.mem_cons_of_mem _ (List.mem_singleton.mpr rfl)
    · cases hf
  have hle2 := nodup_subset_length hnd hsub
  cases p with
  | nil => simp at hlen
  | cons x q =>
    cases q with
    | nil => simp at hlen
    | cons y q2 =>
      cases q2 with
      | cons z q3 => simp at hle2
      | nil =>
        obtain rfl : x = i := by simpa using hp.2.1
        obtain rfl : y = j := by simpa using hp.2.2
        obtain ⟨w, hw⟩ := Option.isSome_iff_exists.mp (pathOk_cons_of hp.1).1
        have hedge := mget_withE_edge g hw g.effEdges (fwInit g) (fun e he => he)
          (Or.inl ((mem_effEdges_iff g x y w).mpr hw))
        rw [show fwWithE g =
          g.effEdges.foldl (fun m e => mset m e.1 e.2.1 (some e.2.2)) (fwInit g)
          from rfl, hedge]
        show dLe (some w) (some ((g.wOf x y).getD 0 + pwt g [y])) = true
        rw [hw, dLe_some_some]
        show w ≤ w + 0
        linarith

theorem fw_round_ub (g : Graph) (k : Int) (hk : k ∈ g.nodeList)
    (C : Int → Prop) (m : List (Int × List (Int × Option ℚ))) (hub : mUB g C m) :
    mUB g (fun x => C x ∨ x = k) (fwI k g.nodeList g.nodeList m) := by
  intro i j p hi hj hp hnd hlen hcond
  by_cases hkp : k ∈ p ∧ k ≠ i ∧ k ≠ j
  · obtain ⟨hkmem, hki, hkj⟩ := hkp
    obtain ⟨c1, c2, heq⟩ := List.mem_iff_append.mp hkmem
    subst heq
    have hc1 : c1 ≠ [] := by
      intro h0
      subst h0
      have hh := hp.2.1
      simp only [List.nil_append, List.head?_cons, Option.some.injEq] at hh
      exact hki hh
    have hc2 : c2 ≠ [] := by
      intro h0
      subst h0
      have hh := hp.2.2
      rw [getLast_append_cons c1 k []] at hh
      simp only [List.getLast?_singleton, Option.some.injEq] at hh
      exact hkj hh
    obtain ⟨hw1, hw2, hpwt⟩ := Wk_split_at hp
    have hnd' := List.nodup_append.mp hnd
    have hnds1 : (c1 ++ [k]).Nodup := by
      refine List.nodup_append.mpr ⟨hnd'.1, List.nodup_singleton k, ?_⟩
      intro x hx hxk
      rw [List.mem_singleton] at hxk
      subst hxk
      exact hnd'.2.2 hx (List.mem_cons_self _ _)
    have hnds2 : (k :: c2).Nodup := hnd'.2.1
    have hlen1 : 2 ≤ (c1 ++ [k]).length := by
      have := List.length_pos_of_ne_nil hc1
      simp
      omega
    have hlen2 : 2 ≤ (k :: c2).length := by
      have := List.length_pos_of_ne_nil hc2
      simp
      omega
    have hic1 : i ∈ c1 := by
      have hm := List.mem_of_mem_head? hw1.2.1
      rcases List.mem_append.mp hm with h | h
      · exact h
      · rw [List.mem_singleton] at h
        exact absurd h.symm hki
    have hjc2 : j ∈ c2 := by
      have hm := List.mem_of_mem_getLast? hw2.2.2
      rcases List.mem_cons.mp hm with h | h
      · exact absurd h.symm hkj
      · exact h
    have hcond1 : ∀ x ∈ c1 ++ [k], x = i ∨ x = k ∨ C x := by
      intro x hx
      rcases List.mem_append.mp hx with hx1 | hx1
      · have hxp : x ∈ c1 ++ k :: c2 := List.mem_append_left _ hx1
        rcases hcond x hxp with rfl | rfl | hc | rfl
        · exact Or.inl rfl
        · exact absurd hx1 (fun hh => hnd'.2.2 hh (List.mem_cons_of_mem _ hjc2))
        · exact Or.inr (Or.inr hc)
        · exact Or.inr (Or.inl rfl)
      · rw [List.mem_singleton] at hx1
        exact Or.inr (Or.inl hx1)
    have hcond2 : ∀ x ∈ k :: c2, x = k ∨ x = j ∨ C x := by
      intro x hx
      rcases List.mem_cons.mp hx with rfl | hx1
      · exact Or.inl rfl
      · have hxp : x ∈ c1 ++ k :: c2 :=
          List.mem_append_right _ (List.mem_cons_of_mem _ hx1)
        rcases hcond x hxp with rfl | rfl | hc | rfl
        · exact absurd hic1 (fun hh => hnd'.2.2 hh (List.mem_cons_of_mem _ hx1))
        · exact Or.inr (Or.inl rfl)
        · exact Or.inr (Or.inr hc)
        · exact Or.inl rfl
    have hub1 := hub i k (c1 ++ [k]) hi hk hw1 hnds1 hlen1 hcond1
    have hub2 := hub k j (k :: c2) hk hj hw2 hnds2 hlen2 hcond2
    refine dLe_trans (fwI_bound k g.nodeList g.nodeList m i j hi hj) ?_
    refine dLe_trans (dAddO_mono hub1 hub2) ?_
    show dLe (some (pwt g (c1 ++ [k]) + pwt g (k :: c2)))
      (some (pwt g (c1 ++ k :: c2))) = true
    rw [dLe_some_some, hpwt]
  · have hcond' : ∀ x ∈ p, x = i ∨ x = j ∨ C x := by
      intro x hx
      rcases hcond x hx with rfl | rfl | hc | rfl
      · exact Or.inl rfl
      · exact Or.inr (Or.inl rfl)
      · exact Or.inr (Or.inr hc)
      · by_cases hgi : x = i
        · exact Or.inl hgi
        · by_cases hgj : x = j
          · exact Or.inr (Or.inl hgj)
          · exact absurd ⟨hx, hgi, hgj⟩ hkp
    exact dLe_trans (fwI_mono k g.nodeList g.nodeList m i j)
      (hub i j p hi hj hp hnd hlen hcond')

theorem fwK_ub (g : Graph) :
    ∀ (ks : List Int), (∀ x ∈ ks, x ∈ g.nodeList) → ∀ (C : Int → Prop) (m),
      mUB g C m → mUB g (fun x => C x ∨ x ∈ ks) (fwK g.nodeList ks m) := by
  intro ks
  induction ks with
  | nil =>
    intro _ C m hub i j p hi hj hp hnd hlen hcond
    refine hub i j p hi hj hp hnd hlen ?_
    intro x hx
    rcases hcond x hx with rfl | rfl | hc | hm
    · exact Or.inl rfl
    · exact Or.inr (Or.inl rfl)
    · exact Or.inr (Or.inr hc)
    · cases hm
  | cons k ks ih =>
    intro hks C m hub
    have hr := fw_round_ub g k (hks k (List.mem_cons_self _ _)) C m hub
    have hnext := ih (fun x hx => hks x (List.mem_cons_of_mem _ hx))
      (fun x => C x ∨ x = k) (fwI k g.nodeList g.nodeList m) hr
    intro i j p hi hj hp hnd hlen hcond
    refine hnext i j p hi hj hp hnd hlen ?_
    intro x hx
    rcases hcond x hx with rfl | rfl | hc | hm
    · exact Or.inl rfl
    · exact Or.inr (Or.inl rfl)
    · exact Or.inr (Or.inr (Or.inl (Or.inl hc)))
    · rcases List.mem_cons.mp hm with rfl | hm2
      · exact Or.inr (Or.inr (Or.inl (Or.inr rfl)))
      · exact Or.inr (Or.inr (Or.inr hm2))

/-- Floyd-Warshall distance characterisation: on non-negative weights, the
entry for a reachable pair of distinct nodes is exactly the minimum walk
weight. -/
theorem floydWarshall_minwk (g : Graph) (s t : Int) (hnn : NonnegW g)
    (hst : s ≠ t) (hr : Reachable g s t) :
    ∃ q, mget g.FloydWarshall s t = some q ∧ IsMinWk g s t q := by
  obtain ⟨p0, hp0⟩ := hr
  have hs : s ∈ g.nodeList := by
    obtain ⟨q0, rfl⟩ := Wk_head hp0
    cases q0 with
    | nil =>
      obtain rfl : s = t := by simpa using hp0.2.2
      exact absurd rfl hst
    | cons z rest =>
      obtain ⟨w, hw⟩ := Option.isSome_iff_exists.mp (pathOk_cons_of hp0.1).1
      exact (wOf_mem_nodeList hw).1
  have ht : t ∈ g.nodeList := by
    rcases reach_endpoint ⟨p0, hp0⟩ with h | h
    · exact h
    · exact absurd h.symm hst
  have hubF := fwK_ub g g.nodeList (fun x hx => hx) (fun _ => False) (fwWithE g)
    (mUB_fwWithE g)
  have hlow : ∀ p, Wk g s t p →
      dLe (mget g.FloydWarshall s t) (some (pwt g p)) = true := by
    intro p hp
    obtain ⟨p', hp', hnd, _, hwle⟩ := Wk_dedup g p.length p s t le_rfl hp
    have hlen2 : 2 ≤ p'.length := by
      cases p' with
      | nil => cases hp'.2.1
      | cons x q =>
        cases q with
        | nil =>
          obtain rfl : x = s := by simpa using hp'.2.1
          obtain rfl : x = t := by simpa using hp'.2.2
          exact absurd rfl hst
        | cons y r => simp
    have hcond : ∀ x ∈ p', x = s ∨ x = t ∨ (False ∨ x ∈ g.nodeList) := by
      intro x hx
      obtain ⟨q0, heq⟩ := Wk_head hp'
      rw [heq] at hx
      rcases pathOk_mem_nodeList g q0 s (heq ▸ hp'.1) x hx with rfl | h
      · exact Or.inl rfl
      · exact Or.inr (Or.inr (Or.inr h))
    have hb := hubF s t p' hs ht hp' hnd hlen2 hcond
    rw [floydWarshall_eq]
    refine dLe_trans hb ?_
    rw [dLe_some_some]
    exact hwle hnn
  obtain ⟨q, hq, _⟩ := dLe_finite_left (hlow p0 hp0)
  have hsound := fwK_sound g g.nodeList (fun x hx => hx) g.nodeList
    (fun x hx => hx) (fwWithE g) (msound_fwWithE g)
  have hq2 : mget (fwK g.nodeList g.nodeList (fwWithE g)) s t = some q := by
    rw [← floydWarshall_eq]
    exact hq
  obtain ⟨pw, hpw, hpwq⟩ := hsound s hs t ht q hq2
  refine ⟨q, hq, ⟨pw, hpw, hpwq⟩, ?_⟩
  intro p hp
  have hle := hlow p hp
  rw [hq] at hle
  exact dLe_some_some.mp hle

set_option maxRecDepth 100000 in
/-- Counterexample to the three-way agreement claim: on the single self-loop
`0→0` of weight 5 (non-negative, and node 0 trivially reachable from itself),
`Dijkstra(0,0)` and `BellmanFord(0)` both report distance 0, but
`FloydWarshall()[0][0]` reports 5: the edge-weight initialisation overwrites
the zero diagonal entry and the relaxation loop never restores it. -/
theorem floydWarshall_self_loop_diverges :
    NonnegW (Graph.mk [(0, 0, 5)]) ∧ Reachable (Graph.mk [(0, 0, 5)]) 0 0 ∧
    ((Graph.mk [(0, 0, 5)]).Dijkstra 0 0).1 = some 0 ∧
    dget ((Graph.mk [(0, 0, 5)]).BellmanFord 0).1 0 = some 0 ∧
    mget (Graph.mk [(0, 0, 5)]).FloydWarshall 0 0 = some 5 := by
  refine ⟨by decide, by decide, ?_, ?_, ?_⟩
  · norm_num [Graph.Dijkstra, dijkstraRes, initDist, dijkstraLoop, dijkstraLoopF,
      dFuel, popMin, relaxList, relaxOne, dget, alook, aset, dAdd, dLt, dLe,
      Graph.nodeList, Graph.adjOf, Graph.edges, addNode, reconstruct, reconGo,
      iget, pqKeys]
  · norm_num [Graph.BellmanFord, bfPasses, relaxEdges, Graph.effEdges, Graph.adjKeys,
      Graph.adjOf, Graph.nodeList, addNode, aset, alook, dget, dAdd, dLt, Graph.edges]
  · norm_num [Graph.FloydWarshall, fwK, fwI, fwJ, mget, mset, Graph.effEdges,
      Graph.adjKeys, Graph.adjOf, Graph.nodeList, addNode, aset, alook, dget, dAdd,
      dAddO, dLt, Graph.edges]

/-- C1 (amended).  On non-negative weights with `t` reachable from `s`, the
distance returned by `Dijkstra(s,t)` is the minimum walk weight; the entry for
`t` in `BellmanFord(s)` agrees whenever the source is registered, and the
`[s][t]` entry of `FloydWarshall()` agrees whenever `s ≠ t` (the
counterexample `floydWarshall_self_loop_diverges` shows the diagonal can
disagree: a self-loop weight overwrites the zero diagonal initialisation). -/
theorem dijkstra_bf_fw_agree (g : Graph) (s t : Int) (hnn : NonnegW g)
    (hr : Reachable g s t) :
    ∃ q, IsMinWk g s t q ∧ (g.Dijkstra s t).1 = some q ∧
      (s ∈ g.nodeList → dget (g.BellmanFord s).1 t = some q) ∧
      (s ≠ t → mget g.FloydWarshall s t = some q) := by
  obtain ⟨qd, p, heq, hmin, _, _⟩ := dijkstra_correct g s t hnn hr
  refine ⟨qd, hmin, by rw [heq], ?_, ?_⟩
  · intro hs
    obtain ⟨qb, hqb, hminb⟩ := bellmanFord_minwk g s t hnn hs hr
    rw [hqb, IsMinWk_unique hminb hmin]
  · intro hst
    obtain ⟨qf, hqf, hminf⟩ := floydWarshall_minwk g s t hnn hst hr
    rw [hqf, IsMinWk_unique hminf hmin]

/-- Witness for `dijkstra_bf_fw_agree` on the single edge `0→1`. -/
theorem dijkstra_bf_fw_agree_witness :
    (NonnegW (Graph.mk [(0, 1, 1)]) ∧ Reachable (Graph.mk [(0, 1, 1)]) 0 1) ∧
    (∃ q, IsMinWk (Graph.mk [(0, 1, 1)]) 0 1 q ∧
      ((Graph.mk [(0, 1, 1)]).Dijkstra 0 1).1 = some q ∧
      ((0 : Int) ∈ (Graph.mk [(0, 1, 1)]).nodeList →
        dget ((Graph.mk [(0, 1, 1)]).BellmanFord 0).1 1 = some q) ∧
      ((0 : Int) ≠ 1 → mget (Graph.mk [(0, 1, 1)]).FloydWarshall 0 1 = some q)) :=
  ⟨⟨by decide, by decide⟩,
    dijkstra_bf_fw_agree (Graph.mk [(0, 1, 1)]) 0 1 (by decide) (by decide)⟩

/-! ### BFS correctness: hop counts are shortest unweighted distances -/

/-- Full characterisation of one BFS neighbor scan: the newly marked nodes
`news` are exactly the previously unvisited ones, prepended (in reverse) to
the visited list and appended to the queue, each with hop distance one more
than the scanned node's; all other map entries are untouched, and afterwards
every neighbor of the scanned node is visited. -/
theorem bfsScan_spec (u : Int) :
    ∀ (nbrs : List (Int × ℚ))
      (st : List Int × List (Int × Int) × List (Int × Int) × List Int), u ∈ st.1 →
      ∃ news : List Int,
        (bfsScan u nbrs st).1 = news.reverse ++ st.1 ∧
        (bfsScan u nbrs st).2.2.2 = st.2.2.2 ++ news ∧
        (∀ z ∈ news, z ∉ st.1 ∧
          alook (bfsScan u nbrs st).2.2.1 z = some (iget st.2.2.1 u + 1) ∧
          ∃ w, (z, w) ∈ nbrs) ∧
        news.Nodup ∧
        (∀ x, x ∉ news → alook (bfsScan u nbrs st).2.2.1 x = alook st.2.2.1 x) ∧
        (∀ nb ∈ nbrs, nb.1 ∈ (bfsScan u nbrs st).1) := by
  intro nbrs
  induction nbrs with
  | nil =>
    intro st hu
    refine ⟨[], rfl, (List.append_nil _).symm, ?_, List.nodup_nil, ?_, ?_⟩
    · intro z hz
      cases hz
    · intro x _
      rfl
    · intro nb hnb
      cases hnb
  | cons nb rest ih =>
    intro st hu
    by_cases hv : nb.1 ∈ st.1
    · have hstep : bfsScan u (nb :: rest) st = bfsScan u rest st := by
        show bfsScan u rest (if nb.1 ∈ st.1 then st else _) = bfsScan u rest st
        rw [if_pos hv]
      obtain ⟨news, h1, h2, h3, h4, h5, h6⟩ := ih st hu
      rw [hstep]
      refine ⟨news, h1, h2, ?_, h4, h5, ?_⟩
      · intro z hz
        obtain ⟨hz1, hz2, w, hz3⟩ := h3 z hz
        exact ⟨hz1, hz2, w, List.mem_cons_of_mem _ hz3⟩
      · intro nb2 hnb2
        rcases List.mem_cons.mp hnb2 with rfl | hnb3
        · rw [h1]
          exact List.mem_append_right _ hv
        · exact h6 nb2 hnb3
    · have hne : nb.1 ≠ u := by
        intro h
        rw [h] at hv
        exact hv hu
      have hstep : bfsScan u (nb :: rest) st = bfsScan u rest
          (nb.1 :: st.1, aset st.2.1 nb.1 u,
            aset st.2.2.1 nb.1 (iget st.2.2.1 u + 1), st.2.2.2 ++ [nb.1]) := by
        show bfsScan u rest (if nb.1 ∈ st.1 then st else _) = _
        rw [if_neg hv]
      obtain ⟨news, h1, h2, h3, h4, h5, h6⟩ := ih
        (nb.1 :: st.1, aset st.2.1 nb.1 u,
          aset st.2.2.1 nb.1 (iget st.2.2.1 u + 1), st.2.2.2 ++ [nb.1])
        (List.mem_cons_of_mem _ hu)
      rw [hstep]
      have hnnews : nb.1 ∉ news := by
        intro hmem
        exact (h3 nb.1 hmem).1 (List.mem_cons_self _ _)
      have hdu : iget (aset st.2.2.1 nb.1 (iget st.2.2.1 u + 1)) u = iget st.2.2.1 u := by
        unfold iget
        rw [alook_aset_ne _ _ _ _ hne]
      refine ⟨nb.1 :: news, ?_, ?_, ?_, ?_, ?_, ?_⟩
      · rw [h1]
        simp
      · rw [h2]
        simp
      · intro z hz
        rcases List.mem_cons.mp hz with rfl | hz2
        · refine ⟨hv, ?_, nb.2, ?_⟩
          · rw [h5 nb.1 hnnews, alook_aset_self]
          · show (nb.1, nb.2) ∈ nb :: rest
            have heta : (nb.1, nb.2) = nb := rfl
            rw [heta]
            exact List.mem_cons_self _ _
        · obtain ⟨hz1, hz2v, w, hz3⟩ := h3 z hz2
          have hz1' : z ∉ st.1 := fun hmem => hz1 (List.mem_cons_of_mem _ hmem)
          rw [hdu] at hz2v
          exact ⟨hz1', hz2v, w, List.mem_cons_of_mem _ hz3⟩
      · exact List.nodup_cons.mpr ⟨hnnews, h4⟩
      · intro x hx
        have hx1 : x ∉ news := fun h => hx (List.mem_cons_of_mem _ h)
        have hx2 : nb.1 ≠ x := fun h => hx (h ▸ List.mem_cons_self _ _)
        rw [h5 x hx1, alook_aset_ne _ _ _ _ hx2]
      · intro nb2 hnb2
        rcases List.mem_cons.mp hnb2 with rfl | hnb3
        · rw [h1]
          refine List.mem_append_right _ (List.mem_cons_self _ _)
        · exact h6 nb2 hnb3

theorem pairwise_le_of_const (f : Int → Int) (c : Int) :
    ∀ (l : List Int), (∀ x ∈ l, f x = c) → l.Pairwise (fun a b => f a ≤ f b) := by
  intro l
  induction l with
  | nil => intro _; exact List.Pairwise.nil
  | cons a t ih =>
    intro h
    refine List.pairwise_cons.mpr ⟨?_, ih (fun x hx => h x (List.mem_cons_of_mem _ hx))⟩
    intro b hb
    rw [h a (List.mem_cons_self _ _), h b (List.mem_cons_of_mem _ hb)]

/-- The invariant of the BFS main loop at state `(visited, distm, queue)`:
hop-distance entries are sound walk lengths and minimal, the queue consists of
visited nodes in non-decreasing hop order spanning at most two levels, and
every visited node off the queue has been fully scanned. -/
structure BInv (g : Graph) (source : Int) (visited : List Int)
    (distm : List (Int × Int)) (queue : List Int) : Prop where
  bk : ∀ v ∈ visited, ∃ d, alook distm v = some d
  bs : ∀ v d, alook distm v = some d → ∃ p, Wk g source v p ∧ (p.length : Int) = d + 1
  bqv : ∀ x ∈ queue, x ∈ visited
  bscan : ∀ v ∈ visited, v ∉ queue → ∀ nb ∈ g.adjOf v, nb.1 ∈ visited
  bmin : ∀ v ∈ visited, ∀ p, Wk g source v p → iget distm v ≤ (p.length : Int) - 1
  bmono : queue.Pairwise (fun a b => iget distm a ≤ iget distm b)
  btwo : ∀ x ∈ queue, ∀ y ∈ queue, iget distm x ≤ iget distm y + 1
  bnodup : queue.Nodup
  bsrc : source ∈ visited

/-- While `v` is unvisited, every walk to `v` passes through a queue node
whose recorded hop count is at least two less than the walk's length. -/
theorem BInv_cross {g : Graph} {source : Int} {visited : List Int}
    {distm : List (Int × Int)} {queue : List Int}
    (inv : BInv g source visited distm queue) {v : Int} (hv : v ∉ visited)
    {p : List Int} (hp : Wk g source v p) :
    ∃ x ∈ queue, iget distm x + 2 ≤ (p.length : Int) := by
  obtain ⟨a, x, y, b, heq, hxv, hyv⟩ :=
    walk_crossing g visited p source v hp inv.bsrc hv
  subst heq
  obtain ⟨hpre, w, hw, _⟩ := Wk_split_prefix hp
  have hxq : x ∈ queue := by
    by_contra hxq
    exact hyv (inv.bscan x hxv hxq (y, w) (alook_eq_some_mem hw))
  have hmin := inv.bmin x hxv (a ++ [x]) hpre
  refine ⟨x, hxq, ?_⟩
  have hlen1 : ((a ++ [x]).length : Int) = (a.length : Int) + 1 := by
    simp
  have hlen2 : ((a ++ x :: y :: b).length : Int) =
      (a.length : Int) + 2 + (b.length : Int) := by
    simp
    omega
  rw [hlen1] at hmin
  rw [hlen2]
  omega

theorem BInv_payload {g : Graph} {source target : Int} {visited : List Int}
    {distm : List (Int × Int)} {queue : List Int}
    (inv : BInv g source visited distm queue) (ht : target ∈ visited) :
    (∃ p, Wk g source target p ∧ (p.length : Int) = iget distm target + 1) ∧
    (∀ p, Wk g source target p → iget distm target ≤ (p.length : Int) - 1) := by
  obtain ⟨d, hd⟩ := inv.bk target ht
  have hig : iget distm target = d := iget_eq_of_alook hd
  obtain ⟨p, hp, hlen⟩ := inv.bs target d hd
  refine ⟨⟨p, hp, by rw [hig, hlen]⟩, ?_⟩
  intro p2 hp2
  exact inv.bmin target ht p2 hp2

theorem bfsLoopF_min (g : Graph) (source target : Int) :
    ∀ (fuel : Nat) (visited : List Int) (parent distm : List (Int × Int))
      (queue : List Int) (res : List Int × List (Int × Int) × List (Int × Int)),
      bfsLoopF g target fuel visited parent distm queue = some res →
      BInv g source visited distm queue →
      Reachable g source target →
      target ∈ res.1 ∧
      (∃ p, Wk g source target p ∧ (p.length : Int) = iget res.2.2 target + 1) ∧
      (∀ p, Wk g source target p → iget res.2.2 target ≤ (p.length : Int) - 1) := by
  intro fuel
  induction fuel with
  | zero => intro _ _ _ _ _ h; cases h
  | succ fuel ih =>
    intro visited parent distm queue res h inv hr
    unfold bfsLoopF at h
    cases queue with
    | nil =>
      obtain rfl : (visited, parent, distm) = res := Option.some.inj h
      have htv : target ∈ visited := by
        by_contra htv
        obtain ⟨p0, hp0⟩ := hr
        obtain ⟨x, hx, _⟩ := BInv_cross inv htv hp0
        cases hx
      exact ⟨htv, BInv_payload inv htv⟩
    | cons u rest =>
      dsimp only at h
      by_cases ht : u = target
      · rw [if_pos ht] at h
        obtain rfl : (visited, parent, distm) = res := Option.some.inj h
        have htv : target ∈ visited := ht ▸ inv.bqv u (List.mem_cons_self _ _)
        exact ⟨htv, BInv_payload inv htv⟩
      · rw [if_neg ht] at h
        have huv : u ∈ visited := inv.bqv u (List.mem_cons_self _ _)
        obtain ⟨news, h1, h2, h3, h4, h5, h6⟩ :=
          bfsScan_spec u (g.adjOf u) (visited, parent, distm, rest) huv
        have hstab : ∀ x ∈ visited,
            alook (bfsScan u (g.adjOf u) (visited, parent, distm, rest)).2.2.1 x =
              alook distm x :=
          fun x hx => h5 x (fun hmem => (h3 x hmem).1 hx)
        have higstab : ∀ x ∈ visited,
            iget (bfsScan u (g.adjOf u) (visited, parent, distm, rest)).2.2.1 x =
              iget distm x := by
          intro x hx
          unfold iget
          rw [hstab x hx]
        have hignews : ∀ z ∈ news,
            iget (bfsScan u (g.adjOf u) (visited, parent, distm, rest)).2.2.1 z =
              iget distm u + 1 :=
          fun z hz => iget_eq_of_alook (h3 z hz).2.1
        have hrestq : ∀ x ∈ rest, x ∈ visited :=
          fun x hx => inv.bqv x (List.mem_cons_of_mem _ hx)
        have hheadle : ∀ x ∈ rest, iget distm u ≤ iget distm x :=
          (List.pairwise_cons.mp inv.bmono).1
        have hnewsvis : ∀ z ∈ news,
            z ∈ (bfsScan u (g.adjOf u) (visited, parent, distm, rest)).1 := by
          intro z hz
          rw [h1]
          exact List.mem_append_left _ (List.mem_reverse.mpr hz)
        refine ih _ _ _ _ res h ⟨?_, ?_, ?_, ?_, ?_, ?_, ?_, ?_, ?_⟩ hr
        · intro v hv
          rw [h1] at hv
          rcases List.mem_append.mp hv with hv1 | hv1
          · have hz := List.mem_reverse.mp hv1
            exact ⟨iget distm u + 1, (h3 v hz).2.1⟩
          · obtain ⟨d, hd⟩ := inv.bk v hv1
            exact ⟨d, by rw [hstab v hv1]; exact hd⟩
        · intro v d hd
          by_cases hvn : v ∈ news
          · obtain ⟨hv1, hv2, w, hv3⟩ := h3 v hvn
            rw [hv2] at hd
            obtain rfl : iget distm u + 1 = d := Option.some.inj hd
            obtain ⟨du0, hdu0⟩ := inv.bk u huv
            have hdu : iget distm u = du0 := iget_eq_of_alook hdu0
            obtain ⟨pu, hpu, hpulen⟩ := inv.bs u du0 hdu0
            have hwuv : g.wOf u v = some w :=
              mem_alook_eq_some (adjOf_keys_nodup g u) hv3
            have hsnoc := Wk_snoc hpu hwuv
            refine ⟨pu ++ [v], hsnoc.1, ?_⟩
            have : ((pu ++ [v]).length : Int) = (pu.length : Int) + 1 := by simp
            rw [this, hpulen, hdu]
          · rw [h5 v hvn] at hd
            exact inv.bs v d hd
        · intro x hx
          rw [h2] at hx
          rcases List.mem_append.mp hx with hx1 | hx1
          · rw [h1]
            exact List.mem_append_right _ (hrestq x hx1)
          · exact hnewsvis x hx1
        · intro v hv hvq nb hnb
          rw [h2] at hvq
          rw [h1] at hv
          rcases List.mem_append.mp hv with hv1 | hv1
          · exact absurd (List.mem_append_right _ (List.mem_reverse.mp hv1)) hvq
          · by_cases hvu : v = u
            · subst hvu
              exact h6 nb hnb
            · have hvq2 : v ∉ u :: rest := by
                intro hmem
                rcases List.mem_cons.mp hmem with h9 | h9
                · exact hvu h9
                · exact hvq (List.mem_append_left _ h9)
              have := inv.bscan v hv1 hvq2 nb hnb
              rw [h1]
              exact List.mem_append_right _ this
        · intro v hv p hp
          rw [h1] at hv
          rcases List.mem_append.mp hv with hv1 | hv1
          · have hz := List.mem_reverse.mp hv1
            have hznv : v ∉ visited := (h3 v hz).1
            obtain ⟨x, hxq, hxb⟩ := BInv_cross inv hznv hp
            have hdux : iget distm u ≤ iget distm x := by
              rcases List.mem_cons.mp hxq with rfl | hx2
              · exact le_refl _
              · exact hheadle x hx2
            rw [hignews v hz]
            omega
          · rw [higstab v hv1]
            exact inv.bmin v hv1 p hp
        · rw [h2]
          refine List.pairwise_append.mpr ⟨?_, ?_, ?_⟩
          · refine List.Pairwise.imp_of_mem ?_ (List.pairwise_cons.mp inv.bmono).2
            intro a b ha hb hab
            rw [higstab a (hrestq a ha), higstab b (hrestq b hb)]
            exact hab
          · refine pairwise_le_of_const _ (iget distm u + 1) news ?_
            intro z hz
            exact hignews z hz
          · intro a ha z hz
            rw [higstab a (hrestq a ha), hignews z hz]
            exact inv.btwo a (List.mem_cons_of_mem _ ha) u (List.mem_cons_self _ _)
        · intro x hx y hy
          rw [h2] at hx hy
          rcases List.mem_append.mp hx with hx1 | hx1 <;>
            rcases List.mem_append.mp hy with hy1 | hy1
          · rw [higstab x (hrestq x hx1), higstab y (hrestq y hy1)]
            exact inv.btwo x (List.mem_cons_of_mem _ hx1) y (List.mem_cons_of_mem _ hy1)
          · rw [higstab x (hrestq x hx1), hignews y hy1]
            have := inv.btwo x (List.mem_cons_of_mem _ hx1) u (List.mem_cons_self _ _)
            omega
          · rw [hignews x hx1, higstab y (hrestq y hy1)]
            have := hheadle y hy1
            omega
          · rw [hignews x hx1, hignews y hy1]
            omega
        · rw [h2]
          refine List.nodup_append.mpr ⟨(List.nodup_cons.mp inv.bnodup).2, h4, ?_⟩
          intro x hx hxn
          exact (h3 x hxn).1 (hrestq x hx)
        · rw [h1]
          exact List.mem_append_right _ inv.bsrc

theorem bfsRes_eq (g : Graph) (s t : Int) :
    bfsLoopF g t (bFuel g [s]) [s] [] [(s, 0)] [s] = some (bfsRes g s t) := by
  have hsome := bfsLoopF_isSome g t (bFuel g [s]) [s] [] [(s, 0)] [s]
    (bPsi_lt_bFuel g [s] [s])
  rcases Option.isSome_iff_exists.mp hsome with ⟨res, hres⟩
  rw [hres]
  unfold bfsRes
  rw [hres]
  rfl

theorem BInv_init (g : Graph) (s : Int) : BInv g s [s] [(s, 0)] [s] := by
  have halook : alook [((s : Int), (0 : Int))] s = some 0 := by
    show (if s = s then some (0 : Int) else none) = some 0
    rw [if_pos rfl]
  refine ⟨?_, ?_, fun x hx => hx, ?_, ?_, List.pairwise_singleton _ _, ?_,
    List.nodup_singleton s, List.mem_singleton.mpr rfl⟩
  · intro v hv
    rcases List.mem_singleton.mp hv with rfl
    exact ⟨0, halook⟩
  · intro v d hd
    have hd2 : (if s = v then some (0 : Int) else none) = some d := hd
    by_cases hsv : s = v
    · rw [if_pos hsv] at hd2
      obtain rfl : (0 : Int) = d := Option.some.inj hd2
      refine ⟨[s], hsv ▸ Wk_single g s, by simp⟩
    · rw [if_neg hsv] at hd2
      cases hd2
  · intro v hv hvq
    exact absurd hv hvq
  · intro v hv p hp
    rcases List.mem_singleton.mp hv with rfl
    rw [iget_eq_of_alook halook]
    have hne := Wk_ne_nil hp
    have hpos : 0 < p.length := List.length_pos_of_ne_nil hne
    omega
  · intro x hx y hy
    rcases List.mem_singleton.mp hx with rfl
    rcases List.mem_singleton.mp hy with rfl
    omega

theorem bfs_min_hops (g : Graph) (s t : Int) (hst : s ≠ t) (hr : Reachable g s t) :
    (∃ p, Wk g s t p ∧ (p.length : Int) = (g.BFS s t).1 + 1) ∧
    (∀ p, Wk g s t p → (g.BFS s t).1 ≤ (p.length : Int) - 1) := by
  obtain ⟨htv, hup, hlo⟩ := bfsLoopF_min g s t (bFuel g [s]) [s] [] [(s, 0)] [s]
    (bfsRes g s t) (bfsRes_eq g s t) (BInv_init g s) hr
  have hbfs : (g.BFS s t).1 = iget (bfsRes g s t).2.2 t := by
    unfold Graph.BFS
    rw [if_neg hst, if_pos htv]
  rw [hbfs]
  exact ⟨hup, hlo⟩

theorem pwt_unit (g : Graph) (huw : ∀ e ∈ g.effEdges, e.2.2 = 1) :
    ∀ p, pathOk g p = true → pwt g p = (p.length : ℚ) - 1 := by
  intro p
  induction p with
  | nil => intro h; cases h
  | cons u q ih =>
    intro h
    cases q with
    | nil =>
      show (0 : ℚ) = ([u].length : ℚ) - 1
      simp
    | cons v rest =>
      have h2 := pathOk_cons_of h
      obtain ⟨w, hw⟩ := Option.isSome_iff_exists.mp h2.1
      have hw1 : w = 1 := huw (u, v, w) ((mem_effEdges_iff g u v w).mpr hw)
      show (g.wOf u v).getD 0 + pwt g (v :: rest) = ((u :: v :: rest).length : ℚ) - 1
      rw [hw, ih h2.2, hw1]
      simp only [Option.getD_some, List.length_cons]
      push_cast
      ring

theorem NonnegW_of_unit (g : Graph) (huw : ∀ e ∈ g.effEdges, e.2.2 = 1) :
    NonnegW g := by
  intro e he
  rw [huw e he]
  norm_num

/-- C8 (amended).  On a graph in which every stored edge weight equals 1 and
for a reachable pair `(s, t)`, the hop count returned by `BFS(s, t)` is a
natural number `n` and `Dijkstra(s, t)` returns exactly the distance `n`. -/
theorem bfs_hops_eq_dijkstra_unit (g : Graph) (s t : Int)
    (huw : ∀ e ∈ g.effEdges, e.2.2 = 1) (hr : Reachable g s t) :
    ∃ n : ℕ, (g.BFS s t).1 = (n : Int) ∧ (g.Dijkstra s t).1 = some (n : ℚ) := by
  have hnn := NonnegW_of_unit g huw
  obtain ⟨q, p, heq, hmin, hwk, hpwt⟩ := dijkstra_correct g s t hnn hr
  by_cases hst : s = t
  · subst hst
    have hq0 : q = 0 := IsMinWk_unique hmin
      ⟨⟨[s], Wk_single g s, rfl⟩, fun p2 hp2 => pwt_nonneg hnn p2 hp2.1⟩
    refine ⟨0, ?_, ?_⟩
    · unfold Graph.BFS
      rw [if_pos rfl]
      simp
    · rw [heq, hq0]
      norm_num
  · obtain ⟨⟨pb, hpb, hpblen⟩, hblo⟩ := bfs_min_hops g s t hst hr
    have h1 : q ≤ (((g.BFS s t).1 : Int) : ℚ) := by
      have hle := hmin.2 pb hpb
      rw [pwt_unit g huw pb hpb.1] at hle
      have hc : ((pb.length : Int) : ℚ) = (((g.BFS s t).1 : Int) : ℚ) + 1 := by
        rw [hpblen]
        push_cast
        ring
      push_cast at hc hle ⊢
      linarith
    have h2 : (((g.BFS s t).1 : Int) : ℚ) ≤ q := by
      have hlo := hblo p hwk
      have hq2 : q = (p.length : ℚ) - 1 := by
        rw [← hpwt, pwt_unit g huw p hwk.1]
      have hc : (((g.BFS s t).1 : Int) : ℚ) ≤ ((p.length : Int) : ℚ) - 1 := by
        have := hlo
        push_cast
        push_cast at this
        exact_mod_cast this
      rw [hq2]
      push_cast at hc ⊢
      linarith
    have hq : q = (((g.BFS s t).1 : Int) : ℚ) := le_antisymm h1 h2
    have hdnn : 0 ≤ (g.BFS s t).1 := by
      have hpos : 0 < pb.length := List.length_pos_of_ne_nil (Wk_ne_nil hpb)
      omega
    refine ⟨(g.BFS s t).1.toNat, ?_, ?_⟩
    · rw [Int.toNat_of_nonneg hdnn]
    · rw [heq, hq]
      show some (((g.BFS s t).1 : Int) : ℚ) = some (((g.BFS s t).1.toNat : ℕ) : ℚ)
      congr 1
      rw [show (((g.BFS s t).1.toNat : ℕ) : ℚ) = (((g.BFS s t).1.toNat : Int) : ℚ) from by
        push_cast
        ring, Int.toNat_of_nonneg hdnn]

set_option maxRecDepth 100000 in
/-- Counterexample to the literal hop/distance equality: on the single
unit-weight edge `0→1` with the unreachable query `(1, 0)`, BFS returns the
sentinel hop count `-1` while Dijkstra returns the infinite sentinel, and
`-1` is not a representation of `+Inf`. -/
theorem bfs_unreachable_ne_dijkstra :
    (∀ e ∈ (Graph.mk [(0, 1, 1)]).effEdges, e.2.2 = 1) ∧
    ((Graph.mk [(0, 1, 1)]).BFS 1 0).1 = -1 ∧
    ((Graph.mk [(0, 1, 1)]).Dijkstra 1 0).1 = none := by
  refine ⟨by decide, ?_, ?_⟩
  · norm_num [Graph.BFS, bfsRes, bfsLoopF, bfsScan, bFuel, Graph.adjOf, Graph.nodeList,
      addNode, aset, alook, iget, reconstruct, reconGo, Graph.edges]
  · norm_num [Graph.Dijkstra, dijkstraRes, initDist, dijkstraLoop, dijkstraLoopF,
      dFuel, popMin, relaxList, relaxOne, dget, alook, aset, dAdd, dLt, dLe,
      Graph.nodeList, Graph.adjOf, Graph.edges, addNode, reconstruct, reconGo,
      iget, pqKeys]

/-- Witness for `bfs_hops_eq_dijkstra_unit` on the single unit edge `0→1`. -/
theorem bfs_hops_eq_dijkstra_unit_witness :
    ((∀ e ∈ (Graph.mk [(0, 1, 1)]).effEdges, e.2.2 = 1) ∧
      Reachable (Graph.mk [(0, 1, 1)]) 0 1) ∧
    (∃ n : ℕ, ((Graph.mk [(0, 1, 1)]).BFS 0 1).1 = (n : Int) ∧
      ((Graph.mk [(0, 1, 1)]).Dijkstra 0 1).1 = some (n : ℚ)) :=
  ⟨⟨by decide, by decide⟩,
    bfs_hops_eq_dijkstra_unit (Graph.mk [(0, 1, 1)]) 0 1 (by decide) (by decide)⟩
